import Mathlib

set_option maxRecDepth 8192

/-!
Verification of the chapter index and link resolver of `build_script.py`
(textbook build pipeline).  Strings are embedded as lists of characters;
the Python `re.sub` passes are embedded as left-to-right scanners with
explicit fuel (fuel = length of the input is always enough, since every
step consumes at least one character).
-/

namespace Build

abbrev Chars := List Char

def toChars (s : String) : Chars := s.data

/-- `stripPre pat s = some r` iff `s = pat ++ r`. -/
def stripPre : Chars → Chars → Option Chars
  | [], s => some s
  | p :: ps, c :: cs => if c = p then stripPre ps cs else none
  | _ :: _, [] => none

/-- `ChapterRef` data produced by `parse_chapters` (the `chapter_info` dict). -/
structure Chapter where
  section_num : Chars
  chapter_num : Chars
  slug : Chars
  title : Chars
  filename : Chars
deriving DecidableEq

/-- Python `str.zfill(2)`: pad on the left with `'0'` to width 2. -/
def zfill2 (s : Chars) : Chars :=
  if s.length < 2 then List.replicate (2 - s.length) '0' ++ s else s

/-- `find_target_chapter` of `convert_chapter_links`: first chapter whose
zero-padded key matches. -/
def find_target_chapter (chapters : List Chapter) (s c : Chars) : Option Chapter :=
  chapters.find? fun ch => ch.section_num == zfill2 s && ch.chapter_num == zfill2 c

/-- The link target `f"{section_num}_{chapter_num}_{slug}.md"`. -/
def chapter_url (t : Chapter) : Chars :=
  t.section_num ++ '_' :: t.chapter_num ++ '_' :: t.slug ++ toChars ".md"

/-! ### Rule 1 of `convert_chapter_links`: `\*\*Глава (\d+)\.(\d+)\*\*(?!\])` -/

/-- Match rule 1 at the head of the string: returns the two digit groups and
the rest after the match (the negative lookahead `(?!\])` is checked on the
rest). -/
def matchBold (s : Chars) : Option (Chars × Chars × Chars) :=
  match stripPre (toChars "**Глава ") s with
  | none => none
  | some rest =>
    if (rest.takeWhile Char.isDigit).isEmpty then none else
    match rest.dropWhile Char.isDigit with
    | '.' :: r2 =>
      if (r2.takeWhile Char.isDigit).isEmpty then none else
      match stripPre (toChars "**") (r2.dropWhile Char.isDigit) with
      | some r4 =>
        if r4.head? = some ']' then none
        else some (rest.takeWhile Char.isDigit, r2.takeWhile Char.isDigit, r4)
      | none => none
    | _ => none

/-- `replace_bold_chapter`: emit the link when the target chapter exists,
otherwise return the matched text unchanged. -/
def bold_replacement (chapters : List Chapter) (d1 d2 : Chars) : Chars :=
  match find_target_chapter chapters d1 d2 with
  | some t =>
    toChars "[**Глава " ++ d1 ++ '.' :: d2 ++ toChars "**](" ++ chapter_url t ++ [')']
  | none => toChars "**Глава " ++ d1 ++ '.' :: d2 ++ toChars "**"

/-- The `re.sub` pass for rule 1 (left-to-right, non-overlapping). -/
def sub_bold (chapters : List Chapter) : Nat → Chars → Chars
  | 0, s => s
  | fuel + 1, s =>
    match matchBold s with
    | some (d1, d2, rest) => bold_replacement chapters d1 d2 ++ sub_bold chapters fuel rest
    | none =>
      match s with
      | [] => []
      | c :: cs => c :: sub_bold chapters fuel cs

/-! ### Rule 2: `\[Глава (\d+)\.(\d+)\](?!\()` -/

def matchBracket (s : Chars) : Option (Chars × Chars × Chars) :=
  match stripPre (toChars "[Глава ") s with
  | none => none
  | some rest =>
    if (rest.takeWhile Char.isDigit).isEmpty then none else
    match rest.dropWhile Char.isDigit with
    | '.' :: r2 =>
      if (r2.takeWhile Char.isDigit).isEmpty then none else
      match r2.dropWhile Char.isDigit with
      | ']' :: r4 =>
        if r4.head? = some '(' then none
        else some (rest.takeWhile Char.isDigit, r2.takeWhile Char.isDigit, r4)
      | _ => none
    | _ => none

/-- `replace_bracket_chapter`. -/
def bracket_replacement (chapters : List Chapter) (d1 d2 : Chars) : Chars :=
  match find_target_chapter chapters d1 d2 with
  | some t =>
    toChars "[Глава " ++ d1 ++ '.' :: d2 ++ toChars "](" ++ chapter_url t ++ [')']
  | none => toChars "[Глава " ++ d1 ++ '.' :: d2 ++ [']']

def sub_bracket (chapters : List Chapter) : Nat → Chars → Chars
  | 0, s => s
  | fuel + 1, s =>
    match matchBracket s with
    | some (d1, d2, rest) =>
      bracket_replacement chapters d1 d2 ++ sub_bracket chapters fuel rest
    | none =>
      match s with
      | [] => []
      | c :: cs => c :: sub_bracket chapters fuel cs

/-! ### Rule 3: `(?<!\[|\*)([Гг]лав[аеуы]) (\d+)\.(\d+)(?!\])`

The second digit group is greedy; when the negative lookahead `(?!\])` fails
on the maximal run the engine backtracks by one digit (which then succeeds,
since the lookahead character becomes a digit).  The lookbehind inspects the
character of the original string immediately before the match. -/

/-- The grammatical-case word `[Гг]лав[аеуы]` followed by a space, at the
head of the string. -/
def plain_word (s : Chars) : Option (Chars × Chars) :=
  match s with
  | g :: rest0 =>
    if g = 'Г' ∨ g = 'г' then
      match rest0 with
      | 'л' :: 'а' :: 'в' :: e :: ' ' :: rest =>
        if e = 'а' ∨ e = 'е' ∨ e = 'у' ∨ e = 'ы' then
          some ([g, 'л', 'а', 'в', e], rest)
        else none
      | _ => none
    else none
  | [] => none

/-- Match rule 3 at the head: returns `(case word, d1, d2, rest)` with
backtracking of the second digit group against the lookahead. -/
def matchPlain (s : Chars) : Option (Chars × Chars × Chars × Chars) :=
  match plain_word s with
  | none => none
  | some (w, rest) =>
    if (rest.takeWhile Char.isDigit).isEmpty then none else
    match rest.dropWhile Char.isDigit with
    | '.' :: r2 =>
      if (r2.takeWhile Char.isDigit).isEmpty then none
      else if (r2.dropWhile Char.isDigit).head? = some ']' then
        if 2 ≤ (r2.takeWhile Char.isDigit).length then
          some (w, rest.takeWhile Char.isDigit, (r2.takeWhile Char.isDigit).dropLast,
            (r2.takeWhile Char.isDigit).drop ((r2.takeWhile Char.isDigit).length - 1) ++
              r2.dropWhile Char.isDigit)
        else none
      else some (w, rest.takeWhile Char.isDigit, r2.takeWhile Char.isDigit,
        r2.dropWhile Char.isDigit)
    | _ => none

/-- `replace_plain_chapter` (preserves the original case-form word). -/
def plain_replacement (chapters : List Chapter) (w d1 d2 : Chars) : Chars :=
  match find_target_chapter chapters d1 d2 with
  | some t => '[' :: w ++ ' ' :: d1 ++ '.' :: d2 ++ toChars "](" ++ chapter_url t ++ [')']
  | none => w ++ ' ' :: d1 ++ '.' :: d2

/-- The `re.sub` pass for rule 3.  `prev` is the last character of the
original string already consumed (`none` at the start); the negative
lookbehind rejects a match start right after `'['` or `'*'`. -/
def sub_plain (chapters : List Chapter) : Nat → Option Char → Chars → Chars
  | 0, _, s => s
  | fuel + 1, prev, s =>
    if prev = some '[' ∨ prev = some '*' then
      match s with
      | [] => []
      | c :: cs => c :: sub_plain chapters fuel (some c) cs
    else
      match matchPlain s with
      | some (w, d1, d2, rest) =>
        plain_replacement chapters w d1 d2 ++ sub_plain chapters fuel d2.getLast? rest
      | none =>
        match s with
        | [] => []
        | c :: cs => c :: sub_plain chapters fuel (some c) cs

/-- Rule 1 pass with enough fuel. -/
def sub_bold' (chapters : List Chapter) (s : Chars) : Chars := sub_bold chapters s.length s

/-- Rule 2 pass with enough fuel. -/
def sub_bracket' (chapters : List Chapter) (s : Chars) : Chars :=
  sub_bracket chapters s.length s

/-- Rule 3 pass with enough fuel, starting with no previous character. -/
def sub_plain' (chapters : List Chapter) (s : Chars) : Chars :=
  sub_plain chapters s.length none s

/-- `convert_chapter_links`: rule 1, then rule 2, then rule 3, each over the
result of the previous pass (the book link scheme). -/
def convert_chapter_links (chapters : List Chapter) (content : Chars) : Chars :=
  sub_plain' chapters (sub_bracket' chapters (sub_bold' chapters content))

/-! ### The PDF (document scheme) link pass of `generate_pdf`

`content = re.sub(r'\[Глава (\d+)\.(\d+)\]\([^)]+\)', convert_pdf_links, content)`
followed by the analogous substitution for `[**Глава X.Y**](...)`.
Neither substitution consults the catalog. -/

def matchPdfBracket (s : Chars) : Option (Chars × Chars × Chars) :=
  match stripPre (toChars "[Глава ") s with
  | none => none
  | some rest =>
    if (rest.takeWhile Char.isDigit).isEmpty then none else
    match rest.dropWhile Char.isDigit with
    | '.' :: r2 =>
      if (r2.takeWhile Char.isDigit).isEmpty then none else
      match r2.dropWhile Char.isDigit with
      | ']' :: '(' :: r4 =>
        if (r4.takeWhile (· != ')')).isEmpty then none else
        match r4.dropWhile (· != ')') with
        | ')' :: r6 => some (rest.takeWhile Char.isDigit, r2.takeWhile Char.isDigit, r6)
        | _ => none
      | _ => none
    | _ => none

/-- The replacement of `convert_pdf_links`: an in-document anchor, with the
key zero-padded and the visible text keeping the original digits. -/
def pdf_bracket_replacement (d1 d2 : Chars) : Chars :=
  toChars "<a href=\x22#chapter_" ++ zfill2 d1 ++ '_' :: zfill2 d2 ++
    toChars "\x22>Глава " ++ d1 ++ '.' :: d2 ++ toChars "</a>"

def sub_pdf_bracket : Nat → Chars → Chars
  | 0, s => s
  | fuel + 1, s =>
    match matchPdfBracket s with
    | some (d1, d2, rest) => pdf_bracket_replacement d1 d2 ++ sub_pdf_bracket fuel rest
    | none =>
      match s with
      | [] => []
      | c :: cs => c :: sub_pdf_bracket fuel cs

def matchPdfBold (s : Chars) : Option (Chars × Chars × Chars) :=
  match stripPre (toChars "[**Глава ") s with
  | none => none
  | some rest =>
    if (rest.takeWhile Char.isDigit).isEmpty then none else
    match rest.dropWhile Char.isDigit with
    | '.' :: r2 =>
      if (r2.takeWhile Char.isDigit).isEmpty then none else
      match r2.dropWhile Char.isDigit with
      | '*' :: '*' :: ']' :: '(' :: r4 =>
        if (r4.takeWhile (· != ')')).isEmpty then none else
        match r4.dropWhile (· != ')') with
        | ')' :: r6 => some (rest.takeWhile Char.isDigit, r2.takeWhile Char.isDigit, r6)
        | _ => none
      | _ => none
    | _ => none

/-- The inline lambda replacement for `[**Глава X.Y**](...)` in `generate_pdf`. -/
def pdf_bold_replacement (d1 d2 : Chars) : Chars :=
  toChars "<a href=\x22#chapter_" ++ zfill2 d1 ++ '_' :: zfill2 d2 ++
    toChars "\x22><strong>Глава " ++ d1 ++ '.' :: d2 ++ toChars "</strong></a>"

def sub_pdf_bold : Nat → Chars → Chars
  | 0, s => s
  | fuel + 1, s =>
    match matchPdfBold s with
    | some (d1, d2, rest) => pdf_bold_replacement d1 d2 ++ sub_pdf_bold fuel rest
    | none =>
      match s with
      | [] => []
      | c :: cs => c :: sub_pdf_bold fuel cs

def sub_pdf_bracket' (s : Chars) : Chars := sub_pdf_bracket s.length s

def sub_pdf_bold' (s : Chars) : Chars := sub_pdf_bold s.length s

/-- The complete chapter-link pass of `generate_pdf` (document/PDF scheme):
rewrite already-linked chapter mentions into in-document anchors. -/
def convert_pdf_links (content : Chars) : Chars :=
  sub_pdf_bold' (sub_pdf_bracket' content)

/-- Substring test: `sub` occurs somewhere in `s`. -/
def containsSub : Chars → Chars → Bool
  | [], sub => sub.isEmpty
  | c :: cs, sub => (stripPre sub (c :: cs)).isSome || containsSub cs sub

/-- The demo catalog: one chapter with key `(02, 01)` and slug `osnovy`. -/
def demoCatalog : List Chapter :=
  [{ section_num := toChars "02", chapter_num := toChars "01", slug := toChars "osnovy",
     title := toChars "Основы", filename := toChars "02_01_osnovy.md" }]

/-! ### `parse_chapters`: scanning the chapter directory -/

/-- Python whitespace (`str.strip`, `\s`). -/
def isSpace (c : Char) : Bool :=
  c == ' ' || c == '\t' || c == '\n' || c == '\r' || c == '\x0b' || c == '\x0c'

/-- Python `str.strip()`. -/
def strip (s : Chars) : Chars :=
  ((s.dropWhile isSpace).reverse.dropWhile isSpace).reverse

/-- A cased character of the alphabets this textbook uses (ASCII and
Cyrillic), as used by Python `str.title()` to find word starts. -/
def isCased (c : Char) : Bool :=
  ('a' ≤ c && c ≤ 'z') || ('A' ≤ c && c ≤ 'Z') ||
    ('а' ≤ c && c ≤ 'я') || ('А' ≤ c && c ≤ 'Я') || c == 'ё' || c == 'Ё'

/-- Uppercase mapping over ASCII and Cyrillic. -/
def toUpperRu (c : Char) : Char :=
  if 'a' ≤ c && c ≤ 'z' then Char.ofNat (c.toNat - 32)
  else if 'а' ≤ c && c ≤ 'я' then Char.ofNat (c.toNat - 32)
  else if c = 'ё' then 'Ё' else c

/-- Lowercase mapping over ASCII and Cyrillic. -/
def toLowerRu (c : Char) : Char :=
  if 'A' ≤ c && c ≤ 'Z' then Char.ofNat (c.toNat + 32)
  else if 'А' ≤ c && c ≤ 'Я' then Char.ofNat (c.toNat + 32)
  else if c = 'Ё' then 'ё' else c

/-- Python `str.lower()` over the alphabets in use. -/
def lowerRu (s : Chars) : Chars := s.map toLowerRu

/-- Python `str.title()`: uppercase every cased character that follows a
non-cased one, lowercase the rest. -/
def pyTitleAux : Bool → Chars → Chars
  | _, [] => []
  | prevCased, c :: cs =>
    (if isCased c then (if prevCased then toLowerRu c else toUpperRu c) else c) ::
      pyTitleAux (isCased c) cs

def pyTitle (s : Chars) : Chars := pyTitleAux false s

/-- Greedy split of the filename tail after `SS_CC_`: the longest nonempty
slug followed by `.md` (the regex fragment `(.+)\.md` under `re.match`,
which needs no end anchor). -/
def slugSplit : Chars → Option Chars
  | [] => none
  | c :: cs =>
    match slugSplit cs with
    | some s => some (c :: s)
    | none => if cs.take 3 = ['.', 'm', 'd'] then some [c] else none

/-- `re.match(r'(\d{2})_(\d{2})_(.+)\.md', filename)`: the section group,
the chapter group and the slug. -/
def parse_filename : Chars → Option (Chars × Chars × Chars)
  | a :: b :: '_' :: c :: d :: '_' :: rest =>
    if a.isDigit && b.isDigit && c.isDigit && d.isDigit then
      (slugSplit rest).map fun slug => ([a, b], [c, d], slug)
    else none
  | _ => none

/-- Strip an optional leading `Глава N.M` prefix (with trailing colons or
spaces) from a title: `re.sub(r'^Глава \d+\.\d+[:\s]*', '', title)`. -/
def strip_glava_title (title : Chars) : Chars :=
  match stripPre (toChars "Глава ") title with
  | none => title
  | some r =>
    if (r.takeWhile Char.isDigit).isEmpty then title else
    match r.dropWhile Char.isDigit with
    | '.' :: r2 =>
      if (r2.takeWhile Char.isDigit).isEmpty then title
      else (r2.dropWhile Char.isDigit).dropWhile fun c => c == ':' || isSpace c
    | _ => title

/-- The slug-derived fallback title: underscores become spaces, then
`str.title()`. -/
def slug_title (slug : Chars) : Chars :=
  pyTitle (slug.map fun c => if c = '_' then ' ' else c)

/-- Title derivation of `parse_chapters`: use the first line when it is a
`# ` heading (stripping the marker and an optional `Глава N.M` prefix),
otherwise (including an unreadable file, `firstLine = none`) fall back to
the slug-derived title. -/
def derive_title (slug : Chars) (firstLine : Option Chars) : Chars :=
  match firstLine with
  | some l =>
    if (strip l).take 2 = ['#', ' '] then
      strip_glava_title (strip ((strip l).drop 2))
    else slug_title slug
  | none => slug_title slug

/-- One source file: its name and its first line (`none` when the file
cannot be read). -/
structure SrcFile where
  name : Chars
  firstLine : Option Chars
deriving DecidableEq

/-- The `chapter_info` record built for one matching file. -/
def mk_chapter (name : Chars) (firstLine : Option Chars) : Option Chapter :=
  (parse_filename name).map fun x =>
    { section_num := x.1, chapter_num := x.2.1, slug := x.2.2,
      title := derive_title x.2.2 firstLine, filename := name }

/-- `parse_chapters`: walk the sorted `*.md` listing, keeping every file
that matches the naming pattern, in listing order (`self.chapters`). -/
def parse_chapters (files : List SrcFile) : List Chapter :=
  files.filterMap fun f => mk_chapter f.name f.firstLine

/-- Python `str(int(s))` on a digit string: drop leading zeros. -/
def int_str (s : Chars) : Chars :=
  match s.dropWhile (· == '0') with
  | [] => ['0']
  | r => r

/-- The display number `f"{int(section)}.{int(chapter)}"`. -/
def full_num (ch : Chapter) : Chars :=
  int_str ch.section_num ++ '.' :: int_str ch.chapter_num

/-- The fixed table of section names. -/
def sections_table : List (Chars × Chars) :=
  [(toChars "01", toChars "Понятие информации"),
   (toChars "02", toChars "Технические средства"),
   (toChars "03", toChars "Программные средства"),
   (toChars "04", toChars "Модели решения задач"),
   (toChars "05", toChars "Основы алгоритмизации"),
   (toChars "06", toChars "Языки программирования"),
   (toChars "07", toChars "Базы данных"),
   (toChars "08", toChars "Локальные и глобальные сети"),
   (toChars "09", toChars "Защита информации")]

/-- `sections.get(section_num, f"Раздел {int(section_num)}")`. -/
def section_name (num : Chars) : Chars :=
  match sections_table.lookup num with
  | some n => n
  | none => toChars "Раздел " ++ int_str num

/-- `toc_structure` insertion: append the chapter to its section's group,
creating the group at the end on first sight (an `OrderedDict`). -/
def toc_insert (toc : List (Chars × List Chapter)) (ch : Chapter) :
    List (Chars × List Chapter) :=
  match toc with
  | [] => [(ch.section_num, [ch])]
  | (k, chs) :: rest =>
    if k = ch.section_num then (k, chs ++ [ch]) :: rest
    else (k, chs) :: toc_insert rest ch

/-- `toc_structure` built from the chapter list. -/
def build_toc (chapters : List Chapter) : List (Chars × List Chapter) :=
  chapters.foldl toc_insert []

/-- Catalog iteration order: sections in insertion order, then each
section's chapters in insertion order. -/
def toc_flatten (toc : List (Chars × List Chapter)) : List Chapter :=
  toc.flatMap Prod.snd

/-- The numeric value of a two-digit group. -/
def two_digit_val (s : Chars) : Nat :=
  match s with
  | [a, b] => 10 * (a.toNat - 48) + (b.toNat - 48)
  | _ => 0

/-- The `(sectionNumber, chapterNumber)` key of a chapter. -/
def chapter_key (ch : Chapter) : Nat × Nat :=
  (two_digit_val ch.section_num, two_digit_val ch.chapter_num)

/-- The key of a source file, when its name parses. -/
def file_key (f : SrcFile) : Option (Nat × Nat) :=
  (parse_filename f.name).map fun x => (two_digit_val x.1, two_digit_val x.2.1)

/-- Strict lexicographic order on character lists (Python string `<`). -/
def lexLt : Chars → Chars → Bool
  | [], [] => false
  | [], _ :: _ => true
  | _ :: _, [] => false
  | c :: cs, d :: ds => if c < d then true else if c = d then lexLt cs ds else false

/-- Strict order on `(sectionNumber, chapterNumber)` keys. -/
def keyLt (k1 k2 : Nat × Nat) : Prop :=
  k1.1 < k2.1 ∨ (k1.1 = k2.1 ∧ k1.2 < k2.2)

/-- Two files with the same key `(01, 01)` under distinct names. -/
def demoDupFiles : List SrcFile :=
  [{ name := toChars "01_01_intro.md", firstLine := some (toChars "# Введение") },
   { name := toChars "01_01_vvedenie.md", firstLine := some (toChars "# Введение 2") }]

/-! ### PDF table of contents: second-level headings (`generate_pdf`) -/

/-- Split into lines at newline characters (the line structure that
`re.MULTILINE` matching sees). -/
def splitNl : Chars → List Chars
  | [] => [[]]
  | c :: cs =>
    if c = '\n' then [] :: splitNl cs
    else
      match splitNl cs with
      | l :: ls => (c :: l) :: ls
      | [] => [[c]]

/-- Join lines with newlines (inverse of `splitNl` on newline-free lines). -/
def joinNl : List Chars → Chars
  | [] => []
  | [l] => l
  | l :: ls => l ++ '\n' :: joinNl ls

/-- One line's match under `^## (.+)$`: the text after the `## ` marker,
when nonempty. -/
def h2_of_line : Chars → Option Chars
  | '#' :: '#' :: ' ' :: rest => if rest.isEmpty then none else some rest
  | _ => none

/-- All `^## (.+)$` matches of the chapter content, in order. -/
def h2_headings (content : Chars) : List Chars :=
  (splitNl content).filterMap h2_of_line

/-- The boilerplate headings excluded from the PDF table of contents. -/
def denylist : List Chars :=
  [toChars "введение", toChars "ключевые термины", toChars "контрольные вопросы",
   toChars "резюме", toChars "связь с другими темами", toChars "связь с другими главами"]

/-- `f"chapter_{section_num}_{chapter_num}"`. -/
def chapter_html_id (ch : Chapter) : Chars :=
  toChars "chapter_" ++ ch.section_num ++ '_' :: ch.chapter_num

/-- Python `enumerate`, starting at the given index. -/
def enum_from {α : Type} : Nat → List α → List (Nat × α)
  | _, [] => []
  | i, x :: xs => (i, x) :: enum_from (i + 1) xs

/-- The PDF TOC sub-entries for one chapter: every `##` heading is given the
ordinal of its occurrence (`enumerate` over all matches), denylisted
headings are skipped after consuming their ordinal, and each surviving
heading is addressed `{chapter_id}_h2_{i}`.  Returns `(anchor, title)`
pairs, the title stripped as in the source. -/
def toc_subentries (cid : Chars) (content : Chars) : List (Chars × Chars) :=
  (enum_from 0 (h2_headings content)).filterMap fun p =>
    if denylist.contains (lowerRu (strip p.2)) then none
    else some (cid ++ toChars "_h2_" ++ Nat.toDigits 10 p.1, strip p.2)

/-- Modelled from the spec: the external markdown library (not part of this
repository) converts each second-level heading line `## title` of the
chapter body into the HTML element `<h2>title</h2>` (title whitespace
trimmed), one `<h2>` per `##` line in order, and produces no other `<h2>`
elements for the other line kinds used here; other lines are carried
through. -/
def render_markdown_h2 (content : Chars) : Chars :=
  joinNl ((splitNl content).map fun l =>
    match h2_of_line l with
    | some rest => toChars "<h2>" ++ strip rest ++ toChars "</h2>"
    | none => l)

/-- The non-greedy `(.+?)</h2>` tail of `<h2>(.+?)</h2>`: the shortest
nonempty newline-free run followed by `</h2>`. -/
def findH2Close : Chars → Option (Chars × Chars)
  | [] => none
  | c :: cs =>
    if c = '\n' then none
    else if cs.take 5 = toChars "</h2>" then some ([c], cs.drop 5)
    else
      match findH2Close cs with
      | some (inner, rest) => some (c :: inner, rest)
      | none => none

/-- `add_h2_id`: rewrite each `<h2>...</h2>` to carry
`id="{chapter_id}_h2_{counter}"`, the counter starting at 0 and increasing
with every rewritten element. -/
def add_h2_ids (cid : Chars) : Nat → Nat → Chars → Chars
  | 0, _, s => s
  | fuel + 1, k, s =>
    match stripPre (toChars "<h2>") s, s with
    | some rest, _ =>
      (match findH2Close rest with
      | some (inner, after) =>
        toChars "<h2 id=\x22" ++ cid ++ toChars "_h2_" ++ Nat.toDigits 10 k ++
          toChars "\x22>" ++ inner ++ toChars "</h2>" ++ add_h2_ids cid fuel (k + 1) after
      | none =>
        match s with
        | [] => []
        | c :: cs => c :: add_h2_ids cid fuel k cs)
    | none, [] => []
    | none, c :: cs => c :: add_h2_ids cid fuel k cs

/-- The `add_h2_id` pass with enough fuel. -/
def add_h2_ids' (cid : Chars) (s : Chars) : Chars := add_h2_ids cid s.length 0 s

/-- The `<h2 id="{cid}_h2_{k}">t</h2>` element that `add_h2_id` produces. -/
def h2_anchor (cid : Chars) (k : Nat) (t : Chars) : Chars :=
  toChars "<h2 id=\x22" ++ cid ++ toChars "_h2_" ++ Nat.toDigits 10 k ++
    toChars "\x22>" ++ t ++ toChars "</h2>"

/-- A chapter source with three `##` headings and prose in between. -/
def demo_chapter_content (t1 t2 t3 : Chars) : Chars :=
  joinNl [toChars "# Заголовок", [], '#' :: '#' :: ' ' :: t1, [], toChars "Текст.", [],
          '#' :: '#' :: ' ' :: t2, [], toChars "Ещё текст.", [],
          '#' :: '#' :: ' ' :: t3, []]

/-! ## C4: idempotence of the book-scheme resolver -/

/-- A string of 7-bit (filename-safe) characters; the Cyrillic letters the
mention patterns require cannot occur in it. -/
abbrev ascii_str (s : Chars) : Prop := ∀ c ∈ s, c.toNat < 128

/-- The chapter whose slug contains a chapter mention. -/
def advCatalog : List Chapter :=
  [{ section_num := toChars "01", chapter_num := toChars "01",
     slug := toChars "глава 1.1 foo", title := toChars "Приложение",
     filename := toChars "01_01_глава 1.1 foo.md" }]

/-- The unlinked bold mention followed by arbitrary text. -/
def mention_bold (d1 d2 post : Chars) : Chars :=
  toChars "**Глава " ++ (d1 ++ ('.' :: (d2 ++ ('*' :: '*' :: post))))

/-- The link rule 1 produces, followed by the same text. -/
def resolved_bold (d1 d2 u post : Chars) : Chars :=
  toChars "[**Глава " ++ (d1 ++ ('.' :: (d2 ++ (toChars "**](" ++ (u ++ (')' :: post))))))

/-- The unlinked bracket mention followed by arbitrary text. -/
def mention_bracket (d1 d2 post : Chars) : Chars :=
  toChars "[Глава " ++ (d1 ++ ('.' :: (d2 ++ (']' :: post))))

/-- The plain prose mention (any case form `w`) followed by arbitrary text. -/
def mention_plain (w d1 d2 post : Chars) : Chars :=
  w ++ (' ' :: (d1 ++ ('.' :: (d2 ++ post))))

/-- The link rules 2/3 produce (rule 2 is the case `w = "Глава"`). -/
def resolved_plain (w d1 d2 u post : Chars) : Chars :=
  '[' :: (w ++ (' ' :: (d1 ++ ('.' :: (d2 ++ (toChars "](" ++ (u ++ (')' :: post))))))))

/-- No rule-1 match at any position of the string. -/
def matchfree_bold (U : Chars) : Prop :=
  ∀ p q : Chars, U = p ++ q → matchBold q = none

/-- No rule-2 match at any position of the string. -/
def matchfree_bracket (U : Chars) : Prop :=
  ∀ p q : Chars, U = p ++ q → matchBracket q = none

/-- The lookbehind character of rule 3 for the position after `p`, when the
scan started with previous character `prev`. -/
def prevOf (prev : Option Char) (p : Chars) : Option Char :=
  match p.getLast? with
  | some c => some c
  | none => prev

/-- No rule-3 match at any position of the string that the negative
lookbehind does not already reject (`prev` seeds the lookbehind). -/
def matchfree_plain (prev : Option Char) (U : Chars) : Prop :=
  ∀ p q : Chars, U = p ++ q → prevOf prev p ≠ some '[' → prevOf prev p ≠ some '*' →
    matchPlain q = none

/-! ### The `build` pipeline -/

/-- What can make a pipeline step fail. -/
structure BuildEnv where
  chapters_dir_exists : Bool
  files : List SrcFile
  pdf_write_ok : Bool

/-- `parse_chapters` returns `False` exactly when the chapters directory is
missing; an empty chapter list still succeeds (the script prints
`Найдено 0 глав` and returns `True`). -/
def parse_chapters_step (env : BuildEnv) : Bool := env.chapters_dir_exists

def generate_root_readme_step (_ : BuildEnv) : Bool := true

def export_book_markdown_step (_ : BuildEnv) : Bool := true

def setup_github_pages_step (_ : BuildEnv) : Bool := true

/-- `generate_pdf` catches exceptions from the PDF serialization and
returns `False`. -/
def generate_pdf_step (env : BuildEnv) : Bool := env.pdf_write_ok

def create_gitattributes_step (_ : BuildEnv) : Bool := true

/-- The six steps of `build`, in order. -/
def build_steps : List (String × (BuildEnv → Bool)) :=
  [("parse_chapters", parse_chapters_step),
   ("generate_root_readme", generate_root_readme_step),
   ("export_book_markdown", export_book_markdown_step),
   ("setup_github_pages", setup_github_pages_step),
   ("generate_pdf", generate_pdf_step),
   ("create_gitattributes", create_gitattributes_step)]

/-- Run the pipeline: stop at the first failing step.  Returns overall
success and the names of the steps attempted. -/
def build_run : List (String × (BuildEnv → Bool)) → BuildEnv → Bool × List String
  | [], _ => (true, [])
  | (name, f) :: rest, env =>
    if f env then
      match build_run rest env with
      | (ok, ran) => (ok, name :: ran)
    else (false, [name])

/-- `TextbookBuilder.build`. -/
def build (env : BuildEnv) : Bool × List String := build_run build_steps env

/-- `main`: process exit status, `0` on success and `1` on failure. -/
def main_exit (env : BuildEnv) : Nat := if (build env).1 then 0 else 1

/-! ## Basic lemmas about the scanning helpers -/

theorem stripPre_eq_some {pat s r : Chars} (h : stripPre pat s = some r) : s = pat ++ r := by
  induction pat generalizing s with
  | nil => simp only [stripPre, Option.some_inj] at h; simp [h]
  | cons p ps ih =>
    cases s with
    | nil => simp [stripPre] at h
    | cons c cs =>
      simp only [stripPre] at h
      split at h
      · next hc => rw [hc, List.cons_append, ih h]
      · exact absurd h (by simp)

theorem stripPre_append (pat r : Chars) : stripPre pat (pat ++ r) = some r := by
  induction pat with
  | nil => rfl
  | cons p ps ih => simp [stripPre, ih]

theorem takeWhile_append_all {p : Char → Bool} {d : Chars} (r : Chars)
    (hd : ∀ c ∈ d, p c = true) : (d ++ r).takeWhile p = d ++ r.takeWhile p := by
  induction d with
  | nil => simp
  | cons c cs ih =>
    simp only [List.cons_append, List.takeWhile_cons, hd c (by simp), if_pos rfl]
    simp [ih (fun x hx => hd x (by simp [hx]))]

theorem dropWhile_append_all {p : Char → Bool} {d : Chars} (r : Chars)
    (hd : ∀ c ∈ d, p c = true) : (d ++ r).dropWhile p = r.dropWhile p := by
  induction d with
  | nil => simp
  | cons c cs ih =>
    simp only [List.cons_append, List.dropWhile_cons, hd c (by simp), if_pos rfl]
    exact ih (fun x hx => hd x (by simp [hx]))

theorem takeWhile_cons_neg {p : Char → Bool} {c : Char} (r : Chars) (hc : p c = false) :
    (c :: r).takeWhile p = [] := by simp [List.takeWhile_cons, hc]

theorem dropWhile_cons_neg {p : Char → Bool} {c : Char} (r : Chars) (hc : p c = false) :
    (c :: r).dropWhile p = c :: r := by simp [List.dropWhile_cons, hc]

/-! ## Identity lemmas: a pass that never finds its pattern leaves the text
byte-for-byte unchanged. -/

theorem matchBold_none_of_head {s : Chars} (h : s.head? ≠ some '*') : matchBold s = none := by
  cases s with
  | nil => rfl
  | cons c cs =>
    have hc : c ≠ '*' := by intro he; exact h (by simp [he])
    simp [matchBold, toChars, stripPre, hc]

theorem matchBracket_none_of_head {s : Chars} (h : s.head? ≠ some '[') :
    matchBracket s = none := by
  cases s with
  | nil => rfl
  | cons c cs =>
    have hc : c ≠ '[' := by intro he; exact h (by simp [he])
    simp [matchBracket, toChars, stripPre, hc]

theorem matchPdfBracket_none_of_head {s : Chars} (h : s.head? ≠ some '[') :
    matchPdfBracket s = none := by
  cases s with
  | nil => rfl
  | cons c cs =>
    have hc : c ≠ '[' := by intro he; exact h (by simp [he])
    simp [matchPdfBracket, toChars, stripPre, hc]

theorem matchPdfBold_none_of_head {s : Chars} (h : s.head? ≠ some '[') :
    matchPdfBold s = none := by
  cases s with
  | nil => rfl
  | cons c cs =>
    have hc : c ≠ '[' := by intro he; exact h (by simp [he])
    simp [matchPdfBold, toChars, stripPre, hc]

theorem plain_word_none_of_head {s : Chars} (h : s.head? ≠ some 'Г' ∧ s.head? ≠ some 'г') :
    plain_word s = none := by
  cases s with
  | nil => rfl
  | cons c cs =>
    have hc : ¬(c = 'Г' ∨ c = 'г') := by
      rintro (he | he)
      · exact h.1 (by simp [he])
      · exact h.2 (by simp [he])
    simp [plain_word, hc]

theorem matchPlain_none_of_head {s : Chars} (h : s.head? ≠ some 'Г' ∧ s.head? ≠ some 'г') :
    matchPlain s = none := by
  simp [matchPlain, plain_word_none_of_head h]

theorem sub_bold_id_of_no_star {chapters : List Chapter} :
    ∀ (fuel : Nat) (s : Chars), '*' ∉ s → sub_bold chapters fuel s = s := by
  intro fuel
  induction fuel with
  | zero => intro s _; rfl
  | succ f ih =>
    intro s hs
    have hm : matchBold s = none := by
      apply matchBold_none_of_head
      cases s with
      | nil => simp
      | cons c cs =>
        have : c ≠ '*' := fun he => hs (by simp [he])
        simp [this]
    cases s with
    | nil => simp [sub_bold, hm]
    | cons c cs =>
      simp only [sub_bold, hm]
      rw [ih cs (fun hmem => hs (by simp [hmem]))]

theorem sub_bracket_id_of_no_bracket {chapters : List Chapter} :
    ∀ (fuel : Nat) (s : Chars), '[' ∉ s → sub_bracket chapters fuel s = s := by
  intro fuel
  induction fuel with
  | zero => intro s _; rfl
  | succ f ih =>
    intro s hs
    have hm : matchBracket s = none := by
      apply matchBracket_none_of_head
      cases s with
      | nil => simp
      | cons c cs =>
        have : c ≠ '[' := fun he => hs (by simp [he])
        simp [this]
    cases s with
    | nil => simp [sub_bracket, hm]
    | cons c cs =>
      simp only [sub_bracket, hm]
      rw [ih cs (fun hmem => hs (by simp [hmem]))]

theorem sub_plain_id_of_no_glava {chapters : List Chapter} :
    ∀ (fuel : Nat) (prev : Option Char) (s : Chars),
      'Г' ∉ s → 'г' ∉ s → sub_plain chapters fuel prev s = s := by
  intro fuel
  induction fuel with
  | zero => intro prev s _ _; rfl
  | succ f ih =>
    intro prev s hG hg
    have hm : matchPlain s = none := by
      apply matchPlain_none_of_head
      cases s with
      | nil => simp
      | cons c cs =>
        constructor
        · have : c ≠ 'Г' := fun he => hG (by simp [he]); simp [this]
        · have : c ≠ 'г' := fun he => hg (by simp [he]); simp [this]
    cases s with
    | nil =>
      by_cases hb : prev = some '[' ∨ prev = some '*' <;> simp [sub_plain, hb, hm]
    | cons c cs =>
      have hG' : 'Г' ∉ cs := fun hmem => hG (by simp [hmem])
      have hg' : 'г' ∉ cs := fun hmem => hg (by simp [hmem])
      by_cases hb : prev = some '[' ∨ prev = some '*'
      · simp only [sub_plain, if_pos hb]
        rw [ih _ cs hG' hg']
      · simp only [sub_plain, if_neg hb, hm]
        rw [ih _ cs hG' hg']

theorem sub_pdf_bracket_id_of_no_bracket :
    ∀ (fuel : Nat) (s : Chars), '[' ∉ s → sub_pdf_bracket fuel s = s := by
  intro fuel
  induction fuel with
  | zero => intro s _; rfl
  | succ f ih =>
    intro s hs
    have hm : matchPdfBracket s = none := by
      apply matchPdfBracket_none_of_head
      cases s with
      | nil => simp
      | cons c cs =>
        have : c ≠ '[' := fun he => hs (by simp [he])
        simp [this]
    cases s with
    | nil => simp [sub_pdf_bracket, hm]
    | cons c cs =>
      simp only [sub_pdf_bracket, hm]
      rw [ih cs (fun hmem => hs (by simp [hmem]))]

/-! ## Inversion lemmas: a successful match reconstructs its input. -/

theorem matchBold_eq_some {s d1 d2 rest : Chars}
    (h : matchBold s = some (d1, d2, rest)) :
    s = toChars "**Глава " ++ d1 ++ '.' :: d2 ++ toChars "**" ++ rest ∧
      d1 ≠ [] ∧ d2 ≠ [] ∧ (∀ c ∈ d1, c.isDigit = true) ∧ (∀ c ∈ d2, c.isDigit = true) ∧
      rest.head? ≠ some ']' := by
  unfold matchBold at h
  split at h
  · exact absurd h (by simp)
  · next rest0 heq0 =>
    rw [stripPre_eq_some heq0]
    split at h
    · exact absurd h (by simp)
    · next hne1 =>
      split at h
      · next r2 heq2 =>
        split at h
        · exact absurd h (by simp)
        · next hne2 =>
          split at h
          · next r4 heq4 =>
            split at h
            · exact absurd h (by simp)
            · next hhead =>
              simp only [Option.some_inj, Prod.mk.injEq] at h
              obtain ⟨h1, h2, h3⟩ := h
              subst h3
              have e1 : rest0 = d1 ++ '.' :: r2 := by
                rw [← h1, ← heq2, List.takeWhile_append_dropWhile]
              have e2 : r2 = d2 ++ (toChars "**" ++ r4) := by
                conv_lhs => rw [← List.takeWhile_append_dropWhile Char.isDigit r2]
                rw [h2, stripPre_eq_some heq4]
              refine ⟨?_, ?_, ?_, ?_, ?_, hhead⟩
              · rw [e1, e2]; simp [toChars]
              · intro hd; rw [hd] at h1; simp [List.isEmpty_iff, ← h1] at hne1
              · intro hd; rw [hd] at h2; simp [List.isEmpty_iff, ← h2] at hne2
              · intro c hc; exact List.mem_takeWhile_imp (h1 ▸ hc)
              · intro c hc; exact List.mem_takeWhile_imp (h2 ▸ hc)
          · exact absurd h (by simp)
      · exact absurd h (by simp)

theorem matchBracket_eq_some {s d1 d2 rest : Chars}
    (h : matchBracket s = some (d1, d2, rest)) :
    s = toChars "[Глава " ++ d1 ++ '.' :: d2 ++ ']' :: rest ∧
      d1 ≠ [] ∧ d2 ≠ [] ∧ (∀ c ∈ d1, c.isDigit = true) ∧ (∀ c ∈ d2, c.isDigit = true) ∧
      rest.head? ≠ some '(' := by
  unfold matchBracket at h
  split at h
  · exact absurd h (by simp)
  · next rest0 heq0 =>
    rw [stripPre_eq_some heq0]
    split at h
    · exact absurd h (by simp)
    · next hne1 =>
      split at h
      · next r2 heq2 =>
        split at h
        · exact absurd h (by simp)
        · next hne2 =>
          split at h
          · next r4 heq4 =>
            split at h
            · exact absurd h (by simp)
            · next hhead =>
              simp only [Option.some_inj, Prod.mk.injEq] at h
              obtain ⟨h1, h2, h3⟩ := h
              subst h3
              have e1 : rest0 = d1 ++ '.' :: r2 := by
                rw [← h1, ← heq2, List.takeWhile_append_dropWhile]
              have e2 : r2 = d2 ++ ']' :: r4 := by
                conv_lhs => rw [← List.takeWhile_append_dropWhile Char.isDigit r2]
                rw [h2, heq4]
              refine ⟨?_, ?_, ?_, ?_, ?_, hhead⟩
              · rw [e1, e2]; simp
              · intro hd; rw [hd] at h1; simp [List.isEmpty_iff, ← h1] at hne1
              · intro hd; rw [hd] at h2; simp [List.isEmpty_iff, ← h2] at hne2
              · intro c hc; exact List.mem_takeWhile_imp (h1 ▸ hc)
              · intro c hc; exact List.mem_takeWhile_imp (h2 ▸ hc)
          · exact absurd h (by simp)
      · exact absurd h (by simp)

theorem plain_word_eq_some {s w rest : Chars} (h : plain_word s = some (w, rest)) :
    s = w ++ ' ' :: rest ∧
      ∃ g e, w = [g, 'л', 'а', 'в', e] ∧ (g = 'Г' ∨ g = 'г') ∧
        (e = 'а' ∨ e = 'е' ∨ e = 'у' ∨ e = 'ы') := by
  unfold plain_word at h
  split at h
  · next g rest0 =>
    split at h
    · next hg =>
      split at h
      · next e rest1 =>
        split at h
        · next he =>
          simp only [Option.some_inj, Prod.mk.injEq] at h
          obtain ⟨hw, hr⟩ := h
          subst hw
          subst hr
          exact ⟨by simp, g, e, rfl, hg, he⟩
        · exact absurd h (by simp)
      · exact absurd h (by simp)
    · exact absurd h (by simp)
  · exact absurd h (by simp)

theorem dropLast_append_drop (l : Chars) : l.dropLast ++ l.drop (l.length - 1) = l := by
  induction l with
  | nil => rfl
  | cons c cs ih =>
    cases cs with
    | nil => rfl
    | cons d ds =>
      have hdrop : List.drop ((c :: d :: ds).length - 1) (c :: d :: ds)
          = List.drop ((d :: ds).length - 1) (d :: ds) := by
        simp [List.drop]
      rw [hdrop, List.dropLast_cons₂, List.cons_append, ih]

theorem matchPlain_eq_some {s w d1 d2 rest : Chars}
    (h : matchPlain s = some (w, d1, d2, rest)) :
    s = w ++ ' ' :: d1 ++ '.' :: d2 ++ rest ∧
      d1 ≠ [] ∧ d2 ≠ [] ∧ (∀ c ∈ d1, c.isDigit = true) ∧ (∀ c ∈ d2, c.isDigit = true) ∧
      (∃ g e, w = [g, 'л', 'а', 'в', e] ∧ (g = 'Г' ∨ g = 'г') ∧
        (e = 'а' ∨ e = 'е' ∨ e = 'у' ∨ e = 'ы')) := by
  unfold matchPlain at h
  split at h
  · exact absurd h (by simp)
  · next w0 rest0 hw =>
    obtain ⟨hs0, hwshape⟩ := plain_word_eq_some hw
    split at h
    · exact absurd h (by simp)
    · next hne1 =>
      split at h
      · next r2 heq2 =>
        split at h
        · exact absurd h (by simp)
        · next hne2 =>
          split at h
          · next hb =>
            split at h
            · next hlen =>
              simp only [Option.some_inj, Prod.mk.injEq] at h
              obtain ⟨hww, h1, h2, h3⟩ := h
              subst hww
              have e1 : rest0 = d1 ++ '.' :: r2 := by
                rw [← h1, ← heq2, List.takeWhile_append_dropWhile]
              have e2 : d2 ++ rest = r2 := by
                rw [← h2, ← h3, ← List.append_assoc, dropLast_append_drop,
                  List.takeWhile_append_dropWhile]
              refine ⟨?_, ?_, ?_, ?_, ?_, hwshape⟩
              · rw [hs0, e1, ← e2]; simp
              · intro hd; rw [hd] at h1; simp [List.isEmpty_iff, ← h1] at hne1
              · intro hd
                have := congrArg List.length h2
                rw [hd, List.length_dropLast] at this
                simp at this
                omega
              · intro c hc; exact List.mem_takeWhile_imp (h1 ▸ hc)
              · intro c hc
                refine List.mem_takeWhile_imp (l := r2) (p := Char.isDigit) ?_
                have : c ∈ (List.takeWhile Char.isDigit r2).dropLast := h2 ▸ hc
                exact List.dropLast_subset _ this
            · exact absurd h (by simp)
          · next hb =>
            simp only [Option.some_inj, Prod.mk.injEq] at h
            obtain ⟨hww, h1, h2, h3⟩ := h
            subst hww
            have e1 : rest0 = d1 ++ '.' :: r2 := by
              rw [← h1, ← heq2, List.takeWhile_append_dropWhile]
            have e2 : d2 ++ rest = r2 := by
              rw [← h2, ← h3, List.takeWhile_append_dropWhile]
            refine ⟨?_, ?_, ?_, ?_, ?_, hwshape⟩
            · rw [hs0, e1, ← e2]; simp
            · intro hd; rw [hd] at h1; simp [List.isEmpty_iff, ← h1] at hne1
            · intro hd; rw [hd] at h2; simp [List.isEmpty_iff, ← h2] at hne2
            · intro c hc; exact List.mem_takeWhile_imp (h1 ▸ hc)
            · intro c hc; exact List.mem_takeWhile_imp (h2 ▸ hc)
      · exact absurd h (by simp)

/-! ## When every catalog lookup fails, each pass is the identity:
the matched text is put back verbatim. -/

theorem sub_bold_id_of_no_target {chapters : List Chapter}
    (hn : ∀ a b, find_target_chapter chapters a b = none) :
    ∀ (fuel : Nat) (s : Chars), sub_bold chapters fuel s = s := by
  intro fuel
  induction fuel with
  | zero => intro s; rfl
  | succ f ih =>
    intro s
    cases hm : matchBold s with
    | none =>
      cases s with
      | nil => simp [sub_bold, hm]
      | cons c cs => simp [sub_bold, hm, ih]
    | some x =>
      obtain ⟨d1, d2, rest⟩ := x
      obtain ⟨hs, -, -, -, -, -⟩ := matchBold_eq_some hm
      simp only [sub_bold, hm, bold_replacement, hn d1 d2, ih rest]
      rw [hs]

theorem sub_bracket_id_of_no_target {chapters : List Chapter}
    (hn : ∀ a b, find_target_chapter chapters a b = none) :
    ∀ (fuel : Nat) (s : Chars), sub_bracket chapters fuel s = s := by
  intro fuel
  induction fuel with
  | zero => intro s; rfl
  | succ f ih =>
    intro s
    cases hm : matchBracket s with
    | none =>
      cases s with
      | nil => simp [sub_bracket, hm]
      | cons c cs => simp [sub_bracket, hm, ih]
    | some x =>
      obtain ⟨d1, d2, rest⟩ := x
      obtain ⟨hs, -, -, -, -, -⟩ := matchBracket_eq_some hm
      simp only [sub_bracket, hm, bracket_replacement, hn d1 d2, ih rest]
      rw [hs]
      simp [toChars]

theorem sub_plain_id_of_no_target {chapters : List Chapter}
    (hn : ∀ a b, find_target_chapter chapters a b = none) :
    ∀ (fuel : Nat) (prev : Option Char) (s : Chars), sub_plain chapters fuel prev s = s := by
  intro fuel
  induction fuel with
  | zero => intro prev s; rfl
  | succ f ih =>
    intro prev s
    by_cases hb : prev = some '[' ∨ prev = some '*'
    · cases s with
      | nil => simp [sub_plain, hb]
      | cons c cs =>
        simp only [sub_plain, if_pos hb]
        rw [ih]
    · cases hm : matchPlain s with
      | none =>
        cases s with
        | nil => simp [sub_plain, hb, hm]
        | cons c cs =>
          simp only [sub_plain, if_neg hb, hm]
          rw [ih]
      | some x =>
        obtain ⟨w, d1, d2, rest⟩ := x
        obtain ⟨hs, -, -, -, -, -⟩ := matchPlain_eq_some hm
        simp only [sub_plain, if_neg hb, hm, plain_replacement, hn d1 d2, ih]
        rw [hs]

theorem convert_chapter_links_id_of_no_target {chapters : List Chapter}
    (hn : ∀ a b, find_target_chapter chapters a b = none) (s : Chars) :
    convert_chapter_links chapters s = s := by
  unfold convert_chapter_links sub_plain' sub_bracket' sub_bold'
  rw [sub_bold_id_of_no_target hn, sub_bracket_id_of_no_target hn,
    sub_plain_id_of_no_target hn]

theorem sub_pdf_bold_id_of_no_bracket :
    ∀ (fuel : Nat) (s : Chars), '[' ∉ s → sub_pdf_bold fuel s = s := by
  intro fuel
  induction fuel with
  | zero => intro s _; rfl
  | succ f ih =>
    intro s hs
    have hm : matchPdfBold s = none := by
      apply matchPdfBold_none_of_head
      cases s with
      | nil => simp
      | cons c cs =>
        have : c ≠ '[' := fun he => hs (by simp [he])
        simp [this]
    cases s with
    | nil => simp [sub_pdf_bold, hm]
    | cons c cs =>
      simp only [sub_pdf_bold, hm]
      rw [ih cs (fun hmem => hs (by simp [hmem]))]

theorem isEmpty_false_of_ne {l : Chars} (h : l ≠ []) : l.isEmpty = false := by
  cases l with
  | nil => exact absurd rfl h
  | cons c cs => rfl

theorem sub_pdf_bracket_nil : ∀ fuel, sub_pdf_bracket fuel [] = []
  | 0 => rfl
  | fuel + 1 => by
    simp [sub_pdf_bracket, show matchPdfBracket [] = none from rfl]

theorem mem_zfill2 {c : Char} {d : Chars} (h : c ∈ zfill2 d) : c = '0' ∨ c ∈ d := by
  unfold zfill2 at h
  split at h
  · rcases List.mem_append.mp h with h1 | h1
    · exact Or.inl (List.eq_of_mem_replicate h1)
    · exact Or.inr h1
  · exact Or.inr h

theorem matchPdfBracket_mention {d1 d2 t : Chars}
    (hd1 : d1 ≠ []) (hd1d : ∀ c ∈ d1, c.isDigit = true)
    (hd2 : d2 ≠ []) (hd2d : ∀ c ∈ d2, c.isDigit = true)
    (ht : t ≠ []) (htp : ∀ c ∈ t, c ≠ ')') :
    matchPdfBracket (toChars "[Глава " ++ (d1 ++ ('.' :: (d2 ++ (']' :: '(' :: (t ++ [')']))))))
      = some (d1, d2, []) := by
  have e1 : List.takeWhile Char.isDigit (d1 ++ ('.' :: (d2 ++ (']' :: '(' :: (t ++ [')']))))) = d1 := by
    rw [takeWhile_append_all _ hd1d, takeWhile_cons_neg _ (by decide), List.append_nil]
  have e2 : List.dropWhile Char.isDigit (d1 ++ ('.' :: (d2 ++ (']' :: '(' :: (t ++ [')'])))))
      = '.' :: (d2 ++ (']' :: '(' :: (t ++ [')']))) := by
    rw [dropWhile_append_all _ hd1d, dropWhile_cons_neg _ (by decide)]
  have e3 : List.takeWhile Char.isDigit (d2 ++ (']' :: '(' :: (t ++ [')']))) = d2 := by
    rw [takeWhile_append_all _ hd2d, takeWhile_cons_neg _ (by decide), List.append_nil]
  have e4 : List.dropWhile Char.isDigit (d2 ++ (']' :: '(' :: (t ++ [')'])))
      = ']' :: '(' :: (t ++ [')']) := by
    rw [dropWhile_append_all _ hd2d, dropWhile_cons_neg _ (by decide)]
  have e5 : List.takeWhile (· != ')') (t ++ [')']) = t := by
    rw [takeWhile_append_all _ (fun c hc => by simp [htp c hc]),
      takeWhile_cons_neg _ (by decide), List.append_nil]
  have e6 : List.dropWhile (· != ')') (t ++ [')']) = [')'] := by
    rw [dropWhile_append_all _ (fun c hc => by simp [htp c hc]),
      dropWhile_cons_neg _ (by decide)]
  unfold matchPdfBracket
  rw [stripPre_append]
  simp only [e1, e2, e3, e4, e5, e6, isEmpty_false_of_ne hd1, isEmpty_false_of_ne hd2,
    isEmpty_false_of_ne ht, Bool.false_eq_true, if_false]

theorem digit_not_special {c : Char} (h : c.isDigit = true) :
    c ≠ '[' ∧ c ≠ '*' ∧ c ≠ 'Г' ∧ c ≠ 'г' ∧ c ≠ ')' ∧ c ≠ '(' ∧ c ≠ ']' := by
  refine ⟨?_, ?_, ?_, ?_, ?_, ?_, ?_⟩ <;> (intro he; subst he; exact absurd h (by decide))

theorem no_bracket_in_pdf_replacement {d1 d2 : Chars}
    (hd1d : ∀ c ∈ d1, c.isDigit = true) (hd2d : ∀ c ∈ d2, c.isDigit = true) :
    '[' ∉ pdf_bracket_replacement d1 d2 := by
  intro h
  simp [pdf_bracket_replacement, toChars, List.mem_append] at h
  rcases h with h | h | h | h
  · rcases mem_zfill2 h with h1 | h1
    · exact absurd h1 (by decide)
    · exact absurd rfl (digit_not_special (hd1d _ h1)).1
  · rcases mem_zfill2 h with h1 | h1
    · exact absurd h1 (by decide)
    · exact absurd rfl (digit_not_special (hd2d _ h1)).1
  · exact absurd rfl (digit_not_special (hd1d _ h)).1
  · exact absurd rfl (digit_not_special (hd2d _ h)).1

theorem sub_pdf_bracket_succ (fuel : Nat) (s : Chars) :
    sub_pdf_bracket (fuel + 1) s =
      match matchPdfBracket s with
      | some (d1, d2, rest) => pdf_bracket_replacement d1 d2 ++ sub_pdf_bracket fuel rest
      | none => match s with | [] => [] | c :: cs => c :: sub_pdf_bracket fuel cs := rfl

theorem sub_bracket_succ (ch : List Chapter) (fuel : Nat) (s : Chars) :
    sub_bracket ch (fuel + 1) s =
      match matchBracket s with
      | some (d1, d2, rest) => bracket_replacement ch d1 d2 ++ sub_bracket ch fuel rest
      | none => match s with | [] => [] | c :: cs => c :: sub_bracket ch fuel cs := rfl

theorem sub_plain_succ (ch : List Chapter) (fuel : Nat) (prev : Option Char) (s : Chars) :
    sub_plain ch (fuel + 1) prev s =
      if prev = some '[' ∨ prev = some '*' then
        match s with
        | [] => []
        | c :: cs => c :: sub_plain ch fuel (some c) cs
      else
        match matchPlain s with
        | some (w, d1, d2, rest) =>
          plain_replacement ch w d1 d2 ++ sub_plain ch fuel d2.getLast? rest
        | none => match s with | [] => [] | c :: cs => c :: sub_plain ch fuel (some c) cs := rfl

theorem sub_pdf_bracket_mention {d1 d2 t : Chars}
    (hd1 : d1 ≠ []) (hd1d : ∀ c ∈ d1, c.isDigit = true)
    (hd2 : d2 ≠ []) (hd2d : ∀ c ∈ d2, c.isDigit = true)
    (ht : t ≠ []) (htp : ∀ c ∈ t, c ≠ ')') :
    sub_pdf_bracket' (toChars "[Глава " ++ (d1 ++ ('.' :: (d2 ++ (']' :: '(' :: (t ++ [')']))))))
      = pdf_bracket_replacement d1 d2 := by
  unfold sub_pdf_bracket'
  have hshape : (toChars "[Глава " ++ (d1 ++ ('.' :: (d2 ++ (']' :: '(' :: (t ++ [')']))))))
      = '[' :: (toChars "Глава " ++ (d1 ++ ('.' :: (d2 ++ (']' :: '(' :: (t ++ [')'])))))) := rfl
  rw [hshape, List.length_cons, sub_pdf_bracket_succ]
  have hmb : matchPdfBracket
      ('[' :: (toChars "Глава " ++ (d1 ++ ('.' :: (d2 ++ (']' :: '(' :: (t ++ [')'])))))))
      = some (d1, d2, []) := by
    rw [← hshape]; exact matchPdfBracket_mention hd1 hd1d hd2 hd2d ht htp
  rw [hmb]
  simp [sub_pdf_bracket_nil]

theorem mention_pdf_scheme {d1 d2 t : Chars}
    (hd1 : d1 ≠ []) (hd1d : ∀ c ∈ d1, c.isDigit = true)
    (hd2 : d2 ≠ []) (hd2d : ∀ c ∈ d2, c.isDigit = true)
    (ht : t ≠ []) (htp : ∀ c ∈ t, c ≠ ')') :
    convert_pdf_links (toChars "[Глава " ++ (d1 ++ ('.' :: (d2 ++ (']' :: '(' :: (t ++ [')']))))))
      = pdf_bracket_replacement d1 d2 := by
  unfold convert_pdf_links
  rw [sub_pdf_bracket_mention hd1 hd1d hd2 hd2d ht htp]
  unfold sub_pdf_bold'
  rw [sub_pdf_bold_id_of_no_bracket _ _ (no_bracket_in_pdf_replacement hd1d hd2d)]

theorem matchBracket_mention_none {d1 d2 t : Chars}
    (hd1d : ∀ c ∈ d1, c.isDigit = true) (hd2d : ∀ c ∈ d2, c.isDigit = true) :
    matchBracket (toChars "[Глава " ++ (d1 ++ ('.' :: (d2 ++ (']' :: '(' :: (t ++ [')']))))))
      = none := by
  have e1 : List.takeWhile Char.isDigit (d1 ++ ('.' :: (d2 ++ (']' :: '(' :: (t ++ [')']))))) = d1 := by
    rw [takeWhile_append_all _ hd1d, takeWhile_cons_neg _ (by decide), List.append_nil]
  have e2 : List.dropWhile Char.isDigit (d1 ++ ('.' :: (d2 ++ (']' :: '(' :: (t ++ [')'])))))
      = '.' :: (d2 ++ (']' :: '(' :: (t ++ [')']))) := by
    rw [dropWhile_append_all _ hd1d, dropWhile_cons_neg _ (by decide)]
  have e3 : List.takeWhile Char.isDigit (d2 ++ (']' :: '(' :: (t ++ [')']))) = d2 := by
    rw [takeWhile_append_all _ hd2d, takeWhile_cons_neg _ (by decide), List.append_nil]
  have e4 : List.dropWhile Char.isDigit (d2 ++ (']' :: '(' :: (t ++ [')'])))
      = ']' :: '(' :: (t ++ [')']) := by
    rw [dropWhile_append_all _ hd2d, dropWhile_cons_neg _ (by decide)]
  unfold matchBracket
  rw [stripPre_append]
  simp only [e1, e2, e3, e4]
  split
  · rfl
  · simp

theorem mention_book_scheme_unchanged (chapters : List Chapter) {d1 d2 t : Chars}
    (hd1d : ∀ c ∈ d1, c.isDigit = true) (hd2d : ∀ c ∈ d2, c.isDigit = true)
    (htc : ∀ c ∈ t, c ≠ ')' ∧ c ≠ '*' ∧ c ≠ '[' ∧ c ≠ 'Г' ∧ c ≠ 'г') :
    convert_chapter_links chapters
      (toChars "[Глава " ++ (d1 ++ ('.' :: (d2 ++ (']' :: '(' :: (t ++ [')']))))))
      = toChars "[Глава " ++ (d1 ++ ('.' :: (d2 ++ (']' :: '(' :: (t ++ [')']))))) := by
  have hstar : '*' ∉ (toChars "[Глава " ++ (d1 ++ ('.' :: (d2 ++ (']' :: '(' :: (t ++ [')'])))))) := by
    intro h
    simp [toChars, List.mem_append] at h
    rcases h with h | h | h
    · exact absurd rfl (digit_not_special (hd1d _ h)).2.1
    · exact absurd rfl (digit_not_special (hd2d _ h)).2.1
    · exact absurd rfl (htc _ h).2.1
  have hbr : '[' ∉ (toChars "Глава " ++ (d1 ++ ('.' :: (d2 ++ (']' :: '(' :: (t ++ [')'])))))) := by
    intro h
    simp [toChars, List.mem_append] at h
    rcases h with h | h | h
    · exact absurd rfl (digit_not_special (hd1d _ h)).1
    · exact absurd rfl (digit_not_special (hd2d _ h)).1
    · exact absurd rfl (htc _ h).2.2.1
  have hG : 'Г' ∉ (toChars "лава " ++ (d1 ++ ('.' :: (d2 ++ (']' :: '(' :: (t ++ [')'])))))) := by
    intro h
    simp [toChars, List.mem_append] at h
    rcases h with h | h | h
    · exact absurd rfl (digit_not_special (hd1d _ h)).2.2.1
    · exact absurd rfl (digit_not_special (hd2d _ h)).2.2.1
    · exact absurd rfl (htc _ h).2.2.2.1
  have hg : 'г' ∉ (toChars "лава " ++ (d1 ++ ('.' :: (d2 ++ (']' :: '(' :: (t ++ [')'])))))) := by
    intro h
    simp [toChars, List.mem_append] at h
    rcases h with h | h | h
    · exact absurd rfl (digit_not_special (hd1d _ h)).2.2.2.1
    · exact absurd rfl (digit_not_special (hd2d _ h)).2.2.2.1
    · exact absurd rfl (htc _ h).2.2.2.2
  unfold convert_chapter_links sub_bold'
  rw [sub_bold_id_of_no_star _ _ hstar]
  have hshape : (toChars "[Глава " ++ (d1 ++ ('.' :: (d2 ++ (']' :: '(' :: (t ++ [')']))))))
      = '[' :: (toChars "Глава " ++ (d1 ++ ('.' :: (d2 ++ (']' :: '(' :: (t ++ [')'])))))) := rfl
  unfold sub_bracket'
  rw [hshape, List.length_cons, sub_bracket_succ]
  have hmb : matchBracket
      ('[' :: (toChars "Глава " ++ (d1 ++ ('.' :: (d2 ++ (']' :: '(' :: (t ++ [')'])))))))
      = none := by
    rw [← hshape]; exact matchBracket_mention_none hd1d hd2d
  rw [hmb]
  dsimp only
  rw [sub_bracket_id_of_no_bracket _ _ hbr]
  have hshape2 : (toChars "Глава " ++ (d1 ++ ('.' :: (d2 ++ (']' :: '(' :: (t ++ [')']))))))
      = 'Г' :: (toChars "лава " ++ (d1 ++ ('.' :: (d2 ++ (']' :: '(' :: (t ++ [')'])))))) := rfl
  unfold sub_plain'
  rw [List.length_cons, hshape2, List.length_cons, sub_plain_succ, if_neg (by simp)]
  have hmp : matchPlain
      ('[' :: 'Г' :: (toChars "лава " ++ (d1 ++ ('.' :: (d2 ++ (']' :: '(' :: (t ++ [')'])))))))
      = none := matchPlain_none_of_head (by constructor <;> simp)
  rw [hmp]
  dsimp only
  rw [sub_plain_succ, if_pos (by simp)]
  dsimp only
  rw [sub_plain_id_of_no_glava _ _ _ hG hg]

/-- **C3.** Document-scheme resolution is the only scheme rewriting existing links. -/
theorem claim_C3_document_scheme_rewrites_links (chapters : List Chapter) (d1 d2 t : Chars)
    (hd1 : d1 ≠ []) (hd1d : ∀ c ∈ d1, c.isDigit = true)
    (hd2 : d2 ≠ []) (hd2d : ∀ c ∈ d2, c.isDigit = true)
    (ht : t ≠ []) (htc : ∀ c ∈ t, c ≠ ')' ∧ c ≠ '*' ∧ c ≠ '[' ∧ c ≠ 'Г' ∧ c ≠ 'г') :
    convert_pdf_links (toChars "[Глава " ++ (d1 ++ ('.' :: (d2 ++ (']' :: '(' :: (t ++ [')']))))))
      = toChars "<a href=\x22#chapter_" ++ zfill2 d1 ++ '_' :: zfill2 d2 ++
          toChars "\x22>Глава " ++ d1 ++ '.' :: d2 ++ toChars "</a>" ∧
    convert_chapter_links chapters
        (toChars "[Глава " ++ (d1 ++ ('.' :: (d2 ++ (']' :: '(' :: (t ++ [')']))))))
      = toChars "[Глава " ++ (d1 ++ ('.' :: (d2 ++ (']' :: '(' :: (t ++ [')']))))) := by
  constructor
  · rw [mention_pdf_scheme hd1 hd1d hd2 hd2d ht (fun c hc => (htc c hc).1)]
    rfl
  · exact mention_book_scheme_unchanged chapters hd1d hd2d htc

theorem claim_C3_witness :
    convert_pdf_links (toChars "[Глава 1.1](03_01_foo.md)")
      = toChars "<a href=\x22#chapter_01_01\x22>Глава 1.1</a>" ∧
    convert_chapter_links demoCatalog (toChars "[Глава 1.1](03_01_foo.md)")
      = toChars "[Глава 1.1](03_01_foo.md)" := by
  have h := claim_C3_document_scheme_rewrites_links demoCatalog ['1'] ['1']
    (toChars "03_01_foo.md") (by decide) (by decide) (by decide) (by decide) (by decide)
    (by decide)
  exact ⟨h.1, h.2⟩

/-! ## Claim theorems -/

/-- **C1 (counterexample).** The claim states that the document (PDF) scheme
links the unlinked bold mention `**Глава 2.1**`, producing a string containing
`[**Глава 2.1**](#chapter_02_01)`.  In fact the PDF pass only rewrites
already-linked mentions: on this input it returns the text unchanged and the
claimed link does not occur. -/
theorem claim_C1_cex_pdf_ignores_unlinked_bold :
    convert_pdf_links (toChars "**Глава 2.1** описывает...")
      = toChars "**Глава 2.1** описывает..." ∧
    containsSub (convert_pdf_links (toChars "**Глава 2.1** описывает..."))
      (toChars "[**Глава 2.1**](#chapter_02_01)") = false := by decide

/-- **C1 (amended).** For a Catalog with chapter `(02, 01)` and slug `osnovy`,
the book scheme turns the unlinked bold mention into
`[**Глава 2.1**](02_01_osnovy.md)`; the document scheme leaves the unlinked
bold mention unchanged, and instead rewrites the already-linked form into the
in-document anchor `<a href="#chapter_02_01"><strong>Глава 2.1</strong></a>`. -/
theorem claim_C1_schemes_on_bold_mention :
    convert_chapter_links demoCatalog (toChars "**Глава 2.1** описывает...")
      = toChars "[**Глава 2.1**](02_01_osnovy.md) описывает..." ∧
    containsSub (convert_chapter_links demoCatalog (toChars "**Глава 2.1** описывает..."))
      (toChars "[**Глава 2.1**](02_01_osnovy.md)") = true ∧
    convert_pdf_links (toChars "**Глава 2.1** описывает...")
      = toChars "**Глава 2.1** описывает..." ∧
    convert_pdf_links (toChars "[**Глава 2.1**](02_01_osnovy.md) описывает...")
      = toChars "<a href=\x22#chapter_02_01\x22><strong>Глава 2.1</strong></a> описывает..." := by
  refine ⟨by decide, by decide, by decide, by decide⟩

/-- **C2 (counterexample).** The claim states that under every link scheme a
mention whose key is absent from the Catalog is left byte-for-byte unchanged.
The document scheme violates this: it performs no catalog lookup at all and
rewrites the already-linked mention `[Глава 9.9](01_01_intro.md)` into an
anchor, even though chapter `(09, 09)` exists in no catalog. -/
theorem claim_C2_cex_pdf_rewrites_absent_chapter :
    convert_pdf_links (toChars "[Глава 9.9](01_01_intro.md)")
      ≠ toChars "[Глава 9.9](01_01_intro.md)" ∧
    convert_pdf_links (toChars "[Глава 9.9](01_01_intro.md)")
      = toChars "<a href=\x22#chapter_09_09\x22>Глава 9.9</a>" := by
  refine ⟨by decide, by decide⟩

/-- **C2 (amended).** Under the book scheme, a chapter mention whose key has
no Catalog entry is left byte-for-byte unchanged: when no lookup can succeed,
`convert_chapter_links` is the identity on every input text (no link, no
error).  Under the document scheme, unlinked mentions are always left
unchanged; but already-linked mentions are rewritten without consulting the
Catalog (see the counterexample). -/
theorem claim_C2_absent_chapter_left_unchanged (chapters : List Chapter)
    (hn : ∀ a b, find_target_chapter chapters a b = none) :
    (∀ s : Chars, convert_chapter_links chapters s = s) ∧
    convert_pdf_links (toChars "Глава 9.9 не существует")
      = toChars "Глава 9.9 не существует" :=
  ⟨fun s => convert_chapter_links_id_of_no_target hn s, by decide⟩

theorem claim_C2_witness :
    convert_chapter_links [] (toChars "Глава 9.9 не существует")
      = toChars "Глава 9.9 не существует" ∧
    convert_chapter_links [] (toChars "**Глава 2.1** и [Глава 3.4] и главы 5.6")
      = toChars "**Глава 2.1** и [Глава 3.4] и главы 5.6" :=
  ⟨(claim_C2_absent_chapter_left_unchanged [] (fun _ _ => rfl)).1 _,
   (claim_C2_absent_chapter_left_unchanged [] (fun _ _ => rfl)).1 _⟩

/-- **C5 (counterexample).** The claim states all three mention shapes are
case-insensitive on the leading word; in fact rules 1 and 2 match only the
capitalized `Глава`: the lowercase bold shape `**глава 2.1**` and the
lowercase bracketed shape `[глава 2.1]` are left unchanged even though
chapter `(02, 01)` is in the catalog, while the capitalized forms are
linked. -/
theorem claim_C5_cex_lowercase_bold_bracket_not_linked :
    convert_chapter_links demoCatalog (toChars "**глава 2.1**") = toChars "**глава 2.1**" ∧
    convert_chapter_links demoCatalog (toChars "[глава 2.1]") = toChars "[глава 2.1]" ∧
    convert_chapter_links demoCatalog (toChars "**Глава 2.1**")
      ≠ toChars "**Глава 2.1**" := by
  refine ⟨by decide, by decide, by decide⟩

/-- **C5 (amended).** Only the plain-prose rule (rule 3) is case-insensitive
on the leading word, accepting the grammatical variants
`Глава/глава/главе/главы` (and `главу`); the bold rule 1 and the bracketed
rule 2 match only the literal capitalized `Глава`, so lowercase bold and
bracketed mentions are left unchanged. -/
theorem claim_C5_case_handling :
    (∀ w ∈ [toChars "Глава", toChars "глава", toChars "главе", toChars "главы",
        toChars "главу"],
      convert_chapter_links demoCatalog (w ++ toChars " 2.1")
        = '[' :: (w ++ toChars " 2.1](02_01_osnovy.md)")) ∧
    convert_chapter_links demoCatalog (toChars "**глава 2.1**") = toChars "**глава 2.1**" ∧
    convert_chapter_links demoCatalog (toChars "[глава 2.1]") = toChars "[глава 2.1]" ∧
    convert_chapter_links demoCatalog (toChars "**Глава 2.1**")
      = toChars "[**Глава 2.1**](02_01_osnovy.md)" ∧
    convert_chapter_links demoCatalog (toChars "[Глава 2.1]")
      = toChars "[Глава 2.1](02_01_osnovy.md)" := by
  refine ⟨by decide, by decide, by decide, by decide, by decide⟩

theorem length_filterMap_eq_countP {α β : Type} (f : α → Option β) (l : List α) :
    (l.filterMap f).length = l.countP fun a => (f a).isSome := by
  induction l with
  | nil => rfl
  | cons a as ih =>
    cases hf : f a with
    | none => simp [List.filterMap_cons, hf, List.countP_cons, ih]
    | some b => simp [List.filterMap_cons, hf, List.countP_cons, ih]

/-- **C10.** Duplicate keys are kept: one catalog entry per matching file. -/
theorem claim_C10_duplicates_kept :
    (∀ files : List SrcFile,
      (parse_chapters files).length = files.countP fun f => (parse_filename f.name).isSome) ∧
    (parse_chapters demoDupFiles).map chapter_key = [(1, 1), (1, 1)] ∧
    (parse_chapters demoDupFiles).map Chapter.filename
      = [toChars "01_01_intro.md", toChars "01_01_vvedenie.md"] ∧
    lexLt (toChars "01_01_intro.md") (toChars "01_01_vvedenie.md") = true ∧
    (toc_flatten (build_toc (parse_chapters demoDupFiles))).map chapter_key
      = [(1, 1), (1, 1)] := by
  refine ⟨?_, by decide, by decide, by decide, by decide⟩
  intro files
  unfold parse_chapters
  rw [length_filterMap_eq_countP]
  congr 1
  funext f
  unfold mk_chapter
  cases parse_filename f.name <;> rfl

/-- **C8 (counterexample).** The claim says the build exits non-zero when no
valid chapter files are found.  In fact `parse_chapters` succeeds with zero
chapters (it returns `True` after printing the count), so the whole build
succeeds with exit status `0`. -/
theorem claim_C8_cex_empty_chapters_build_succeeds :
    parse_chapters [] = [] ∧
    parse_chapters [{ name := toChars "README.md", firstLine := some (toChars "# Учебник") }]
      = [] ∧
    main_exit { chapters_dir_exists := true, files := [], pdf_write_ok := true } = 0 ∧
    main_exit
      ⟨true, [{ name := toChars "README.md", firstLine := some (toChars "# Учебник") }], true⟩
      = 0 := by
  refine ⟨by decide, by decide, by decide, by decide⟩

/-- **C8 (amended).** The build exits non-zero and halts — later steps never
attempted — when the chapter source directory is missing or when PDF
serialization fails; each pipeline step runs only if every prior step
succeeded, and otherwise the build exits `0`.  Finding no valid chapter
files does **not** fail the build. -/
theorem claim_C8_pipeline_halts (env : BuildEnv) :
    (env.chapters_dir_exists = false →
      main_exit env = 1 ∧ (build env).2 = ["parse_chapters"]) ∧
    (env.chapters_dir_exists = true → env.pdf_write_ok = false →
      main_exit env = 1 ∧
      (build env).2 = ["parse_chapters", "generate_root_readme", "export_book_markdown",
        "setup_github_pages", "generate_pdf"]) ∧
    (env.chapters_dir_exists = true → env.pdf_write_ok = true →
      main_exit env = 0 ∧
      (build env).2 = ["parse_chapters", "generate_root_readme", "export_book_markdown",
        "setup_github_pages", "generate_pdf", "create_gitattributes"]) := by
  obtain ⟨d, fs, p⟩ := env
  refine ⟨fun hd => ?_, fun hd hp => ?_, fun hd hp => ?_⟩ <;>
    (simp only at hd; subst hd) <;> first
  | (simp only at hp; subst hp; exact ⟨rfl, rfl⟩)
  | exact ⟨rfl, rfl⟩

theorem claim_C8_witness :
    main_exit { chapters_dir_exists := false, files := [], pdf_write_ok := true } = 1 ∧
    (build { chapters_dir_exists := false, files := [], pdf_write_ok := true }).2
      = ["parse_chapters"] ∧
    main_exit { chapters_dir_exists := true, files := [], pdf_write_ok := false } = 1 ∧
    (build { chapters_dir_exists := true, files := [], pdf_write_ok := false }).2
      = ["parse_chapters", "generate_root_readme", "export_book_markdown",
         "setup_github_pages", "generate_pdf"] := by
  have h1 := (claim_C8_pipeline_halts
    { chapters_dir_exists := false, files := [], pdf_write_ok := true }).1 rfl
  have h2 := ((claim_C8_pipeline_halts
    { chapters_dir_exists := true, files := [], pdf_write_ok := false }).2.1) rfl rfl
  exact ⟨h1.1, h1.2, h2.1, h2.2⟩

theorem dropWhile_eq_self_of_head {p : Char → Bool} {l : Chars}
    (h : ∀ c, l.head? = some c → p c = false) : l.dropWhile p = l := by
  cases l with
  | nil => rfl
  | cons c cs => simp [List.dropWhile_cons, h c rfl]

theorem strip_eq_self {t : Chars}
    (h1 : ∀ c, t.head? = some c → isSpace c = false)
    (h2 : ∀ c, t.getLast? = some c → isSpace c = false) : strip t = t := by
  unfold strip
  rw [dropWhile_eq_self_of_head h1,
    dropWhile_eq_self_of_head (fun c hc => h2 c (by rwa [List.head?_reverse] at hc)),
    List.reverse_reverse]

theorem strip_hash_heading {t : Chars} (hne : t ≠ [])
    (h2 : ∀ c, t.getLast? = some c → isSpace c = false) :
    strip ('#' :: ' ' :: t) = '#' :: ' ' :: t := by
  unfold strip
  rw [dropWhile_eq_self_of_head (p := isSpace) (l := '#' :: ' ' :: t)
    (by intro c hc; simp only [List.head?_cons, Option.some_inj] at hc; subst hc; rfl)]
  rw [dropWhile_eq_self_of_head (p := isSpace) (l := ('#' :: ' ' :: t).reverse)
    (by
      intro c hc
      rw [List.head?_reverse] at hc
      have : t.getLast? = some c := by
        have hg : ('#' :: ' ' :: t).getLast? = t.getLast? := by
          rw [show ('#' :: ' ' :: t) = ['#', ' '] ++ t by rfl, List.getLast?_append]
          cases hgg : t.getLast? with
          | none => exact absurd (List.getLast?_eq_none_iff.mp hgg) hne
          | some x => rfl
        rw [← hg, hc]
      exact h2 c this)]
  exact List.reverse_reverse _

theorem getLast?_append_right {l l' : Chars} (h : l' ≠ []) :
    (l ++ l').getLast? = l'.getLast? := by
  rw [List.getLast?_append]
  cases hgg : l'.getLast? with
  | none => exact absurd (List.getLast?_eq_none_iff.mp hgg) h
  | some x => rfl

theorem strip_glava_title_noprefix {t : Chars} (h : stripPre (toChars "Глава ") t = none) :
    strip_glava_title t = t := by
  unfold strip_glava_title
  rw [h]

theorem strip_glava_title_prefix {d1 d2 t : Chars}
    (hd1 : d1 ≠ []) (hd1d : ∀ c ∈ d1, c.isDigit = true)
    (hd2 : d2 ≠ []) (hd2d : ∀ c ∈ d2, c.isDigit = true)
    (hh : ∀ c, t.head? = some c → isSpace c = false ∧ c ≠ ':') :
    strip_glava_title (toChars "Глава " ++ (d1 ++ ('.' :: (d2 ++ (':' :: ' ' :: t))))) = t := by
  have e1 : List.takeWhile Char.isDigit (d1 ++ ('.' :: (d2 ++ (':' :: ' ' :: t)))) = d1 := by
    rw [takeWhile_append_all _ hd1d, takeWhile_cons_neg _ (by decide), List.append_nil]
  have e2 : List.dropWhile Char.isDigit (d1 ++ ('.' :: (d2 ++ (':' :: ' ' :: t))))
      = '.' :: (d2 ++ (':' :: ' ' :: t)) := by
    rw [dropWhile_append_all _ hd1d, dropWhile_cons_neg _ (by decide)]
  have e3 : List.takeWhile Char.isDigit (d2 ++ (':' :: ' ' :: t)) = d2 := by
    rw [takeWhile_append_all _ hd2d, takeWhile_cons_neg _ (by decide), List.append_nil]
  have e4 : List.dropWhile Char.isDigit (d2 ++ (':' :: ' ' :: t)) = ':' :: ' ' :: t := by
    rw [dropWhile_append_all _ hd2d, dropWhile_cons_neg _ (by decide)]
  unfold strip_glava_title
  rw [stripPre_append]
  simp only [e1, e2, e3, e4, isEmpty_false_of_ne hd1, isEmpty_false_of_ne hd2,
    Bool.false_eq_true, if_false]
  rw [List.dropWhile_cons]
  simp only [show ((':' : Char) == ':' || isSpace ':') = true from rfl, if_pos rfl]
  rw [List.dropWhile_cons]
  simp only [show ((' ' : Char) == ':' || isSpace ' ') = true from rfl, if_pos rfl]
  exact dropWhile_eq_self_of_head fun c hc => by
    obtain ⟨hsp, hcol⟩ := hh c hc
    simp [hsp, hcol]

theorem derive_title_heading_noprefix {slug t : Chars} (hne : t ≠ [])
    (h1 : ∀ c, t.head? = some c → isSpace c = false)
    (h2 : ∀ c, t.getLast? = some c → isSpace c = false)
    (hp : stripPre (toChars "Глава ") t = none) :
    derive_title slug (some ('#' :: ' ' :: t)) = t := by
  unfold derive_title
  dsimp only
  rw [strip_hash_heading hne h2]
  simp only [List.take, List.drop, reduceIte]
  rw [strip_eq_self h1 h2, strip_glava_title_noprefix hp]

theorem derive_title_heading_with_glava {slug d1 d2 t : Chars} (hne : t ≠ [])
    (hd1 : d1 ≠ []) (hd1d : ∀ c ∈ d1, c.isDigit = true)
    (hd2 : d2 ≠ []) (hd2d : ∀ c ∈ d2, c.isDigit = true)
    (hh : ∀ c, t.head? = some c → isSpace c = false ∧ c ≠ ':')
    (hl : ∀ c, t.getLast? = some c → isSpace c = false) :
    derive_title slug
      (some ('#' :: ' ' :: (toChars "Глава " ++ (d1 ++ ('.' :: (d2 ++ (':' :: ' ' :: t)))))))
      = t := by
  have hXne : (toChars "Глава " ++ (d1 ++ ('.' :: (d2 ++ (':' :: ' ' :: t))))) ≠ [] := by
    simp [toChars]
  have hXlast : ∀ c,
      (toChars "Глава " ++ (d1 ++ ('.' :: (d2 ++ (':' :: ' ' :: t))))).getLast? = some c →
      isSpace c = false := by
    intro c hc
    rw [getLast?_append_right (by simp), getLast?_append_right (by simp),
      show ('.' :: (d2 ++ (':' :: ' ' :: t))) = ['.'] ++ (d2 ++ (':' :: ' ' :: t)) from rfl,
      getLast?_append_right (by simp), getLast?_append_right (by simp),
      show (':' :: ' ' :: t) = [':', ' '] ++ t from rfl,
      getLast?_append_right hne] at hc
    exact hl c hc
  have hXhead : ∀ c,
      (toChars "Глава " ++ (d1 ++ ('.' :: (d2 ++ (':' :: ' ' :: t))))).head? = some c →
      isSpace c = false := by
    intro c hc
    rw [show (toChars "Глава " ++ (d1 ++ ('.' :: (d2 ++ (':' :: ' ' :: t))))).head?
        = some 'Г' from rfl] at hc
    simp only [Option.some_inj] at hc
    subst hc
    rfl
  unfold derive_title
  dsimp only
  rw [strip_hash_heading hXne hXlast]
  simp only [List.take, List.drop, reduceIte]
  rw [strip_eq_self hXhead hXlast, strip_glava_title_prefix hd1 hd1d hd2 hd2d hh]

theorem derive_title_not_heading {slug l : Chars} (h : (strip l).take 2 ≠ ['#', ' ']) :
    derive_title slug (some l) = slug_title slug := by
  unfold derive_title
  dsimp only
  rw [if_neg h]

theorem parse_chapters_single {name slug sec chp : Chars} {fl : Option Chars}
    (hname : parse_filename name = some (sec, chp, slug)) :
    parse_chapters [⟨name, fl⟩]
      = [{ section_num := sec, chapter_num := chp, slug := slug,
           title := derive_title slug fl, filename := name }] := by
  unfold parse_chapters mk_chapter
  simp [List.filterMap_cons, hname]

/-- **C9.** Title derivation rules. -/
theorem claim_C9_title_derivation :
    (∀ name sec chp slug t, parse_filename name = some (sec, chp, slug) → t ≠ [] →
      (∀ c, t.head? = some c → isSpace c = false) →
      (∀ c, t.getLast? = some c → isSpace c = false) →
      stripPre (toChars "Глава ") t = none →
      parse_chapters [⟨name, some ('#' :: ' ' :: t)⟩]
        = [{ section_num := sec, chapter_num := chp, slug := slug, title := t,
             filename := name }]) ∧
    (∀ name sec chp slug d1 d2 t, parse_filename name = some (sec, chp, slug) → t ≠ [] →
      d1 ≠ [] → (∀ c ∈ d1, c.isDigit = true) → d2 ≠ [] → (∀ c ∈ d2, c.isDigit = true) →
      (∀ c, t.head? = some c → isSpace c = false ∧ c ≠ ':') →
      (∀ c, t.getLast? = some c → isSpace c = false) →
      parse_chapters
          [⟨name, some ('#' :: ' ' ::
            (toChars "Глава " ++ (d1 ++ ('.' :: (d2 ++ (':' :: ' ' :: t))))))⟩]
        = [{ section_num := sec, chapter_num := chp, slug := slug, title := t,
             filename := name }]) ∧
    (∀ name sec chp slug l, parse_filename name = some (sec, chp, slug) →
      (strip l).take 2 ≠ ['#', ' '] →
      parse_chapters [⟨name, some l⟩]
        = [{ section_num := sec, chapter_num := chp, slug := slug,
             title := slug_title slug, filename := name }]) ∧
    (∀ name sec chp slug, parse_filename name = some (sec, chp, slug) →
      parse_chapters [⟨name, none⟩]
        = [{ section_num := sec, chapter_num := chp, slug := slug,
             title := slug_title slug, filename := name }]) := by
  refine ⟨?_, ?_, ?_, ?_⟩
  · intro name sec chp slug t hname hne h1 h2 hp
    rw [parse_chapters_single hname, derive_title_heading_noprefix hne h1 h2 hp]
  · intro name sec chp slug d1 d2 t hname hne hd1 hd1d hd2 hd2d hh hl
    rw [parse_chapters_single hname,
      derive_title_heading_with_glava hne hd1 hd1d hd2 hd2d hh hl]
  · intro name sec chp slug l hname hnh
    rw [parse_chapters_single hname, derive_title_not_heading hnh]
  · intro name sec chp slug hname
    rw [parse_chapters_single hname]
    rfl

theorem claim_C9_witness :
    parse_chapters [⟨toChars "02_01_osnovy.md", some (toChars "# Глава 2.1: Основы")⟩]
      = [{ section_num := toChars "02", chapter_num := toChars "01",
           slug := toChars "osnovy", title := toChars "Основы",
           filename := toChars "02_01_osnovy.md" }] ∧
    parse_chapters [⟨toChars "02_01_osnovy.md", some (toChars "Основы")⟩]
      = [{ section_num := toChars "02", chapter_num := toChars "01",
           slug := toChars "osnovy", title := toChars "Osnovy",
           filename := toChars "02_01_osnovy.md" }] ∧
    parse_chapters [⟨toChars "02_01_osnovy.md", none⟩]
      = [{ section_num := toChars "02", chapter_num := toChars "01",
           slug := toChars "osnovy", title := toChars "Osnovy",
           filename := toChars "02_01_osnovy.md" }] := by
  refine ⟨?_, ?_, ?_⟩
  · exact claim_C9_title_derivation.2.1 (toChars "02_01_osnovy.md") (toChars "02")
      (toChars "01") (toChars "osnovy") ['2'] ['1'] (toChars "Основы") (by decide) (by decide)
      (by decide) (by decide) (by decide) (by decide)
      (by intro c hc; simp [toChars] at hc; subst hc; exact ⟨rfl, by decide⟩)
      (by intro c hc; simp [toChars, List.getLast?] at hc; subst hc; rfl)
  · exact claim_C9_title_derivation.2.2.1 (toChars "02_01_osnovy.md") (toChars "02")
      (toChars "01") (toChars "osnovy") (toChars "Основы") (by decide) (by decide)
  · exact claim_C9_title_derivation.2.2.2 (toChars "02_01_osnovy.md") (toChars "02")
      (toChars "01") (toChars "osnovy") (by decide)

theorem parse_filename_eq_some {n s c g : Chars} (h : parse_filename n = some (s, c, g)) :
    ∃ a b c' d rest, n = a :: b :: '_' :: c' :: d :: '_' :: rest ∧ s = [a, b] ∧ c = [c', d] ∧
      a.isDigit = true ∧ b.isDigit = true ∧ c'.isDigit = true ∧ d.isDigit = true := by
  unfold parse_filename at h
  split at h
  · next a b c' d rest =>
    split at h
    · next hdig =>
      simp only [Option.map_eq_some'] at h
      obtain ⟨slug, hs, heq⟩ := h
      simp only [Prod.mk.injEq] at heq
      obtain ⟨h1, h2, h3⟩ := heq
      simp only [Bool.and_eq_true] at hdig
      exact ⟨a, b, c', d, rest, rfl, h1.symm, h2.symm,
        hdig.1.1.1, hdig.1.1.2, hdig.1.2, hdig.2⟩
    · exact absurd h (by simp)
  · exact absurd h (by simp)

theorem lexLt_cons {x y : Char} {xs ys : Chars} (h : lexLt (x :: xs) (y :: ys) = true) :
    x < y ∨ (x = y ∧ lexLt xs ys = true) := by
  unfold lexLt at h
  split at h
  · next hlt => exact Or.inl hlt
  · split at h
    · next heq => exact Or.inr ⟨heq, h⟩
    · exact absurd h (by simp)

/-- Digit character: its code point lies in `[48, 57]`. -/
theorem digit_val_bounds {c : Char} (h : c.isDigit = true) : 48 ≤ c.toNat ∧ c.toNat ≤ 57 := by
  simp only [Char.isDigit, Bool.and_eq_true, decide_eq_true_eq] at h
  obtain ⟨h1, h2⟩ := h
  constructor
  · simpa [Char.le_def, UInt32.le_def] using h1
  · simpa [Char.le_def, UInt32.le_def] using h2

theorem key_cmp_of_lexLt {a b a' b' : Char}
    (ha : a.isDigit = true) (hb : b.isDigit = true)
    (ha' : a'.isDigit = true) (hb' : b'.isDigit = true)
    (h : a < a' ∨ (a = a' ∧ (b < b' ∨ b = b'))) :
    two_digit_val [a, b] < two_digit_val [a', b'] ∨ [a, b] = [a', b'] := by
  obtain ⟨ha1, ha2⟩ := digit_val_bounds ha
  obtain ⟨hb1, hb2⟩ := digit_val_bounds hb
  obtain ⟨ha1', ha2'⟩ := digit_val_bounds ha'
  obtain ⟨hb1', hb2'⟩ := digit_val_bounds hb'
  simp only [two_digit_val]
  rcases h with h | ⟨he, h⟩
  · have hlt : a.toNat < a'.toNat := by simpa [Char.lt_def, UInt32.lt_def] using h
    left
    omega
  · subst he
    rcases h with h | h
    · have hlt : b.toNat < b'.toNat := by simpa [Char.lt_def, UInt32.lt_def] using h
      left
      omega
    · subst h
      right
      rfl

theorem lexLt_trans {x y z : Chars} (h1 : lexLt x y = true) (h2 : lexLt y z = true) :
    lexLt x z = true := by
  induction x generalizing y z with
  | nil =>
    cases y with
    | nil => simp [lexLt] at h1
    | cons b bs =>
      cases z with
      | nil => simp [lexLt] at h2
      | cons c cs => rfl
  | cons a as ih =>
    cases y with
    | nil => simp [lexLt] at h1
    | cons b bs =>
      cases z with
      | nil => simp [lexLt] at h2
      | cons c cs =>
        rcases lexLt_cons h1 with hab | ⟨hab, h1'⟩ <;>
          rcases lexLt_cons h2 with hbc | ⟨hbc, h2'⟩
        · have hac : a < c := lt_trans hab hbc
          simp [lexLt, hac]
        · subst hbc
          simp [lexLt, hab]
        · subst hab
          simp [lexLt, hbc]
        · subst hab; subst hbc
          simp [lexLt, ih h1' h2']

theorem lexLt_irrefl (x : Chars) : lexLt x x = false := by
  induction x with
  | nil => rfl
  | cons a as ih => simp [lexLt, ih]

theorem lexLt_asymm {x y : Chars} (h1 : lexLt x y = true) (h2 : x = y ∨ lexLt y x = true) :
    False := by
  rcases h2 with h2 | h2
  · subst h2; rw [lexLt_irrefl] at h1; exact absurd h1 (by simp)
  · have := lexLt_trans h1 h2
    rw [lexLt_irrefl] at this
    exact absurd this (by simp)

theorem filter_key_count {l : List Chapter} (h : (l.map chapter_key).Nodup) :
    ∀ ch ∈ l, (l.filter fun c' => chapter_key c' == chapter_key ch).length = 1 := by
  induction l with
  | nil => intro ch hch; simp at hch
  | cons c cs ih =>
    intro ch hch
    simp only [List.map_cons, List.nodup_cons] at h
    obtain ⟨hnotin, hnodup⟩ := h
    rcases List.mem_cons.mp hch with hch | hch
    · subst hch
      rw [List.filter_cons_of_pos (by simp)]
      have hzero : (cs.filter fun c' => chapter_key c' == chapter_key ch).length = 0 := by
        rw [List.length_eq_zero, List.filter_eq_nil_iff]
        intro c' hc'
        simp only [beq_iff_eq]
        intro he
        exact hnotin (he ▸ List.mem_map_of_mem chapter_key hc')
      simp [hzero]
    · have hne : chapter_key c ≠ chapter_key ch := by
        intro he
        exact hnotin (he ▸ List.mem_map_of_mem chapter_key hch)
      rw [List.filter_cons_of_neg (by simp [hne])]
      exact ih hnodup ch hch

theorem parse_chapters_pairwise {S : SrcFile → SrcFile → Prop} {R : Chapter → Chapter → Prop}
    {files : List SrcFile} (h : List.Pairwise S files)
    (himp : ∀ f g ch1 ch2, S f g → mk_chapter f.name f.firstLine = some ch1 →
      mk_chapter g.name g.firstLine = some ch2 → R ch1 ch2) :
    List.Pairwise R (parse_chapters files) := by
  induction files with
  | nil => exact List.Pairwise.nil
  | cons f fs ih =>
    obtain ⟨hf, hfs⟩ := List.pairwise_cons.mp h
    unfold parse_chapters
    rw [List.filterMap_cons]
    cases hmk : mk_chapter f.name f.firstLine with
    | none => exact ih hfs
    | some ch =>
      refine List.pairwise_cons.mpr ⟨?_, ih hfs⟩
      intro ch2 hch2
      obtain ⟨g, hg, hgmk⟩ := List.mem_filterMap.mp hch2
      exact himp f g ch ch2 (hf g hg) hmk hgmk

theorem toc_insert_flatten {toc : List (Chars × List Chapter)} {ch : Chapter}
    (h : ∀ g ∈ toc.dropLast, g.1 ≠ ch.section_num) :
    toc_flatten (toc_insert toc ch) = toc_flatten toc ++ [ch] := by
  induction toc with
  | nil => rfl
  | cons g rest ih =>
    obtain ⟨k, chs⟩ := g
    cases rest with
    | nil =>
      unfold toc_insert
      by_cases hk : k = ch.section_num
      · rw [if_pos hk]
        simp [toc_flatten]
      · rw [if_neg hk]
        simp [toc_flatten, toc_insert]
    | cons g2 rest2 =>
      unfold toc_insert
      have hk : k ≠ ch.section_num := by
        refine h (k, chs) ?_
        rw [List.dropLast_cons₂]
        exact List.mem_cons_self _ _
      rw [if_neg hk]
      have ih' := ih (fun g hg => h g (by rw [List.dropLast_cons₂]; exact List.mem_cons_of_mem _ hg))
      simp only [toc_flatten, List.flatMap_cons] at ih' ⊢
      rw [ih']
      simp [List.append_assoc]

theorem toc_insert_keys (toc : List (Chars × List Chapter)) (ch : Chapter) :
    (toc_insert toc ch).map Prod.fst =
      if ch.section_num ∈ toc.map Prod.fst then toc.map Prod.fst
      else toc.map Prod.fst ++ [ch.section_num] := by
  induction toc with
  | nil => simp [toc_insert]
  | cons g rest ih =>
    obtain ⟨k, chs⟩ := g
    unfold toc_insert
    by_cases hk : k = ch.section_num
    · rw [if_pos hk]
      simp [hk]
    · rw [if_neg hk]
      simp only [List.map_cons, List.mem_cons]
      rw [ih]
      by_cases hmem : ch.section_num ∈ rest.map Prod.fst
      · rw [if_pos hmem, if_pos (Or.inr hmem)]
      · rw [if_neg hmem, if_neg (by rintro (he | he); exact hk he.symm; exact hmem he)]
        simp

theorem pairwise_dropLast_getLast {α : Type} {R : α → α → Prop} :
    ∀ {l : List α}, List.Pairwise R l → ∀ a ∈ l.dropLast, ∀ b, l.getLast? = some b →
      R a b := by
  intro l
  induction l with
  | nil => intro _ a ha; simp at ha
  | cons x xs ih =>
    intro h a ha b hb
    obtain ⟨hx, hxs⟩ := List.pairwise_cons.mp h
    cases xs with
    | nil => simp at ha
    | cons y ys =>
      rw [List.dropLast_cons₂] at ha
      rw [List.getLast?_cons_cons] at hb
      rcases List.mem_cons.mp ha with ha | ha
      · subst ha
        have hbm : b ∈ y :: ys := by
          have := List.getLast?_eq_getLast (y :: ys) (by simp)
          rw [this] at hb
          simp only [Option.some_inj] at hb
          subst hb
          exact List.getLast_mem _
        exact hx _ hbm
      · exact ih hxs a ha b hb

theorem toc_fold_flatten :
    ∀ (l : List Chapter) (acc : List (Chars × List Chapter)),
      List.Pairwise (fun x y : Chapter => x.section_num = y.section_num ∨
        lexLt x.section_num y.section_num = true) l →
      (∀ key ∈ acc.map Prod.fst, ∀ ch' ∈ l,
        key = ch'.section_num ∨ lexLt key ch'.section_num = true) →
      List.Chain' (fun a b : Chars => lexLt a b = true) (acc.map Prod.fst) →
      toc_flatten (l.foldl toc_insert acc) = toc_flatten acc ++ l := by
  intro l
  induction l with
  | nil => intro acc _ _ _; simp
  | cons ch l' ih =>
    intro acc hpair hinv2 hinv3
    obtain ⟨hch, hpair'⟩ := List.pairwise_cons.mp hpair
    rw [List.foldl_cons]
    haveI : IsTrans Chars (fun a b : Chars => lexLt a b = true) := ⟨fun _ _ _ => lexLt_trans⟩
    have hkeypw := List.chain'_iff_pairwise.mp hinv3
    have hP : ∀ g ∈ acc.dropLast, g.1 ≠ ch.section_num := by
      intro g hg heq
      have hne : acc ≠ [] := by
        intro he; rw [he] at hg; simp at hg
      have hmemkeys : g.1 ∈ (acc.map Prod.fst).dropLast := by
        rw [← List.map_dropLast]
        exact List.mem_map_of_mem Prod.fst hg
      have hknil : acc.map Prod.fst ≠ [] := by simpa using hne
      have hlt := pairwise_dropLast_getLast hkeypw g.1 hmemkeys
        ((acc.map Prod.fst).getLast hknil) (List.getLast?_eq_getLast _ hknil)
      have hlastmem : (acc.map Prod.fst).getLast hknil ∈ acc.map Prod.fst :=
        List.getLast_mem _
      have hrel := hinv2 _ hlastmem ch (List.mem_cons_self _ _)
      rw [← heq] at hrel
      exact lexLt_asymm hlt (by
        rcases hrel with hrel | hrel
        · exact Or.inl hrel.symm
        · exact Or.inr hrel)
    have hflat := toc_insert_flatten hP
    have hkeys := toc_insert_keys acc ch
    have hinv2' : ∀ key ∈ (toc_insert acc ch).map Prod.fst, ∀ ch' ∈ l',
        key = ch'.section_num ∨ lexLt key ch'.section_num = true := by
      intro key hkey ch' hch'
      rw [hkeys] at hkey
      split at hkey
      · exact hinv2 key hkey ch' (List.mem_cons_of_mem _ hch')
      · rcases List.mem_append.mp hkey with hkey | hkey
        · exact hinv2 key hkey ch' (List.mem_cons_of_mem _ hch')
        · simp only [List.mem_singleton] at hkey
          subst hkey
          exact hch ch' hch'
    have hinv3' : List.Chain' (fun a b : Chars => lexLt a b = true)
        ((toc_insert acc ch).map Prod.fst) := by
      rw [hkeys]
      split
      · exact hinv3
      · next hnotmem =>
        rw [List.chain'_append]
        refine ⟨hinv3, List.chain'_singleton _, ?_⟩
        intro x hx y hy
        simp only [List.head?_cons, Option.mem_def, Option.some_inj] at hy
        subst hy
        have hxmem : x ∈ acc.map Prod.fst := by
          cases hknil : acc.map Prod.fst with
          | nil => rw [hknil] at hx; simp at hx
          | cons a as =>
            rw [← hknil]
            rw [List.getLast?_eq_getLast _ (by simp [hknil])] at hx
            simp only [Option.mem_def, Option.some_inj] at hx
            subst hx
            exact List.getLast_mem _
        rcases hinv2 x hxmem ch (List.mem_cons_self _ _) with hrel | hrel
        · exact absurd (hrel ▸ hxmem) hnotmem
        · exact hrel
    rw [ih (toc_insert acc ch) hpair' hinv2' hinv3', hflat]
    simp

theorem lexLt_pair {x y x' y' : Char} (h : x < x' ∨ (x = x' ∧ y < y')) :
    lexLt [x, y] [x', y'] = true := by
  rcases h with h | ⟨he, h⟩
  · simp [lexLt, h]
  · subst he
    simp [lexLt, h]

theorem two_digit_val_lt {a b a' b' : Char}
    (ha : a.isDigit = true) (hb : b.isDigit = true)
    (ha' : a'.isDigit = true) (hb' : b'.isDigit = true)
    (h : a < a' ∨ (a = a' ∧ b < b')) :
    two_digit_val [a, b] < two_digit_val [a', b'] := by
  obtain ⟨ha1, ha2⟩ := digit_val_bounds ha
  obtain ⟨hb1, hb2⟩ := digit_val_bounds hb
  obtain ⟨ha1', ha2'⟩ := digit_val_bounds ha'
  obtain ⟨hb1', hb2'⟩ := digit_val_bounds hb'
  simp only [two_digit_val]
  rcases h with h | ⟨he, h⟩
  · have hlt : a.toNat < a'.toNat := by simpa [Char.lt_def, UInt32.lt_def] using h
    omega
  · subst he
    have hlt : b.toNat < b'.toNat := by simpa [Char.lt_def, UInt32.lt_def] using h
    omega

theorem lex6 {a b c d a' b' c' d' : Char} {r r' : Chars}
    (h : lexLt (a :: b :: '_' :: c :: d :: '_' :: r)
      (a' :: b' :: '_' :: c' :: d' :: '_' :: r') = true) :
    a < a' ∨ (a = a' ∧ (b < b' ∨ (b = b' ∧
      (c < c' ∨ (c = c' ∧ (d < d' ∨ d = d')))))) := by
  rcases lexLt_cons h with h | ⟨e1, h⟩
  · exact Or.inl h
  refine Or.inr ⟨e1, ?_⟩
  rcases lexLt_cons h with h | ⟨e2, h⟩
  · exact Or.inl h
  refine Or.inr ⟨e2, ?_⟩
  rcases lexLt_cons h with h | ⟨e3, h⟩
  · exact absurd h (by decide)
  rcases lexLt_cons h with h | ⟨e4, h⟩
  · exact Or.inl h
  refine Or.inr ⟨e4, ?_⟩
  rcases lexLt_cons h with h | ⟨e5, h⟩
  · exact Or.inl h
  exact Or.inr e5

theorem mk_chapter_eq_some {name : Chars} {fl : Option Chars} {ch : Chapter}
    (h : mk_chapter name fl = some ch) :
    ∃ s c g, parse_filename name = some (s, c, g) ∧ ch.section_num = s ∧
      ch.chapter_num = c ∧ ch.slug = g ∧ ch.filename = name := by
  unfold mk_chapter at h
  cases hp : parse_filename name with
  | none => rw [hp] at h; exact absurd h (by simp)
  | some x =>
    rw [hp] at h
    simp only [Option.map_some', Option.some_inj] at h
    exact ⟨x.1, x.2.1, x.2.2, by simp [hp], by rw [← h], by rw [← h], by rw [← h], by rw [← h]⟩

theorem chapter_key_lt_of_files {f g : SrcFile} {ch1 ch2 : Chapter}
    (hlex : lexLt f.name g.name = true) (hkne : file_key f ≠ file_key g)
    (h1 : mk_chapter f.name f.firstLine = some ch1)
    (h2 : mk_chapter g.name g.firstLine = some ch2) :
    keyLt (chapter_key ch1) (chapter_key ch2) := by
  obtain ⟨s1, c1, g1, hp1, hs1, hc1, -, -⟩ := mk_chapter_eq_some h1
  obtain ⟨s2, c2, g2, hp2, hs2, hc2, -, -⟩ := mk_chapter_eq_some h2
  obtain ⟨a, b, c', d, r, hn1, hsv1, hcv1, hda, hdb, hdc, hdd⟩ := parse_filename_eq_some hp1
  obtain ⟨a', b', cc', d', r', hn2, hsv2, hcv2, hda', hdb', hdc', hdd'⟩ :=
    parse_filename_eq_some hp2
  rw [hn1, hn2] at hlex
  have hdisj := lex6 hlex
  unfold chapter_key keyLt
  rw [hs1, hc1, hs2, hc2, hsv1, hcv1, hsv2, hcv2]
  have hfk1 : file_key f = some (two_digit_val [a, b], two_digit_val [c', d]) := by
    unfold file_key
    rw [hp1, hsv1, hcv1]
    rfl
  have hfk2 : file_key g = some (two_digit_val [a', b'], two_digit_val [cc', d']) := by
    unfold file_key
    rw [hp2, hsv2, hcv2]
    rfl
  rcases hdisj with h | ⟨e1, h⟩
  · exact Or.inl (two_digit_val_lt hda hdb hda' hdb' (Or.inl h))
  rcases h with h | ⟨e2, h⟩
  · exact Or.inl (two_digit_val_lt hda hdb hda' hdb' (Or.inr ⟨e1, h⟩))
  subst e1; subst e2
  rcases h with h | ⟨e3, h⟩
  · exact Or.inr ⟨rfl, two_digit_val_lt hdc hdd hdc' hdd' (Or.inl h)⟩
  rcases h with h | e4
  · exact Or.inr ⟨rfl, two_digit_val_lt hdc hdd hdc' hdd' (Or.inr ⟨e3, h⟩)⟩
  · subst e3; subst e4
    exact absurd (hfk1.trans hfk2.symm) hkne

theorem chapter_sec_le_of_files {f g : SrcFile} {ch1 ch2 : Chapter}
    (hlex : lexLt f.name g.name = true)
    (h1 : mk_chapter f.name f.firstLine = some ch1)
    (h2 : mk_chapter g.name g.firstLine = some ch2) :
    ch1.section_num = ch2.section_num ∨ lexLt ch1.section_num ch2.section_num = true := by
  obtain ⟨s1, c1, g1, hp1, hs1, hc1, -, -⟩ := mk_chapter_eq_some h1
  obtain ⟨s2, c2, g2, hp2, hs2, hc2, -, -⟩ := mk_chapter_eq_some h2
  obtain ⟨a, b, c', d, r, hn1, hsv1, hcv1, hda, hdb, hdc, hdd⟩ := parse_filename_eq_some hp1
  obtain ⟨a', b', cc', d', r', hn2, hsv2, hcv2, hda', hdb', hdc', hdd'⟩ :=
    parse_filename_eq_some hp2
  rw [hn1, hn2] at hlex
  have hdisj := lex6 hlex
  rw [hs1, hs2, hsv1, hsv2]
  rcases hdisj with h | ⟨e1, h⟩
  · exact Or.inr (lexLt_pair (Or.inl h))
  rcases h with h | ⟨e2, h⟩
  · exact Or.inr (lexLt_pair (Or.inr ⟨e1, h⟩))
  · subst e1; subst e2
    exact Or.inl rfl

/-- **C6 (counterexample).** Two distinct valid filenames with the same key
`(01, 01)` produce two catalog entries with that key — not exactly one — and
the iteration order is not strictly ascending. -/
theorem claim_C6_cex_duplicate_key :
    (∀ f ∈ demoDupFiles, (parse_filename f.name).isSome = true) ∧
    List.Chain' (fun f g : SrcFile => lexLt f.name g.name = true) demoDupFiles ∧
    ((parse_chapters demoDupFiles).filter
      fun c' => chapter_key c' == ((1 : Nat), (1 : Nat))).length = 2 ∧
    ¬ List.Chain' keyLt ((parse_chapters demoDupFiles).map chapter_key) := by
  refine ⟨by decide, ?_, by decide, ?_⟩
  · simp only [demoDupFiles, List.chain'_cons, List.chain'_singleton, and_true]
    decide
  · intro h
    have h2 := List.chain'_cons.mp (show List.Chain' keyLt [(1, 1), (1, 1)] from h)
    unfold keyLt at h2
    omega

/-- **C6 (amended).** For a sorted listing of valid filenames with pairwise
distinct `(section, chapter)` keys, the Catalog has exactly one ChapterRef
per key, the catalog order is strictly ascending by key, and iterating the
`toc_structure` (sections in insertion order, chapters within each section
in insertion order) visits exactly the catalog in the same strictly
ascending key order. -/
theorem claim_C6_catalog_unique_sorted (files : List SrcFile)
    (hsort : List.Chain' (fun f g : SrcFile => lexLt f.name g.name = true) files)
    (_hvalid : ∀ f ∈ files, (parse_filename f.name).isSome = true)
    (hdist : List.Pairwise (fun f g : SrcFile => file_key f ≠ file_key g) files) :
    (∀ ch ∈ parse_chapters files,
      ((parse_chapters files).filter
        fun c' => chapter_key c' == chapter_key ch).length = 1) ∧
    List.Chain' keyLt ((parse_chapters files).map chapter_key) ∧
    toc_flatten (build_toc (parse_chapters files)) = parse_chapters files ∧
    List.Chain' keyLt ((toc_flatten (build_toc (parse_chapters files))).map chapter_key) := by
  haveI : IsTrans SrcFile (fun f g : SrcFile => lexLt f.name g.name = true) :=
    ⟨fun _ _ _ => lexLt_trans⟩
  haveI : IsTrans (Nat × Nat) keyLt := by
    refine ⟨fun a b c h1 h2 => ?_⟩
    unfold keyLt at h1 h2 ⊢
    omega
  have hpwlex := List.chain'_iff_pairwise.mp hsort
  have hpwS := hpwlex.and hdist
  have hkeypw : List.Pairwise (fun x y : Chapter => keyLt (chapter_key x) (chapter_key y))
      (parse_chapters files) :=
    parse_chapters_pairwise hpwS
      (fun f g ch1 ch2 hS h1 h2 => chapter_key_lt_of_files hS.1 hS.2 h1 h2)
  have hchain : List.Chain' keyLt ((parse_chapters files).map chapter_key) :=
    List.chain'_iff_pairwise.mpr (List.pairwise_map.mpr hkeypw)
  have hnodup : ((parse_chapters files).map chapter_key).Nodup := by
    refine List.Pairwise.imp ?_ (List.pairwise_map.mpr hkeypw)
    intro a b hab
    unfold keyLt at hab
    intro he
    rw [he] at hab
    omega
  have hsecpw : List.Pairwise (fun x y : Chapter => x.section_num = y.section_num ∨
      lexLt x.section_num y.section_num = true) (parse_chapters files) :=
    parse_chapters_pairwise hpwlex
      (fun f g ch1 ch2 hS h1 h2 => chapter_sec_le_of_files hS h1 h2)
  have hflat : toc_flatten (build_toc (parse_chapters files)) = parse_chapters files := by
    unfold build_toc
    rw [toc_fold_flatten (parse_chapters files) [] hsecpw (by simp) (by simp)]
    rfl
  exact ⟨filter_key_count hnodup, hchain, hflat, by rw [hflat]; exact hchain⟩

theorem claim_C6_witness :
    (∀ ch ∈ parse_chapters
        [⟨toChars "01_01_intro.md", none⟩, ⟨toChars "01_02_data.md", none⟩,
         ⟨toChars "02_01_cpu.md", none⟩],
      ((parse_chapters
        [⟨toChars "01_01_intro.md", none⟩, ⟨toChars "01_02_data.md", none⟩,
         ⟨toChars "02_01_cpu.md", none⟩]).filter
        fun c' => chapter_key c' == chapter_key ch).length = 1) ∧
    List.Chain' keyLt ((parse_chapters
        [⟨toChars "01_01_intro.md", none⟩, ⟨toChars "01_02_data.md", none⟩,
         ⟨toChars "02_01_cpu.md", none⟩]).map chapter_key) ∧
    toc_flatten (build_toc (parse_chapters
        [⟨toChars "01_01_intro.md", none⟩, ⟨toChars "01_02_data.md", none⟩,
         ⟨toChars "02_01_cpu.md", none⟩]))
      = parse_chapters
        [⟨toChars "01_01_intro.md", none⟩, ⟨toChars "01_02_data.md", none⟩,
         ⟨toChars "02_01_cpu.md", none⟩] ∧
    List.Chain' keyLt ((toc_flatten (build_toc (parse_chapters
        [⟨toChars "01_01_intro.md", none⟩, ⟨toChars "01_02_data.md", none⟩,
         ⟨toChars "02_01_cpu.md", none⟩]))).map chapter_key) :=
  claim_C6_catalog_unique_sorted
    [⟨toChars "01_01_intro.md", none⟩, ⟨toChars "01_02_data.md", none⟩,
     ⟨toChars "02_01_cpu.md", none⟩]
    (by
      simp only [List.chain'_cons, List.chain'_singleton, and_true]
      exact ⟨by decide, by decide⟩)
    (by decide)
    (by
      refine List.pairwise_cons.mpr ⟨?_, List.pairwise_cons.mpr ⟨?_, List.pairwise_singleton _ _⟩⟩
      · intro g hg
        rcases List.mem_cons.mp hg with hg | hg
        · subst hg; decide
        · rcases List.mem_cons.mp hg with hg | hg
          · subst hg; decide
          · simp at hg
      · intro g hg
        rcases List.mem_cons.mp hg with hg | hg
        · subst hg; decide
        · simp at hg)

/-! ## C7: heading-anchor ordinal stability in the PDF TOC -/

theorem add_h2_ids_nil (cid : Chars) : ∀ f k, add_h2_ids cid f k [] = []
  | 0, _ => rfl
  | _ + 1, _ => rfl

theorem add_h2_ids_succ (cid : Chars) (f k : Nat) (s : Chars) :
    add_h2_ids cid (f + 1) k s =
      match stripPre (toChars "<h2>") s, s with
      | some rest, _ =>
        (match findH2Close rest with
        | some (inner, after) =>
          toChars "<h2 id=\x22" ++ cid ++ toChars "_h2_" ++ Nat.toDigits 10 k ++
            toChars "\x22>" ++ inner ++ toChars "</h2>" ++ add_h2_ids cid f (k + 1) after
        | none =>
          match s with
          | [] => []
          | c :: cs => c :: add_h2_ids cid f k cs)
      | none, [] => []
      | none, c :: cs => c :: add_h2_ids cid f k cs := rfl

theorem add_h2_ids_cons_nomatch {cid : Chars} {c : Char} {cs : Chars}
    (h : stripPre (toChars "<h2>") (c :: cs) = none) (f k : Nat) :
    add_h2_ids cid (f + 1) k (c :: cs) = c :: add_h2_ids cid f k cs := by
  rw [add_h2_ids_succ, h]

theorem add_h2_ids_cons_match {cid : Chars} {s rest inner after : Chars}
    (h1 : stripPre (toChars "<h2>") s = some rest)
    (h2 : findH2Close rest = some (inner, after)) (f k : Nat) :
    add_h2_ids cid (f + 1) k s =
      toChars "<h2 id=\x22" ++ cid ++ toChars "_h2_" ++ Nat.toDigits 10 k ++
        toChars "\x22>" ++ inner ++ toChars "</h2>" ++ add_h2_ids cid f (k + 1) after := by
  rw [add_h2_ids_succ, h1]
  dsimp only
  rw [h2]

theorem findH2Close_eq_some {r inner after : Chars}
    (h : findH2Close r = some (inner, after)) :
    r = inner ++ (toChars "</h2>" ++ after) ∧ inner ≠ [] := by
  induction r generalizing inner with
  | nil => exact absurd h (by simp [findH2Close])
  | cons c cs ih =>
    unfold findH2Close at h
    split at h
    · exact absurd h (by simp)
    · split at h
      · next htake =>
        simp only [Option.some_inj, Prod.mk.injEq] at h
        obtain ⟨h1, h2⟩ := h
        subst h1
        subst h2
        refine ⟨?_, by simp⟩
        have hcs : cs = toChars "</h2>" ++ cs.drop 5 := by
          conv_lhs => rw [← List.take_append_drop 5 cs]
          rw [htake]
        rw [show [c] ++ (toChars "</h2>" ++ List.drop 5 cs)
            = c :: (toChars "</h2>" ++ List.drop 5 cs) from rfl]
        rw [← hcs]
      · split at h
        · next inner' rest' hrec =>
          simp only [Option.some_inj, Prod.mk.injEq] at h
          obtain ⟨h1, h2⟩ := h
          subst h2
          obtain ⟨hr, hne⟩ := ih hrec
          subst h1
          exact ⟨by rw [List.cons_append, ← hr], by simp⟩
        · exact absurd h (by simp)

theorem add_h2_ids_fuel (cid : Chars) :
    ∀ f1 : Nat, ∀ (s : Chars) (f2 k : Nat), s.length ≤ f1 → s.length ≤ f2 →
      add_h2_ids cid f1 k s = add_h2_ids cid f2 k s := by
  intro f1
  induction f1 with
  | zero =>
    intro s f2 k h1 _
    have : s = [] := List.eq_nil_of_length_eq_zero (Nat.le_zero.mp h1)
    subst this
    rw [add_h2_ids_nil, add_h2_ids_nil]
  | succ f1' ih =>
    intro s f2 k h1 h2
    cases s with
    | nil => rw [add_h2_ids_nil, add_h2_ids_nil]
    | cons c cs =>
      cases f2 with
      | zero => simp at h2
      | succ f2' =>
        simp only [List.length_cons, Nat.add_le_add_iff_right] at h1 h2
        cases hstrip : stripPre (toChars "<h2>") (c :: cs) with
        | none =>
          rw [add_h2_ids_cons_nomatch hstrip, add_h2_ids_cons_nomatch hstrip,
            ih cs f2' k h1 h2]
        | some rest =>
          have hshape := stripPre_eq_some hstrip
          have hlenrest : cs.length = rest.length + 3 := by
            have := congrArg List.length hshape
            simp [toChars] at this
            omega
          cases hfind : findH2Close rest with
          | none =>
            have hn : ∀ f, add_h2_ids cid (f + 1) k (c :: cs)
                = c :: add_h2_ids cid f k cs := by
              intro f
              rw [add_h2_ids_succ, hstrip]
              dsimp only
              rw [hfind]
            rw [hn f1', hn f2', ih cs f2' k h1 h2]
          | some x =>
            obtain ⟨inner, after⟩ := x
            obtain ⟨hr, hinne⟩ := findH2Close_eq_some hfind
            have hlenafter : after.length ≤ rest.length := by
              have := congrArg List.length hr
              simp [toChars] at this
              omega
            rw [add_h2_ids_cons_match hstrip hfind, add_h2_ids_cons_match hstrip hfind,
              ih after f2' (k + 1) (by omega) (by omega)]

theorem add_h2_ids_ge {cid : Chars} {s : Chars} {f k : Nat} (h : s.length ≤ f) :
    add_h2_ids cid f k s = add_h2_ids cid s.length k s :=
  add_h2_ids_fuel cid f s s.length k h (Nat.le_refl _)

theorem stripPre_cons_none {p : Char} {ps : Chars} {c : Char} {cs : Chars} (h : c ≠ p) :
    stripPre (p :: ps) (c :: cs) = none := by
  simp [stripPre, h]

theorem add_h2_ids_skip {cid : Chars} :
    ∀ {p : Chars}, '<' ∉ p → ∀ (s : Chars) (k : Nat),
      add_h2_ids cid (p ++ s).length k (p ++ s) = p ++ add_h2_ids cid s.length k s := by
  intro p
  induction p with
  | nil => intro _ s k; rfl
  | cons c p' ih =>
    intro hp s k
    have hc : c ≠ '<' := fun he => hp (by simp [he])
    have hstrip : stripPre (toChars "<h2>") (c :: (p' ++ s)) = none := by
      rw [show toChars "<h2>" = '<' :: toChars "h2>" from rfl]
      exact stripPre_cons_none hc
    rw [show ((c :: p') ++ s).length = (p' ++ s).length + 1 by simp]
    rw [show (c :: p') ++ s = c :: (p' ++ s) from rfl]
    rw [add_h2_ids_cons_nomatch hstrip]
    rw [ih (fun hm => hp (List.mem_cons_of_mem _ hm)) s k]
    rfl

theorem findH2Close_run {t : Chars} (hne : t ≠ [])
    (ht : ∀ c ∈ t, c ≠ '\n' ∧ c ≠ '<') :
    ∀ r : Chars, findH2Close (t ++ (toChars "</h2>" ++ r)) = some (t, r) := by
  induction t with
  | nil => exact absurd rfl hne
  | cons c ts ih =>
    intro r
    rw [show (c :: ts) ++ (toChars "</h2>" ++ r) = c :: (ts ++ (toChars "</h2>" ++ r)) from rfl]
    simp only [findH2Close]
    rw [if_neg (by exact_mod_cast (ht c (by simp)).1)]
    cases ts with
    | nil =>
      rw [if_pos (by rfl)]
      rfl
    | cons c2 ts2 =>
      have hc2 : c2 ≠ '<' := (ht c2 (by simp)).2
      rw [if_neg ?hneq]
      case hneq =>
        intro htake
        have htake' : c2 :: List.take 4 (ts2 ++ (toChars "</h2>" ++ r)) = toChars "</h2>" :=
          htake
        injection htake' with h1 _
        exact hc2 h1
      rw [ih (by simp) (fun x hx => ht x (by simp [hx])) r]

theorem splitNl_no_nl {l : Chars} (h : '\n' ∉ l) : splitNl l = [l] := by
  induction l with
  | nil => rfl
  | cons c cs ih =>
    have hc : c ≠ '\n' := fun he => h (by simp [he])
    unfold splitNl
    rw [if_neg hc, ih (fun hm => h (List.mem_cons_of_mem _ hm))]

theorem splitNl_append_nl {l : Chars} (h : '\n' ∉ l) (r : Chars) :
    splitNl (l ++ '\n' :: r) = l :: splitNl r := by
  induction l with
  | nil =>
    rw [List.nil_append]
    conv_lhs => unfold splitNl
    rw [if_pos rfl]
  | cons c cs ih =>
    have hc : c ≠ '\n' := fun he => h (by simp [he])
    rw [List.cons_append]
    conv_lhs => unfold splitNl
    rw [if_neg hc, ih (fun hm => h (List.mem_cons_of_mem _ hm))]

theorem splitNl_joinNl : ∀ (lines : List Chars), lines ≠ [] →
    (∀ l ∈ lines, '\n' ∉ l) → splitNl (joinNl lines) = lines := by
  intro lines
  induction lines with
  | nil => intro h; exact absurd rfl h
  | cons l ls ih =>
    intro _ hnl
    cases ls with
    | nil =>
      rw [show joinNl [l] = l from rfl]
      exact splitNl_no_nl (hnl l (by simp))
    | cons l2 ls2 =>
      rw [show joinNl (l :: l2 :: ls2) = l ++ '\n' :: joinNl (l2 :: ls2) from rfl]
      rw [splitNl_append_nl (hnl l (by simp))]
      rw [ih (by simp) (fun x hx => hnl x (by simp [hx]))]

theorem containsSub_nil_sub : ∀ q : Chars, containsSub q [] = true
  | [] => rfl
  | _ :: _ => by simp [containsSub, stripPre]

theorem containsSub_here : ∀ (sub q : Chars), containsSub (sub ++ q) sub = true := by
  intro sub q
  cases sub with
  | nil => exact containsSub_nil_sub q
  | cons c cs =>
    rw [List.cons_append]
    unfold containsSub
    rw [show stripPre (c :: cs) (c :: (cs ++ q)) = stripPre (c :: cs) ((c :: cs) ++ q)
      from rfl]
    rw [stripPre_append]
    rfl

theorem containsSub_cons {cs sub : Chars} (c : Char) (h : containsSub cs sub = true) :
    containsSub (c :: cs) sub = true := by
  unfold containsSub
  rw [h]
  simp

theorem containsSub_of_split : ∀ (p sub q : Chars), containsSub (p ++ (sub ++ q)) sub = true := by
  intro p
  induction p with
  | nil => intro sub q; rw [List.nil_append]; exact containsSub_here sub q
  | cons c cs ih =>
    intro sub q
    rw [List.cons_append]
    exact containsSub_cons c (ih sub q)


theorem nl_not_mem_h2line {t : Chars} (h : ∀ c ∈ t, c ≠ '\n' ∧ c ≠ '<') :
    '\n' ∉ ('#' :: '#' :: ' ' :: t) := by
  intro hm
  simp only [List.mem_cons] at hm
  rcases hm with h1 | h1 | h1 | h1
  · exact absurd h1 (by decide)
  · exact absurd h1 (by decide)
  · exact absurd h1 (by decide)
  · exact (h '\n' h1).1 rfl

theorem h2_of_line_heading {t : Chars} (ht : t ≠ []) :
    h2_of_line ('#' :: '#' :: ' ' :: t) = some t := by
  cases t with
  | nil => exact absurd rfl ht
  | cons a as => rfl

theorem add_h2_ids_block {cid t : Chars} (hne : t ≠ [])
    (ht : ∀ c ∈ t, c ≠ '\n' ∧ c ≠ '<') (r : Chars) (k : Nat) :
    add_h2_ids cid (toChars "<h2>" ++ (t ++ (toChars "</h2>" ++ r))).length k
        (toChars "<h2>" ++ (t ++ (toChars "</h2>" ++ r))) =
      toChars "<h2 id=\x22" ++ cid ++ toChars "_h2_" ++ Nat.toDigits 10 k ++
        toChars "\x22>" ++ t ++ toChars "</h2>" ++
        add_h2_ids cid r.length (k + 1) r := by
  have l4 : (toChars "<h2>").length = 4 := rfl
  have l5 : (toChars "</h2>").length = 5 := rfl
  have hlen : (toChars "<h2>" ++ (t ++ (toChars "</h2>" ++ r))).length
      = t.length + r.length + 8 + 1 := by
    simp only [List.length_append, l4, l5]
    omega
  rw [hlen, add_h2_ids_cons_match (stripPre_append _ _) (findH2Close_run hne ht r)]
  rw [add_h2_ids_ge (show r.length ≤ t.length + r.length + 8 by omega)]

theorem splitNl_demo {t1 t2 t3 : Chars}
    (h1c : ∀ c ∈ t1, c ≠ '\n' ∧ c ≠ '<') (h2c : ∀ c ∈ t2, c ≠ '\n' ∧ c ≠ '<')
    (h3c : ∀ c ∈ t3, c ≠ '\n' ∧ c ≠ '<') :
    splitNl (demo_chapter_content t1 t2 t3) =
      [toChars "# Заголовок", [], '#' :: '#' :: ' ' :: t1, [], toChars "Текст.", [],
       '#' :: '#' :: ' ' :: t2, [], toChars "Ещё текст.", [],
       '#' :: '#' :: ' ' :: t3, []] := by
  rw [demo_chapter_content]
  apply splitNl_joinNl _ (by simp)
  intro l hl
  simp only [List.mem_cons, List.not_mem_nil, or_false] at hl
  rcases hl with rfl | rfl | rfl | rfl | rfl | rfl | rfl | rfl | rfl | rfl | rfl | rfl
  · decide
  · simp
  · exact nl_not_mem_h2line h1c
  · simp
  · decide
  · simp
  · exact nl_not_mem_h2line h2c
  · simp
  · decide
  · simp
  · exact nl_not_mem_h2line h3c
  · simp

theorem h2_headings_demo {t1 t2 t3 : Chars}
    (h1ne : t1 ≠ []) (h2ne : t2 ≠ []) (h3ne : t3 ≠ [])
    (h1c : ∀ c ∈ t1, c ≠ '\n' ∧ c ≠ '<') (h2c : ∀ c ∈ t2, c ≠ '\n' ∧ c ≠ '<')
    (h3c : ∀ c ∈ t3, c ≠ '\n' ∧ c ≠ '<') :
    h2_headings (demo_chapter_content t1 t2 t3) = [t1, t2, t3] := by
  have e1 : h2_of_line (toChars "# Заголовок") = none := rfl
  have e2 : h2_of_line ([] : Chars) = none := rfl
  have eP2 : h2_of_line (toChars "Текст.") = none := rfl
  have eP3 : h2_of_line (toChars "Ещё текст.") = none := rfl
  rw [h2_headings, splitNl_demo h1c h2c h3c]
  simp only [List.filterMap_cons, List.filterMap_nil, e1, e2, eP2, eP3,
    h2_of_line_heading h1ne, h2_of_line_heading h2ne, h2_of_line_heading h3ne]

theorem toc_subentries_demo {cid t1 t2 t3 : Chars}
    (h1ne : t1 ≠ []) (h2ne : t2 ≠ []) (h3ne : t3 ≠ [])
    (h1c : ∀ c ∈ t1, c ≠ '\n' ∧ c ≠ '<') (h2c : ∀ c ∈ t2, c ≠ '\n' ∧ c ≠ '<')
    (h3c : ∀ c ∈ t3, c ≠ '\n' ∧ c ≠ '<')
    (h1s : strip t1 = t1) (h2s : strip t2 = t2) (h3s : strip t3 = t3)
    (hd1 : denylist.contains (lowerRu t1) = false)
    (hd2 : denylist.contains (lowerRu t2) = true)
    (hd3 : denylist.contains (lowerRu t3) = false) :
    toc_subentries cid (demo_chapter_content t1 t2 t3) =
      [(cid ++ toChars "_h2_" ++ Nat.toDigits 10 0, t1),
       (cid ++ toChars "_h2_" ++ Nat.toDigits 10 2, t3)] := by
  rw [toc_subentries, h2_headings_demo h1ne h2ne h3ne h1c h2c h3c]
  simp only [enum_from, List.filterMap_cons, List.filterMap_nil, h1s, h2s, h3s,
    hd1, hd2, hd3]
  simp

theorem render_demo {t1 t2 t3 : Chars}
    (h1ne : t1 ≠ []) (h2ne : t2 ≠ []) (h3ne : t3 ≠ [])
    (h1c : ∀ c ∈ t1, c ≠ '\n' ∧ c ≠ '<') (h2c : ∀ c ∈ t2, c ≠ '\n' ∧ c ≠ '<')
    (h3c : ∀ c ∈ t3, c ≠ '\n' ∧ c ≠ '<')
    (h1s : strip t1 = t1) (h2s : strip t2 = t2) (h3s : strip t3 = t3) :
    render_markdown_h2 (demo_chapter_content t1 t2 t3) =
      joinNl [toChars "# Заголовок", [], toChars "<h2>" ++ t1 ++ toChars "</h2>", [],
              toChars "Текст.", [], toChars "<h2>" ++ t2 ++ toChars "</h2>", [],
              toChars "Ещё текст.", [], toChars "<h2>" ++ t3 ++ toChars "</h2>", []] := by
  have e1 : h2_of_line (toChars "# Заголовок") = none := rfl
  have e2 : h2_of_line ([] : Chars) = none := rfl
  have eP2 : h2_of_line (toChars "Текст.") = none := rfl
  have eP3 : h2_of_line (toChars "Ещё текст.") = none := rfl
  rw [render_markdown_h2, splitNl_demo h1c h2c h3c]
  simp only [List.map_cons, List.map_nil, e1, e2, eP2, eP3,
    h2_of_line_heading h1ne, h2_of_line_heading h2ne, h2_of_line_heading h3ne,
    h1s, h2s, h3s]

theorem add_h2_ids_demo {cid t1 t2 t3 : Chars}
    (h1ne : t1 ≠ []) (h2ne : t2 ≠ []) (h3ne : t3 ≠ [])
    (h1c : ∀ c ∈ t1, c ≠ '\n' ∧ c ≠ '<') (h2c : ∀ c ∈ t2, c ≠ '\n' ∧ c ≠ '<')
    (h3c : ∀ c ∈ t3, c ≠ '\n' ∧ c ≠ '<')
    (h1s : strip t1 = t1) (h2s : strip t2 = t2) (h3s : strip t3 = t3) :
    add_h2_ids' cid (render_markdown_h2 (demo_chapter_content t1 t2 t3)) =
      joinNl [toChars "# Заголовок", [], h2_anchor cid 0 t1, [], toChars "Текст.", [],
              h2_anchor cid 1 t2, [], toChars "Ещё текст.", [],
              h2_anchor cid 2 t3, []] := by
  have hp1 : '<' ∉ toChars "# Заголовок\n\n" := by decide
  have hp2 : '<' ∉ toChars "\n\nТекст.\n\n" := by decide
  have hp3 : '<' ∉ toChars "\n\nЕщё текст.\n\n" := by decide
  have hlast : ∀ k, add_h2_ids cid (toChars "\n").length k (toChars "\n") = toChars "\n" :=
    fun k => rfl
  have hassoc :
      joinNl [toChars "# Заголовок", [], toChars "<h2>" ++ t1 ++ toChars "</h2>", [],
              toChars "Текст.", [], toChars "<h2>" ++ t2 ++ toChars "</h2>", [],
              toChars "Ещё текст.", [], toChars "<h2>" ++ t3 ++ toChars "</h2>", []] =
      toChars "# Заголовок\n\n" ++
        (toChars "<h2>" ++ (t1 ++ (toChars "</h2>" ++
          (toChars "\n\nТекст.\n\n" ++
            (toChars "<h2>" ++ (t2 ++ (toChars "</h2>" ++
              (toChars "\n\nЕщё текст.\n\n" ++
                (toChars "<h2>" ++ (t3 ++ (toChars "</h2>" ++
                  toChars "\n"))))))))))) := by
    simp only [joinNl, List.append_assoc, List.cons_append, List.nil_append]
    rfl
  rw [render_demo h1ne h2ne h3ne h1c h2c h3c h1s h2s h3s, hassoc]
  rw [add_h2_ids']
  rw [add_h2_ids_skip hp1]
  rw [add_h2_ids_block h1ne h1c]
  rw [add_h2_ids_skip hp2]
  rw [add_h2_ids_block h2ne h2c]
  rw [add_h2_ids_skip hp3]
  rw [add_h2_ids_block h3ne h3c]
  rw [hlast]
  simp only [joinNl, h2_anchor, List.append_assoc, List.cons_append, List.nil_append]
  rfl

theorem body_split_first {cid t1 t2 t3 : Chars} :
    joinNl [toChars "# Заголовок", [], h2_anchor cid 0 t1, [], toChars "Текст.", [],
            h2_anchor cid 1 t2, [], toChars "Ещё текст.", [],
            h2_anchor cid 2 t3, []] =
      toChars "# Заголовок\n\n" ++
        ((toChars "<h2 id=\x22" ++ ((cid ++ toChars "_h2_" ++ Nat.toDigits 10 0) ++
            (toChars "\x22>" ++ (t1 ++ toChars "</h2>")))) ++
          (toChars "\n\nТекст.\n\n" ++
            (h2_anchor cid 1 t2 ++
              (toChars "\n\nЕщё текст.\n\n" ++
                (h2_anchor cid 2 t3 ++ toChars "\n"))))) := by
  simp only [joinNl, h2_anchor, List.append_assoc, List.cons_append, List.nil_append]
  rfl

theorem body_split_third {cid t1 t2 t3 : Chars} :
    joinNl [toChars "# Заголовок", [], h2_anchor cid 0 t1, [], toChars "Текст.", [],
            h2_anchor cid 1 t2, [], toChars "Ещё текст.", [],
            h2_anchor cid 2 t3, []] =
      (toChars "# Заголовок\n\n" ++
        (h2_anchor cid 0 t1 ++
          (toChars "\n\nТекст.\n\n" ++
            (h2_anchor cid 1 t2 ++ toChars "\n\nЕщё текст.\n\n")))) ++
        ((toChars "<h2 id=\x22" ++ ((cid ++ toChars "_h2_" ++ Nat.toDigits 10 2) ++
            (toChars "\x22>" ++ (t3 ++ toChars "</h2>")))) ++
          toChars "\n") := by
  simp only [joinNl, h2_anchor, List.append_assoc, List.cons_append, List.nil_append]
  rfl

/-- **C7.** For a chapter whose content has three `##` headings of which
exactly the second is denylisted, the PDF TOC emits exactly two sub-entries,
anchored `{cid}_h2_0` and `{cid}_h2_2` (the denylisted heading consumes
ordinal 1 but produces no entry); the rendered body carries `id`s `_h2_0`,
`_h2_1`, `_h2_2` on its three `<h2>` elements; and for every TOC sub-entry
the body contains the element `<h2 id="{anchor}">{title}</h2>` with the
anchor and title bit-for-bit those of the sub-entry. -/
theorem claim_C7_h2_ordinal_stability (cid t1 t2 t3 : Chars)
    (h1ne : t1 ≠ []) (h2ne : t2 ≠ []) (h3ne : t3 ≠ [])
    (h1c : ∀ c ∈ t1, c ≠ '\n' ∧ c ≠ '<') (h2c : ∀ c ∈ t2, c ≠ '\n' ∧ c ≠ '<')
    (h3c : ∀ c ∈ t3, c ≠ '\n' ∧ c ≠ '<')
    (h1s : strip t1 = t1) (h2s : strip t2 = t2) (h3s : strip t3 = t3)
    (hd1 : denylist.contains (lowerRu t1) = false)
    (hd2 : denylist.contains (lowerRu t2) = true)
    (hd3 : denylist.contains (lowerRu t3) = false) :
    toc_subentries cid (demo_chapter_content t1 t2 t3) =
      [(cid ++ toChars "_h2_" ++ Nat.toDigits 10 0, t1),
       (cid ++ toChars "_h2_" ++ Nat.toDigits 10 2, t3)] ∧
    add_h2_ids' cid (render_markdown_h2 (demo_chapter_content t1 t2 t3)) =
      joinNl [toChars "# Заголовок", [], h2_anchor cid 0 t1, [], toChars "Текст.", [],
              h2_anchor cid 1 t2, [], toChars "Ещё текст.", [],
              h2_anchor cid 2 t3, []] ∧
    ∀ p ∈ toc_subentries cid (demo_chapter_content t1 t2 t3),
      containsSub (add_h2_ids' cid (render_markdown_h2 (demo_chapter_content t1 t2 t3)))
        (toChars "<h2 id=\x22" ++ (p.1 ++ (toChars "\x22>" ++ (p.2 ++ toChars "</h2>"))))
        = true := by
  refine ⟨toc_subentries_demo h1ne h2ne h3ne h1c h2c h3c h1s h2s h3s hd1 hd2 hd3,
    add_h2_ids_demo h1ne h2ne h3ne h1c h2c h3c h1s h2s h3s, ?_⟩
  intro p hp
  rw [toc_subentries_demo h1ne h2ne h3ne h1c h2c h3c h1s h2s h3s hd1 hd2 hd3] at hp
  rw [add_h2_ids_demo h1ne h2ne h3ne h1c h2c h3c h1s h2s h3s]
  simp only [List.mem_cons, List.not_mem_nil, or_false] at hp
  rcases hp with rfl | rfl
  · dsimp only
    rw [body_split_first]
    exact containsSub_of_split _ _ _
  · dsimp only
    rw [body_split_third]
    exact containsSub_of_split _ _ _

theorem claim_C7_witness :
    toc_subentries (toChars "chapter_02_01")
        (demo_chapter_content (toChars "Основные понятия") (toChars "Резюме")
          (toChars "Практика")) =
      [(toChars "chapter_02_01" ++ toChars "_h2_" ++ Nat.toDigits 10 0,
        toChars "Основные понятия"),
       (toChars "chapter_02_01" ++ toChars "_h2_" ++ Nat.toDigits 10 2,
        toChars "Практика")] :=
  (claim_C7_h2_ordinal_stability (toChars "chapter_02_01") (toChars "Основные понятия")
    (toChars "Резюме") (toChars "Практика") (by decide) (by decide) (by decide)
    (by decide) (by decide) (by decide) (by decide) (by decide) (by decide)
    (by decide) (by decide) (by decide)).1

/-! ## C4: idempotence lemmas for the book-scheme resolver -/

theorem matchBold_none_of_snd {q : Chars} (h : (q.drop 1).head? ≠ some '*') :
    matchBold q = none := by
  cases hm : matchBold q with
  | none => rfl
  | some x =>
    obtain ⟨d1, d2, r⟩ := x
    obtain ⟨hs, -, -, -, -, -⟩ := matchBold_eq_some hm
    exact absurd (by rw [hs]; rfl) h

theorem matchBold_none_of_trd {q : Chars} (h : (q.drop 2).head? ≠ some 'Г') :
    matchBold q = none := by
  cases hm : matchBold q with
  | none => rfl
  | some x =>
    obtain ⟨d1, d2, r⟩ := x
    obtain ⟨hs, -, -, -, -, -⟩ := matchBold_eq_some hm
    exact absurd (by rw [hs]; rfl) h

theorem matchBracket_none_of_snd {q : Chars} (h : (q.drop 1).head? ≠ some 'Г') :
    matchBracket q = none := by
  cases hm : matchBracket q with
  | none => rfl
  | some x =>
    obtain ⟨d1, d2, r⟩ := x
    obtain ⟨hs, -, -, -, -, -⟩ := matchBracket_eq_some hm
    exact absurd (by rw [hs]; rfl) h

theorem matchBold_has_glava {q : Chars} {x : Chars × Chars × Chars}
    (h : matchBold q = some x) : 'Г' ∈ q := by
  obtain ⟨d1, d2, r⟩ := x
  obtain ⟨hs, -, -, -, -, -⟩ := matchBold_eq_some h
  rw [hs]
  exact List.mem_append_left _ (List.mem_append_left _
    (List.mem_append_left _ (List.mem_append_left _ (by decide))))

theorem matchBracket_has_glava {q : Chars} {x : Chars × Chars × Chars}
    (h : matchBracket q = some x) : 'Г' ∈ q := by
  obtain ⟨d1, d2, r⟩ := x
  obtain ⟨hs, -, -, -, -, -⟩ := matchBracket_eq_some h
  rw [hs]
  exact List.mem_append_left _ (List.mem_append_left _ (List.mem_append_left _ (by decide)))

theorem matchPlain_has_glava {q : Chars} {x : Chars × Chars × Chars × Chars}
    (h : matchPlain q = some x) : 'Г' ∈ q ∨ 'г' ∈ q := by
  obtain ⟨w, d1, d2, r⟩ := x
  obtain ⟨hs, -, -, -, -, g, e, hwe, hg, -⟩ := matchPlain_eq_some h
  rcases hg with hg | hg
  · left; rw [hs, hwe, hg]; simp
  · right; rw [hs, hwe, hg]; simp

theorem matchBold_none_of_ascii {q : Chars} (h : ascii_str q) : matchBold q = none := by
  cases hm : matchBold q with
  | none => rfl
  | some x => exact absurd (h _ (matchBold_has_glava hm)) (by decide)

theorem matchBracket_none_of_ascii {q : Chars} (h : ascii_str q) :
    matchBracket q = none := by
  cases hm : matchBracket q with
  | none => rfl
  | some x => exact absurd (h _ (matchBracket_has_glava hm)) (by decide)

theorem matchPlain_none_of_ascii {q : Chars} (h : ascii_str q) : matchPlain q = none := by
  cases hm : matchPlain q with
  | none => rfl
  | some x =>
    rcases matchPlain_has_glava hm with hg | hg
    · exact absurd (h _ hg) (by decide)
    · exact absurd (h _ hg) (by decide)

theorem ascii_str_append_right {a b : Chars} (h : ascii_str (a ++ b)) : ascii_str b :=
  fun c hc => h c (List.mem_append_right a hc)

theorem sub_bold_id_of_match_free {ch : List Chapter} :
    ∀ (fuel : Nat) (s : Chars), matchfree_bold s → sub_bold ch fuel s = s := by
  intro fuel
  induction fuel with
  | zero => intro s _; rfl
  | succ f ih =>
    intro s hf
    have hm : matchBold s = none := hf [] s rfl
    cases s with
    | nil => simp [sub_bold, hm]
    | cons c cs =>
      simp only [sub_bold, hm]
      rw [ih cs (fun p q hpq => hf (c :: p) q (by rw [hpq]; rfl))]

theorem sub_bracket_id_of_match_free {ch : List Chapter} :
    ∀ (fuel : Nat) (s : Chars), matchfree_bracket s → sub_bracket ch fuel s = s := by
  intro fuel
  induction fuel with
  | zero => intro s _; rfl
  | succ f ih =>
    intro s hf
    have hm : matchBracket s = none := hf [] s rfl
    cases s with
    | nil => simp [sub_bracket, hm]
    | cons c cs =>
      simp only [sub_bracket, hm]
      rw [ih cs (fun p q hpq => hf (c :: p) q (by rw [hpq]; rfl))]

theorem prevOf_append (prev : Option Char) (a b : Chars) :
    prevOf prev (a ++ b) = prevOf (prevOf prev a) b := by
  cases hb : b.getLast? with
  | some c =>
    rw [prevOf, List.getLast?_append_of_ne_nil, hb, prevOf, hb]
    intro he
    rw [he] at hb
    exact absurd hb (by simp)
  | none =>
    have hbnil : b = [] := by
      cases b with
      | nil => rfl
      | cons x xs => simp [List.getLast?_eq_getLast] at hb
    subst hbnil
    simp [prevOf]

theorem prevOf_snoc (prev : Option Char) (p : Chars) (c : Char) :
    prevOf prev (p ++ [c]) = some c := by
  rw [prevOf_append]
  rfl

theorem sub_plain_id_of_match_free {ch : List Chapter} {U : Chars}
    (hf : matchfree_plain none U) :
    ∀ (fuel : Nat) (p s : Chars), U = p ++ s →
      sub_plain ch fuel (prevOf none p) s = s := by
  intro fuel
  induction fuel with
  | zero => intro p s _; rfl
  | succ f ih =>
    intro p s hpq
    by_cases hb : prevOf none p = some '[' ∨ prevOf none p = some '*'
    · cases s with
      | nil => simp [sub_plain, hb]
      | cons c cs =>
        rw [sub_plain_succ, if_pos hb]
        dsimp only
        rw [show some c = prevOf none (p ++ [c]) from (prevOf_snoc none p c).symm,
          ih (p ++ [c]) cs (by rw [hpq]; simp)]
    · have hm : matchPlain s = none :=
        hf p s hpq (fun h => hb (Or.inl h)) (fun h => hb (Or.inr h))
      cases s with
      | nil =>
        rw [sub_plain_succ, if_neg hb, hm]
      | cons c cs =>
        rw [sub_plain_succ, if_neg hb, hm]
        dsimp only
        rw [show some c = prevOf none (p ++ [c]) from (prevOf_snoc none p c).symm,
          ih (p ++ [c]) cs (by rw [hpq]; simp)]

theorem matchfree_bold_append {X Y : Chars}
    (HX : ∀ q, q ≠ [] → q <:+ X → matchBold (q ++ Y) = none)
    (HY : matchfree_bold Y) : matchfree_bold (X ++ Y) := by
  intro p q hpq
  rcases List.append_eq_append_iff.mp hpq.symm with ⟨a2, ha, hq⟩ | ⟨b1, hp, hb⟩
  · cases a2 with
    | nil =>
      rw [hq, List.nil_append]
      exact HY [] Y rfl
    | cons x xs =>
      rw [hq]
      exact HX (x :: xs) (by simp) ⟨p, ha.symm⟩
  · exact HY b1 q hb

theorem matchfree_bracket_append {X Y : Chars}
    (HX : ∀ q, q ≠ [] → q <:+ X → matchBracket (q ++ Y) = none)
    (HY : matchfree_bracket Y) : matchfree_bracket (X ++ Y) := by
  intro p q hpq
  rcases List.append_eq_append_iff.mp hpq.symm with ⟨a2, ha, hq⟩ | ⟨b1, hp, hb⟩
  · cases a2 with
    | nil =>
      rw [hq, List.nil_append]
      exact HY [] Y rfl
    | cons x xs =>
      rw [hq]
      exact HX (x :: xs) (by simp) ⟨p, ha.symm⟩
  · exact HY b1 q hb

theorem matchfree_plain_append {prev : Option Char} {X Y : Chars}
    (HX : ∀ p q, X = p ++ q → q ≠ [] → prevOf prev p ≠ some '[' →
      prevOf prev p ≠ some '*' → matchPlain (q ++ Y) = none)
    (HY : matchfree_plain (prevOf prev X) Y) : matchfree_plain prev (X ++ Y) := by
  intro p q hpq h1 h2
  rcases List.append_eq_append_iff.mp hpq.symm with ⟨a2, ha, hq⟩ | ⟨b1, hp, hb⟩
  · cases a2 with
    | nil =>
      rw [hq, List.nil_append]
      have hx : p = X := by rw [ha, List.append_nil]
      subst hx
      exact HY [] Y rfl h1 h2
    | cons x xs =>
      rw [hq]
      exact HX p (x :: xs) ha (by simp) h1 h2
  · subst hp
    rw [prevOf_append] at h1 h2
    exact HY b1 q hb h1 h2

theorem matchfree_bold_nil : matchfree_bold [] := by
  intro p q hpq
  have : q = [] := by
    cases p <;> simp_all
  rw [this]
  rfl

theorem matchfree_bold_of_ascii {U : Chars} (h : ascii_str U) : matchfree_bold U := by
  intro p q hpq
  exact matchBold_none_of_ascii (fun c hc => h c (by rw [hpq]; exact List.mem_append_right p hc))

theorem matchfree_bracket_of_ascii {U : Chars} (h : ascii_str U) : matchfree_bracket U := by
  intro p q hpq
  exact matchBracket_none_of_ascii
    (fun c hc => h c (by rw [hpq]; exact List.mem_append_right p hc))

theorem matchfree_plain_of_ascii {prev : Option Char} {U : Chars} (h : ascii_str U) :
    matchfree_plain prev U := by
  intro p q hpq _ _
  exact matchPlain_none_of_ascii (fun c hc => h c (by rw [hpq]; exact List.mem_append_right p hc))

theorem ascii_ne_glava {c : Char} (h : c.toNat < 128) : c ≠ 'Г' ∧ c ≠ 'г' := by
  constructor <;> (intro he; subst he; exact absurd h (by decide))

theorem seg_all_bold {X Y : Chars} (h : ∀ c ∈ X, c ≠ '*') :
    ∀ q, q ≠ [] → q <:+ X → matchBold (q ++ Y) = none := by
  intro q hq hsuf
  cases q with
  | nil => exact absurd rfl hq
  | cons a t =>
    apply matchBold_none_of_head
    have : a ≠ '*' := h a (hsuf.subset (by simp))
    simp [this]

theorem seg_all_bracket {X Y : Chars} (h : ∀ c ∈ X, c ≠ '[') :
    ∀ q, q ≠ [] → q <:+ X → matchBracket (q ++ Y) = none := by
  intro q hq hsuf
  cases q with
  | nil => exact absurd rfl hq
  | cons a t =>
    apply matchBracket_none_of_head
    have : a ≠ '[' := h a (hsuf.subset (by simp))
    simp [this]

theorem seg_all_plain {X Y : Chars} (h : ∀ c ∈ X, c ≠ 'Г' ∧ c ≠ 'г') :
    ∀ q, q ≠ [] → q <:+ X → matchPlain (q ++ Y) = none := by
  intro q hq hsuf
  cases q with
  | nil => exact absurd rfl hq
  | cons a t =>
    apply matchPlain_none_of_head
    have h1 : a ≠ 'Г' := (h a (hsuf.subset (by simp))).1
    have h2 : a ≠ 'г' := (h a (hsuf.subset (by simp))).2
    constructor <;> simp [h1, h2]

theorem seg_ascii_bold {X Y : Chars} (hp : ascii_str X)
    (hs1 : Y.head? ≠ some '*' ∨ (Y.drop 1).head? ≠ some 'Г')
    (hs2 : Y.head? = some 'Г' → X.getLast? ≠ some '*') :
    ∀ q, q ≠ [] → q <:+ X → matchBold (q ++ Y) = none := by
  intro q hq hsuf
  cases q with
  | nil => exact absurd rfl hq
  | cons a t =>
    cases t with
    | nil =>
      rcases hs1 with h | h
      · exact matchBold_none_of_snd (by simpa using h)
      · exact matchBold_none_of_trd (by simpa using h)
    | cons b t2 =>
      cases t2 with
      | nil =>
        cases hY : Y.head? with
        | none => exact matchBold_none_of_trd (by simp [hY])
        | some c =>
          by_cases hc : c = 'Г'
          · subst hc
            have hXb : X.getLast? = some b := by
              obtain ⟨pfx, hpfx⟩ := hsuf
              rw [← hpfx, getLast?_append_right (by simp)]
              rfl
            have hbne : b ≠ '*' := by
              intro he
              exact hs2 hY (by rw [hXb, he])
            exact matchBold_none_of_snd (by simp [hbne])
          · exact matchBold_none_of_trd (by simp [hY]; exact hc)
      | cons c3 t3 =>
        have : c3 ≠ 'Г' := (ascii_ne_glava (hp c3 (hsuf.subset (by simp)))).1
        exact matchBold_none_of_trd (by simp [this])

theorem seg_ascii_bracket {X Y : Chars} (hp : ascii_str X)
    (hs : Y.head? = some 'Г' → X.getLast? ≠ some '[') :
    ∀ q, q ≠ [] → q <:+ X → matchBracket (q ++ Y) = none := by
  intro q hq hsuf
  cases q with
  | nil => exact absurd rfl hq
  | cons a t =>
    cases t with
    | nil =>
      cases hY : Y.head? with
      | none => exact matchBracket_none_of_snd (by simp [hY])
      | some c =>
        by_cases hc : c = 'Г'
        · subst hc
          have hXa : X.getLast? = some a := by
            obtain ⟨pfx, hpfx⟩ := hsuf
            rw [← hpfx, getLast?_append_right (by simp)]
            rfl
          have hane : a ≠ '[' := by
            intro he
            exact hs hY (by rw [hXa, he])
          exact matchBracket_none_of_head (by simp [hane])
        · exact matchBracket_none_of_snd (by simp [hY]; exact hc)
    | cons b t2 =>
      have : b ≠ 'Г' := (ascii_ne_glava (hp b (hsuf.subset (by simp)))).1
      exact matchBracket_none_of_snd (by simp [this])

theorem seg_ascii_plain {X Y : Chars} (hp : ascii_str X) :
    ∀ q, q ≠ [] → q <:+ X → matchPlain (q ++ Y) = none :=
  seg_all_plain (fun c hc => ascii_ne_glava (hp c hc))

theorem matchBold_blocked {d1 d2 X : Chars}
    (hd1 : d1 ≠ []) (hd1d : ∀ c ∈ d1, c.isDigit = true)
    (hd2 : d2 ≠ []) (hd2d : ∀ c ∈ d2, c.isDigit = true) :
    matchBold (toChars "**Глава " ++ (d1 ++ ('.' :: (d2 ++ ('*' :: '*' :: ']' :: X)))))
      = none := by
  have e1 : List.takeWhile Char.isDigit (d1 ++ ('.' :: (d2 ++ ('*' :: '*' :: ']' :: X)))) = d1 := by
    rw [takeWhile_append_all _ hd1d, takeWhile_cons_neg _ (by decide), List.append_nil]
  have e2 : List.dropWhile Char.isDigit (d1 ++ ('.' :: (d2 ++ ('*' :: '*' :: ']' :: X))))
      = '.' :: (d2 ++ ('*' :: '*' :: ']' :: X)) := by
    rw [dropWhile_append_all _ hd1d, dropWhile_cons_neg _ (by decide)]
  have e3 : List.takeWhile Char.isDigit (d2 ++ ('*' :: '*' :: ']' :: X)) = d2 := by
    rw [takeWhile_append_all _ hd2d, takeWhile_cons_neg _ (by decide), List.append_nil]
  have e4 : List.dropWhile Char.isDigit (d2 ++ ('*' :: '*' :: ']' :: X))
      = '*' :: '*' :: ']' :: X := by
    rw [dropWhile_append_all _ hd2d, dropWhile_cons_neg _ (by decide)]
  unfold matchBold
  rw [stripPre_append]
  simp only [e1, e2, e3, e4, isEmpty_false_of_ne hd1, isEmpty_false_of_ne hd2,
    Bool.false_eq_true, if_false]
  rfl

theorem matchBracket_blocked_w {w d1 d2 X : Chars}
    (hw : ∃ g e, w = [g, 'л', 'а', 'в', e] ∧ (g = 'Г' ∨ g = 'г') ∧
      (e = 'а' ∨ e = 'е' ∨ e = 'у' ∨ e = 'ы'))
    (hd1 : d1 ≠ []) (hd1d : ∀ c ∈ d1, c.isDigit = true)
    (hd2 : d2 ≠ []) (hd2d : ∀ c ∈ d2, c.isDigit = true) :
    matchBracket ('[' :: (w ++ (' ' :: (d1 ++ ('.' :: (d2 ++ (']' :: '(' :: X)))))))
      = none := by
  obtain ⟨g, e, hwe, hg, he⟩ := hw
  subst hwe
  rcases hg with rfl | rfl
  · rcases he with rfl | rfl | rfl | rfl
    · -- w = "Глава": the full pattern matches and the lookahead `(` blocks
      have e1 : List.takeWhile Char.isDigit (d1 ++ ('.' :: (d2 ++ (']' :: '(' :: X)))) = d1 := by
        rw [takeWhile_append_all _ hd1d, takeWhile_cons_neg _ (by decide), List.append_nil]
      have e2 : List.dropWhile Char.isDigit (d1 ++ ('.' :: (d2 ++ (']' :: '(' :: X))))
          = '.' :: (d2 ++ (']' :: '(' :: X)) := by
        rw [dropWhile_append_all _ hd1d, dropWhile_cons_neg _ (by decide)]
      have e3 : List.takeWhile Char.isDigit (d2 ++ (']' :: '(' :: X)) = d2 := by
        rw [takeWhile_append_all _ hd2d, takeWhile_cons_neg _ (by decide), List.append_nil]
      have e4 : List.dropWhile Char.isDigit (d2 ++ (']' :: '(' :: X))
          = ']' :: '(' :: X := by
        rw [dropWhile_append_all _ hd2d, dropWhile_cons_neg _ (by decide)]
      have hshape : ('[' :: (['Г', 'л', 'а', 'в', 'а'] ++
            (' ' :: (d1 ++ ('.' :: (d2 ++ (']' :: '(' :: X)))))))
          = toChars "[Глава " ++ (d1 ++ ('.' :: (d2 ++ (']' :: '(' :: X)))) := rfl
      rw [hshape]
      unfold matchBracket
      rw [stripPre_append]
      simp only [e1, e2, e3, e4, isEmpty_false_of_ne hd1, isEmpty_false_of_ne hd2,
        Bool.false_eq_true, if_false]
      rfl
    · rfl
    · rfl
    · rfl
  · rfl

theorem matchBold_mention {d1 d2 post : Chars}
    (hd1 : d1 ≠ []) (hd1d : ∀ c ∈ d1, c.isDigit = true)
    (hd2 : d2 ≠ []) (hd2d : ∀ c ∈ d2, c.isDigit = true)
    (hph : post.head? ≠ some ']') :
    matchBold (toChars "**Глава " ++ (d1 ++ ('.' :: (d2 ++ ('*' :: '*' :: post)))))
      = some (d1, d2, post) := by
  have e1 : List.takeWhile Char.isDigit (d1 ++ ('.' :: (d2 ++ ('*' :: '*' :: post)))) = d1 := by
    rw [takeWhile_append_all _ hd1d, takeWhile_cons_neg _ (by decide), List.append_nil]
  have e2 : List.dropWhile Char.isDigit (d1 ++ ('.' :: (d2 ++ ('*' :: '*' :: post))))
      = '.' :: (d2 ++ ('*' :: '*' :: post)) := by
    rw [dropWhile_append_all _ hd1d, dropWhile_cons_neg _ (by decide)]
  have e3 : List.takeWhile Char.isDigit (d2 ++ ('*' :: '*' :: post)) = d2 := by
    rw [takeWhile_append_all _ hd2d, takeWhile_cons_neg _ (by decide), List.append_nil]
  have e4 : List.dropWhile Char.isDigit (d2 ++ ('*' :: '*' :: post))
      = '*' :: '*' :: post := by
    rw [dropWhile_append_all _ hd2d, dropWhile_cons_neg _ (by decide)]
  unfold matchBold
  rw [stripPre_append]
  simp only [e1, e2, e3, e4, isEmpty_false_of_ne hd1, isEmpty_false_of_ne hd2,
    Bool.false_eq_true, if_false]
  have e5 : stripPre (toChars "**") ('*' :: '*' :: post) = some post := rfl
  rw [e5]
  simp [hph]

theorem matchBracket_mention {d1 d2 post : Chars}
    (hd1 : d1 ≠ []) (hd1d : ∀ c ∈ d1, c.isDigit = true)
    (hd2 : d2 ≠ []) (hd2d : ∀ c ∈ d2, c.isDigit = true)
    (hph : post.head? ≠ some '(') :
    matchBracket (toChars "[Глава " ++ (d1 ++ ('.' :: (d2 ++ (']' :: post)))))
      = some (d1, d2, post) := by
  have e1 : List.takeWhile Char.isDigit (d1 ++ ('.' :: (d2 ++ (']' :: post)))) = d1 := by
    rw [takeWhile_append_all _ hd1d, takeWhile_cons_neg _ (by decide), List.append_nil]
  have e2 : List.dropWhile Char.isDigit (d1 ++ ('.' :: (d2 ++ (']' :: post))))
      = '.' :: (d2 ++ (']' :: post)) := by
    rw [dropWhile_append_all _ hd1d, dropWhile_cons_neg _ (by decide)]
  have e3 : List.takeWhile Char.isDigit (d2 ++ (']' :: post)) = d2 := by
    rw [takeWhile_append_all _ hd2d, takeWhile_cons_neg _ (by decide), List.append_nil]
  have e4 : List.dropWhile Char.isDigit (d2 ++ (']' :: post)) = ']' :: post := by
    rw [dropWhile_append_all _ hd2d, dropWhile_cons_neg _ (by decide)]
  unfold matchBracket
  rw [stripPre_append]
  simp only [e1, e2, e3, e4, isEmpty_false_of_ne hd1, isEmpty_false_of_ne hd2,
    Bool.false_eq_true, if_false]
  simp [hph]

theorem matchPlain_mention {w d1 d2 post : Chars}
    (hw : ∃ g e, w = [g, 'л', 'а', 'в', e] ∧ (g = 'Г' ∨ g = 'г') ∧
      (e = 'а' ∨ e = 'е' ∨ e = 'у' ∨ e = 'ы'))
    (hd1 : d1 ≠ []) (hd1d : ∀ c ∈ d1, c.isDigit = true)
    (hd2 : d2 ≠ []) (hd2d : ∀ c ∈ d2, c.isDigit = true)
    (hph : post.head? ≠ some ']')
    (hphd : ∀ c, post.head? = some c → c.isDigit = false) :
    matchPlain (w ++ (' ' :: (d1 ++ ('.' :: (d2 ++ post)))))
      = some (w, d1, d2, post) := by
  obtain ⟨g, e, hwe, hg, he⟩ := hw
  have e3 : List.takeWhile Char.isDigit (d2 ++ post) = d2 := by
    cases hp : post with
    | nil => rw [takeWhile_append_all _ hd2d]; simp
    | cons c cs =>
      rw [takeWhile_append_all _ hd2d, takeWhile_cons_neg _ (hphd c (by rw [hp]; rfl)),
        List.append_nil]
  have e4 : List.dropWhile Char.isDigit (d2 ++ post) = post := by
    cases hp : post with
    | nil => rw [dropWhile_append_all _ hd2d]; simp [List.dropWhile]
    | cons c cs =>
      rw [dropWhile_append_all _ hd2d, dropWhile_cons_neg _ (hphd c (by rw [hp]; rfl))]
  have e1 : List.takeWhile Char.isDigit (d1 ++ ('.' :: (d2 ++ post))) = d1 := by
    rw [takeWhile_append_all _ hd1d, takeWhile_cons_neg _ (by decide), List.append_nil]
  have e2 : List.dropWhile Char.isDigit (d1 ++ ('.' :: (d2 ++ post)))
      = '.' :: (d2 ++ post) := by
    rw [dropWhile_append_all _ hd1d, dropWhile_cons_neg _ (by decide)]
  have hword : plain_word (w ++ (' ' :: (d1 ++ ('.' :: (d2 ++ post)))))
      = some (w, d1 ++ ('.' :: (d2 ++ post))) := by
    subst hwe
    rcases hg with rfl | rfl <;> rcases he with rfl | rfl | rfl | rfl <;> rfl
  unfold matchPlain
  rw [hword]
  dsimp only
  simp only [e1, e2, e3, e4, isEmpty_false_of_ne hd1, isEmpty_false_of_ne hd2,
    Bool.false_eq_true, if_false]
  rw [if_neg hph]

theorem suffix_single {q : Chars} {c : Char} (hq : q ≠ []) (h : q <:+ [c]) : q = [c] := by
  rcases List.suffix_cons_iff.mp h with rfl | h2
  · rfl
  · exact absurd (List.suffix_nil.mp h2) hq

theorem seg_bold_core {d1 d2 X : Chars}
    (hd1 : d1 ≠ []) (hd1d : ∀ c ∈ d1, c.isDigit = true)
    (hd2 : d2 ≠ []) (hd2d : ∀ c ∈ d2, c.isDigit = true) :
    ∀ q, q ≠ [] → q <:+ toChars "**Глава " →
      matchBold (q ++ (d1 ++ ('.' :: (d2 ++ ('*' :: '*' :: ']' :: X))))) = none := by
  intro q hq hsuf
  have hsuf' : q <:+ ('*' :: '*' :: 'Г' :: 'л' :: 'а' :: 'в' :: 'а' :: ' ' :: []) := hsuf
  rcases List.suffix_cons_iff.mp hsuf' with rfl | h1
  · exact matchBold_blocked hd1 hd1d hd2 hd2d
  rcases List.suffix_cons_iff.mp h1 with rfl | h2
  · exact matchBold_none_of_snd (by simp)
  rcases List.suffix_cons_iff.mp h2 with rfl | h3
  · exact matchBold_none_of_head (by simp)
  rcases List.suffix_cons_iff.mp h3 with rfl | h4
  · exact matchBold_none_of_head (by simp)
  rcases List.suffix_cons_iff.mp h4 with rfl | h5
  · exact matchBold_none_of_head (by simp)
  rcases List.suffix_cons_iff.mp h5 with rfl | h6
  · exact matchBold_none_of_head (by simp)
  rcases List.suffix_cons_iff.mp h6 with rfl | h7
  · exact matchBold_none_of_head (by simp)
  rcases List.suffix_cons_iff.mp h7 with rfl | h8
  · exact matchBold_none_of_head (by simp)
  exact absurd (List.suffix_nil.mp h8) hq

theorem seg_lit4_bold {Y : Chars} :
    ∀ q, q ≠ [] → q <:+ toChars "**](" → matchBold (q ++ Y) = none := by
  intro q hq hsuf
  have hsuf' : q <:+ ('*' :: '*' :: ']' :: '(' :: []) := hsuf
  rcases List.suffix_cons_iff.mp hsuf' with rfl | h1
  · exact matchBold_none_of_trd (by simp)
  rcases List.suffix_cons_iff.mp h1 with rfl | h2
  · exact matchBold_none_of_snd (by simp)
  rcases List.suffix_cons_iff.mp h2 with rfl | h3
  · exact matchBold_none_of_head (by simp)
  rcases List.suffix_cons_iff.mp h3 with rfl | h4
  · exact matchBold_none_of_head (by simp)
  exact absurd (List.suffix_nil.mp h4) hq

theorem head_ne_of_eq {o : Option Char} {a b : Char} (h : o = some a) (hab : a ≠ b) :
    o ≠ some b := by
  subst h
  simp [hab]

theorem word_chars {w : Chars}
    (hw : ∃ g e, w = [g, 'л', 'а', 'в', e] ∧ (g = 'Г' ∨ g = 'г') ∧
      (e = 'а' ∨ e = 'е' ∨ e = 'у' ∨ e = 'ы')) :
    ∀ c ∈ w, c ≠ '*' ∧ c ≠ '[' := by
  obtain ⟨g, e, rfl, hg, he⟩ := hw
  intro c hc
  simp only [List.mem_cons, List.not_mem_nil, or_false] at hc
  rcases hc with rfl | rfl | rfl | rfl | rfl
  · rcases hg with rfl | rfl <;> exact ⟨by decide, by decide⟩
  · exact ⟨by decide, by decide⟩
  · exact ⟨by decide, by decide⟩
  · exact ⟨by decide, by decide⟩
  · rcases he with rfl | rfl | rfl | rfl <;> exact ⟨by decide, by decide⟩

theorem word_tail_chars {e : Char} (he : e = 'а' ∨ e = 'е' ∨ e = 'у' ∨ e = 'ы') :
    ∀ c ∈ ['л', 'а', 'в', e], c ≠ 'Г' ∧ c ≠ 'г' := by
  intro c hc
  simp only [List.mem_cons, List.not_mem_nil, or_false] at hc
  rcases hc with rfl | rfl | rfl | rfl
  · exact ⟨by decide, by decide⟩
  · exact ⟨by decide, by decide⟩
  · exact ⟨by decide, by decide⟩
  · rcases he with rfl | rfl | rfl | rfl <;> exact ⟨by decide, by decide⟩

theorem digit_seg_bold {X Y : Chars} (hd : ∀ c ∈ X, c.isDigit = true) :
    ∀ q, q ≠ [] → q <:+ X → matchBold (q ++ Y) = none :=
  seg_all_bold (fun c hc => (digit_not_special (hd c hc)).2.1)

theorem digit_seg_bracket {X Y : Chars} (hd : ∀ c ∈ X, c.isDigit = true) :
    ∀ q, q ≠ [] → q <:+ X → matchBracket (q ++ Y) = none :=
  seg_all_bracket (fun c hc => (digit_not_special (hd c hc)).1)

theorem digit_seg_plain {X Y : Chars} (hd : ∀ c ∈ X, c.isDigit = true) :
    ∀ q, q ≠ [] → q <:+ X → matchPlain (q ++ Y) = none :=
  seg_all_plain (fun c hc =>
    ⟨(digit_not_special (hd c hc)).2.2.1, (digit_not_special (hd c hc)).2.2.2.1⟩)

theorem mf_bold_mention_bracket {pre d1 d2 post : Chars}
    (hpre : ascii_str pre)
    (hd1d : ∀ c ∈ d1, c.isDigit = true) (hd2d : ∀ c ∈ d2, c.isDigit = true)
    (hpost : ascii_str post) :
    matchfree_bold (pre ++ mention_bracket d1 d2 post) := by
  apply matchfree_bold_append
  · exact seg_ascii_bold hpre
      (Or.inl (head_ne_of_eq (show (mention_bracket d1 d2 post).head? = some '[' from rfl)
        (by decide)))
      (fun h => absurd h (head_ne_of_eq
        (show (mention_bracket d1 d2 post).head? = some '[' from rfl) (by decide)))
  show matchfree_bold (toChars "[Глава " ++ (d1 ++ ('.' :: (d2 ++ (']' :: post)))))
  apply matchfree_bold_append (seg_all_bold (by decide))
  apply matchfree_bold_append (digit_seg_bold hd1d)
  show matchfree_bold (['.'] ++ (d2 ++ (']' :: post)))
  apply matchfree_bold_append (seg_all_bold (by decide))
  apply matchfree_bold_append (digit_seg_bold hd2d)
  show matchfree_bold ([']'] ++ post)
  apply matchfree_bold_append (seg_all_bold (by decide))
  exact matchfree_bold_of_ascii hpost

theorem mf_bold_mention_plain {pre w d1 d2 post : Chars}
    (hpre : ascii_str pre) (hpreL2 : pre.getLast? ≠ some '*')
    (hw : ∃ g e, w = [g, 'л', 'а', 'в', e] ∧ (g = 'Г' ∨ g = 'г') ∧
      (e = 'а' ∨ e = 'е' ∨ e = 'у' ∨ e = 'ы'))
    (hd1d : ∀ c ∈ d1, c.isDigit = true) (hd2d : ∀ c ∈ d2, c.isDigit = true)
    (hpost : ascii_str post) :
    matchfree_bold (pre ++ mention_plain w d1 d2 post) := by
  obtain ⟨g, e, hwe, hg, he⟩ := hw
  apply matchfree_bold_append
  · apply seg_ascii_bold hpre
    · refine Or.inl (head_ne_of_eq (show (mention_plain w d1 d2 post).head? = some g from ?_) ?_)
      · rw [mention_plain, hwe]; rfl
      · rcases hg with rfl | rfl <;> decide
    · exact fun _ => hpreL2
  show matchfree_bold (w ++ (' ' :: (d1 ++ ('.' :: (d2 ++ post)))))
  apply matchfree_bold_append (seg_all_bold (fun c hc => (word_chars ⟨g, e, hwe, hg, he⟩ c hc).1))
  show matchfree_bold ([' '] ++ (d1 ++ ('.' :: (d2 ++ post))))
  apply matchfree_bold_append (seg_all_bold (by decide))
  apply matchfree_bold_append (digit_seg_bold hd1d)
  show matchfree_bold (['.'] ++ (d2 ++ post))
  apply matchfree_bold_append (seg_all_bold (by decide))
  apply matchfree_bold_append (digit_seg_bold hd2d)
  exact matchfree_bold_of_ascii hpost

theorem mf_bracket_mention_plain {pre w d1 d2 post : Chars}
    (hpre : ascii_str pre) (hpreL1 : pre.getLast? ≠ some '[')
    (hw : ∃ g e, w = [g, 'л', 'а', 'в', e] ∧ (g = 'Г' ∨ g = 'г') ∧
      (e = 'а' ∨ e = 'е' ∨ e = 'у' ∨ e = 'ы'))
    (hd1d : ∀ c ∈ d1, c.isDigit = true) (hd2d : ∀ c ∈ d2, c.isDigit = true)
    (hpost : ascii_str post) :
    matchfree_bracket (pre ++ mention_plain w d1 d2 post) := by
  obtain ⟨g, e, hwe, hg, he⟩ := hw
  apply matchfree_bracket_append
  · exact seg_ascii_bracket hpre (fun _ => hpreL1)
  show matchfree_bracket (w ++ (' ' :: (d1 ++ ('.' :: (d2 ++ post)))))
  apply matchfree_bracket_append
    (seg_all_bracket (fun c hc => (word_chars ⟨g, e, hwe, hg, he⟩ c hc).2))
  show matchfree_bracket ([' '] ++ (d1 ++ ('.' :: (d2 ++ post))))
  apply matchfree_bracket_append (seg_all_bracket (by decide))
  apply matchfree_bracket_append (digit_seg_bracket hd1d)
  show matchfree_bracket (['.'] ++ (d2 ++ post))
  apply matchfree_bracket_append (seg_all_bracket (by decide))
  apply matchfree_bracket_append (digit_seg_bracket hd2d)
  exact matchfree_bracket_of_ascii hpost

theorem mf_bold_resolved_bold {pre d1 d2 u post : Chars}
    (hpre : ascii_str pre)
    (hd1 : d1 ≠ []) (hd1d : ∀ c ∈ d1, c.isDigit = true)
    (hd2 : d2 ≠ []) (hd2d : ∀ c ∈ d2, c.isDigit = true)
    (hu : ascii_str u) (hpost : ascii_str post) :
    matchfree_bold (pre ++ resolved_bold d1 d2 u post) := by
  apply matchfree_bold_append
  · exact seg_ascii_bold hpre
      (Or.inl (head_ne_of_eq (show (resolved_bold d1 d2 u post).head? = some '[' from rfl)
        (by decide)))
      (fun h => absurd h (head_ne_of_eq
        (show (resolved_bold d1 d2 u post).head? = some '[' from rfl) (by decide)))
  show matchfree_bold (['['] ++ (toChars "**Глава " ++
    (d1 ++ ('.' :: (d2 ++ (toChars "**](" ++ (u ++ (')' :: post))))))))
  apply matchfree_bold_append (seg_all_bold (by decide))
  apply matchfree_bold_append (fun q hq hsuf => seg_bold_core hd1 hd1d hd2 hd2d q hq hsuf)
  apply matchfree_bold_append (digit_seg_bold hd1d)
  show matchfree_bold (['.'] ++ (d2 ++ (toChars "**](" ++ (u ++ (')' :: post)))))
  apply matchfree_bold_append (seg_all_bold (by decide))
  apply matchfree_bold_append (digit_seg_bold hd2d)
  apply matchfree_bold_append (fun q hq hsuf => seg_lit4_bold q hq hsuf)
  apply matchfree_bold_append
  · exact seg_ascii_bold hu
      (Or.inl (head_ne_of_eq (show ((')' : Char) :: post).head? = some ')' from rfl)
        (by decide)))
      (fun h => absurd h (head_ne_of_eq
        (show ((')' : Char) :: post).head? = some ')' from rfl) (by decide)))
  show matchfree_bold ([')'] ++ post)
  apply matchfree_bold_append (seg_all_bold (by decide))
  exact matchfree_bold_of_ascii hpost

theorem mf_bold_resolved_plain {pre w d1 d2 u post : Chars}
    (hpre : ascii_str pre)
    (hw : ∃ g e, w = [g, 'л', 'а', 'в', e] ∧ (g = 'Г' ∨ g = 'г') ∧
      (e = 'а' ∨ e = 'е' ∨ e = 'у' ∨ e = 'ы'))
    (hd1d : ∀ c ∈ d1, c.isDigit = true) (hd2d : ∀ c ∈ d2, c.isDigit = true)
    (hu : ascii_str u) (hpost : ascii_str post) :
    matchfree_bold (pre ++ resolved_plain w d1 d2 u post) := by
  apply matchfree_bold_append
  · exact seg_ascii_bold hpre
      (Or.inl (head_ne_of_eq (show (resolved_plain w d1 d2 u post).head? = some '[' from rfl)
        (by decide)))
      (fun h => absurd h (head_ne_of_eq
        (show (resolved_plain w d1 d2 u post).head? = some '[' from rfl) (by decide)))
  show matchfree_bold (['['] ++ (w ++
    (' ' :: (d1 ++ ('.' :: (d2 ++ (toChars "](" ++ (u ++ (')' :: post)))))))))
  apply matchfree_bold_append (seg_all_bold (by decide))
  apply matchfree_bold_append (seg_all_bold (fun c hc => (word_chars hw c hc).1))
  show matchfree_bold ([' '] ++ (d1 ++ ('.' :: (d2 ++ (toChars "](" ++ (u ++ (')' :: post)))))))
  apply matchfree_bold_append (seg_all_bold (by decide))
  apply matchfree_bold_append (digit_seg_bold hd1d)
  show matchfree_bold (['.'] ++ (d2 ++ (toChars "](" ++ (u ++ (')' :: post)))))
  apply matchfree_bold_append (seg_all_bold (by decide))
  apply matchfree_bold_append (digit_seg_bold hd2d)
  apply matchfree_bold_append (seg_all_bold (by decide))
  apply matchfree_bold_append
  · exact seg_ascii_bold hu
      (Or.inl (head_ne_of_eq (show ((')' : Char) :: post).head? = some ')' from rfl)
        (by decide)))
      (fun h => absurd h (head_ne_of_eq
        (show ((')' : Char) :: post).head? = some ')' from rfl) (by decide)))
  show matchfree_bold ([')'] ++ post)
  apply matchfree_bold_append (seg_all_bold (by decide))
  exact matchfree_bold_of_ascii hpost

theorem mf_bracket_resolved_bold {pre d1 d2 u post : Chars}
    (hpre : ascii_str pre)
    (hd1d : ∀ c ∈ d1, c.isDigit = true) (hd2d : ∀ c ∈ d2, c.isDigit = true)
    (hu : ascii_str u) (hpost : ascii_str post) :
    matchfree_bracket (pre ++ resolved_bold d1 d2 u post) := by
  apply matchfree_bracket_append
  · exact seg_ascii_bracket hpre
      (fun h => absurd h (head_ne_of_eq
        (show (resolved_bold d1 d2 u post).head? = some '[' from rfl) (by decide)))
  show matchfree_bracket (['['] ++ (toChars "**Глава " ++
    (d1 ++ ('.' :: (d2 ++ (toChars "**](" ++ (u ++ (')' :: post))))))))
  apply matchfree_bracket_append
  · intro q hq hsuf
    rw [suffix_single hq hsuf]
    exact matchBracket_none_of_snd (head_ne_of_eq rfl (by decide))
  apply matchfree_bracket_append (seg_all_bracket (by decide))
  apply matchfree_bracket_append (digit_seg_bracket hd1d)
  show matchfree_bracket (['.'] ++ (d2 ++ (toChars "**](" ++ (u ++ (')' :: post)))))
  apply matchfree_bracket_append (seg_all_bracket (by decide))
  apply matchfree_bracket_append (digit_seg_bracket hd2d)
  apply matchfree_bracket_append (seg_all_bracket (by decide))
  apply matchfree_bracket_append
  · exact seg_ascii_bracket hu
      (fun h => absurd h (head_ne_of_eq
        (show ((')' : Char) :: post).head? = some ')' from rfl) (by decide)))
  show matchfree_bracket ([')'] ++ post)
  apply matchfree_bracket_append (seg_all_bracket (by decide))
  exact matchfree_bracket_of_ascii hpost

theorem mf_bracket_resolved_plain {pre w d1 d2 u post : Chars}
    (hpre : ascii_str pre)
    (hw : ∃ g e, w = [g, 'л', 'а', 'в', e] ∧ (g = 'Г' ∨ g = 'г') ∧
      (e = 'а' ∨ e = 'е' ∨ e = 'у' ∨ e = 'ы'))
    (hd1 : d1 ≠ []) (hd1d : ∀ c ∈ d1, c.isDigit = true)
    (hd2 : d2 ≠ []) (hd2d : ∀ c ∈ d2, c.isDigit = true)
    (hu : ascii_str u) (hpost : ascii_str post) :
    matchfree_bracket (pre ++ resolved_plain w d1 d2 u post) := by
  apply matchfree_bracket_append
  · exact seg_ascii_bracket hpre
      (fun h => absurd h (head_ne_of_eq
        (show (resolved_plain w d1 d2 u post).head? = some '[' from rfl) (by decide)))
  show matchfree_bracket (['['] ++ (w ++
    (' ' :: (d1 ++ ('.' :: (d2 ++ (toChars "](" ++ (u ++ (')' :: post)))))))))
  apply matchfree_bracket_append
  · intro q hq hsuf
    rw [suffix_single hq hsuf]
    exact matchBracket_blocked_w hw hd1 hd1d hd2 hd2d
  apply matchfree_bracket_append (seg_all_bracket (fun c hc => (word_chars hw c hc).2))
  show matchfree_bracket ([' '] ++ (d1 ++ ('.' :: (d2 ++ (toChars "](" ++ (u ++ (')' :: post)))))))
  apply matchfree_bracket_append (seg_all_bracket (by decide))
  apply matchfree_bracket_append (digit_seg_bracket hd1d)
  show matchfree_bracket (['.'] ++ (d2 ++ (toChars "](" ++ (u ++ (')' :: post)))))
  apply matchfree_bracket_append (seg_all_bracket (by decide))
  apply matchfree_bracket_append (digit_seg_bracket hd2d)
  apply matchfree_bracket_append (seg_all_bracket (by decide))
  apply matchfree_bracket_append
  · exact seg_ascii_bracket hu
      (fun h => absurd h (head_ne_of_eq
        (show ((')' : Char) :: post).head? = some ')' from rfl) (by decide)))
  show matchfree_bracket ([')'] ++ post)
  apply matchfree_bracket_append (seg_all_bracket (by decide))
  exact matchfree_bracket_of_ascii hpost

theorem seg_to_split_plain {X Y : Chars} {prev : Option Char}
    (h : ∀ q, q ≠ [] → q <:+ X → matchPlain (q ++ Y) = none) :
    ∀ p q, X = p ++ q → q ≠ [] → prevOf prev p ≠ some '[' → prevOf prev p ≠ some '*' →
      matchPlain (q ++ Y) = none :=
  fun p q hpq hq _ _ => h q hq ⟨p, hpq.symm⟩

theorem mf_plain_resolved_bold {pre d1 d2 u post : Chars}
    (hpre : ascii_str pre)
    (hd1d : ∀ c ∈ d1, c.isDigit = true) (hd2d : ∀ c ∈ d2, c.isDigit = true)
    (hu : ascii_str u) (hpost : ascii_str post) :
    matchfree_plain none (pre ++ resolved_bold d1 d2 u post) := by
  apply matchfree_plain_append (seg_to_split_plain (seg_ascii_plain hpre))
  show matchfree_plain _ (['['] ++ (toChars "**" ++ (toChars "Глава " ++
    (d1 ++ ('.' :: (d2 ++ (toChars "**](" ++ (u ++ (')' :: post)))))))))
  apply matchfree_plain_append (seg_to_split_plain (seg_all_plain (by decide)))
  apply matchfree_plain_append (seg_to_split_plain (seg_all_plain (by decide)))
  apply matchfree_plain_append ?hword
  case hword =>
    intro p q hpq hq h1 h2
    cases p with
    | nil => exact absurd rfl h2
    | cons c cs =>
      have hpq' : 'Г' :: toChars "лава " = c :: (cs ++ q) := hpq
      injection hpq' with hc htail
      exact seg_all_plain (by decide) q hq ⟨cs, htail.symm⟩
  apply matchfree_plain_append (seg_to_split_plain (digit_seg_plain hd1d))
  show matchfree_plain _ (['.'] ++ (d2 ++ (toChars "**](" ++ (u ++ (')' :: post)))))
  apply matchfree_plain_append (seg_to_split_plain (seg_all_plain (by decide)))
  apply matchfree_plain_append (seg_to_split_plain (digit_seg_plain hd2d))
  apply matchfree_plain_append (seg_to_split_plain (seg_all_plain (by decide)))
  apply matchfree_plain_append (seg_to_split_plain (seg_ascii_plain hu))
  show matchfree_plain _ ([')'] ++ post)
  apply matchfree_plain_append (seg_to_split_plain (seg_all_plain (by decide)))
  exact matchfree_plain_of_ascii hpost

theorem mf_plain_resolved_plain {pre w d1 d2 u post : Chars}
    (hpre : ascii_str pre)
    (hw : ∃ g e, w = [g, 'л', 'а', 'в', e] ∧ (g = 'Г' ∨ g = 'г') ∧
      (e = 'а' ∨ e = 'е' ∨ e = 'у' ∨ e = 'ы'))
    (hd1d : ∀ c ∈ d1, c.isDigit = true) (hd2d : ∀ c ∈ d2, c.isDigit = true)
    (hu : ascii_str u) (hpost : ascii_str post) :
    matchfree_plain none (pre ++ resolved_plain w d1 d2 u post) := by
  obtain ⟨g, e, hwe, hg, he⟩ := hw
  apply matchfree_plain_append (seg_to_split_plain (seg_ascii_plain hpre))
  show matchfree_plain _ (['['] ++ (w ++
    (' ' :: (d1 ++ ('.' :: (d2 ++ (toChars "](" ++ (u ++ (')' :: post)))))))))
  apply matchfree_plain_append (seg_to_split_plain (seg_all_plain (by decide)))
  apply matchfree_plain_append ?hword
  case hword =>
    intro p q hpq hq h1 h2
    cases p with
    | nil => exact absurd rfl h1
    | cons c cs =>
      rw [hwe] at hpq
      have hpq' : g :: ['л', 'а', 'в', e] = c :: (cs ++ q) := hpq
      injection hpq' with hc htail
      exact seg_all_plain (word_tail_chars he) q hq ⟨cs, htail.symm⟩
  show matchfree_plain _ ([' '] ++ (d1 ++ ('.' :: (d2 ++ (toChars "](" ++ (u ++ (')' :: post)))))))
  apply matchfree_plain_append (seg_to_split_plain (seg_all_plain (by decide)))
  apply matchfree_plain_append (seg_to_split_plain (digit_seg_plain hd1d))
  show matchfree_plain _ (['.'] ++ (d2 ++ (toChars "](" ++ (u ++ (')' :: post)))))
  apply matchfree_plain_append (seg_to_split_plain (seg_all_plain (by decide)))
  apply matchfree_plain_append (seg_to_split_plain (digit_seg_plain hd2d))
  apply matchfree_plain_append (seg_to_split_plain (seg_all_plain (by decide)))
  apply matchfree_plain_append (seg_to_split_plain (seg_ascii_plain hu))
  show matchfree_plain _ ([')'] ++ post)
  apply matchfree_plain_append (seg_to_split_plain (seg_all_plain (by decide)))
  exact matchfree_plain_of_ascii hpost

theorem sub_bold_succ (ch : List Chapter) (fuel : Nat) (s : Chars) :
    sub_bold ch (fuel + 1) s =
      match matchBold s with
      | some (d1, d2, rest) => bold_replacement ch d1 d2 ++ sub_bold ch fuel rest
      | none => match s with | [] => [] | c :: cs => c :: sub_bold ch fuel cs := rfl

theorem prevOf_cons (prev : Option Char) (c : Char) (p : Chars) :
    prevOf prev (c :: p) = prevOf (some c) p := by
  cases p with
  | nil => rfl
  | cons d ds =>
    cases hl : (d :: ds).getLast? with
    | some x =>
      unfold prevOf
      rw [List.getLast?_cons_cons, hl]
    | none => simp [List.getLast?_eq_getLast] at hl

theorem sub_bold_skip {ch : List Chapter} (s : Chars) :
    ∀ (p : Chars), (∀ q, q ≠ [] → q <:+ p → matchBold (q ++ s) = none) →
      ∀ fuel, sub_bold ch (p.length + fuel) (p ++ s) = p ++ sub_bold ch fuel s := by
  intro p
  induction p with
  | nil => intro _ fuel; simp
  | cons c p' ih =>
    intro H fuel
    have hm : matchBold (c :: (p' ++ s)) = none := by
      have := H (c :: p') (by simp) (List.suffix_refl _)
      simpa using this
    rw [show (c :: p').length + fuel = (p'.length + fuel) + 1 from by
      simp only [List.length_cons]; omega]
    rw [show (c :: p') ++ s = c :: (p' ++ s) from rfl]
    rw [sub_bold_succ, hm]
    dsimp only
    rw [ih (fun q hq hsuf => H q hq (hsuf.trans (List.suffix_cons c p'))) fuel]
    rfl

theorem sub_bracket_skip {ch : List Chapter} (s : Chars) :
    ∀ (p : Chars), (∀ q, q ≠ [] → q <:+ p → matchBracket (q ++ s) = none) →
      ∀ fuel, sub_bracket ch (p.length + fuel) (p ++ s) = p ++ sub_bracket ch fuel s := by
  intro p
  induction p with
  | nil => intro _ fuel; simp
  | cons c p' ih =>
    intro H fuel
    have hm : matchBracket (c :: (p' ++ s)) = none := by
      have := H (c :: p') (by simp) (List.suffix_refl _)
      simpa using this
    rw [show (c :: p').length + fuel = (p'.length + fuel) + 1 from by
      simp only [List.length_cons]; omega]
    rw [show (c :: p') ++ s = c :: (p' ++ s) from rfl]
    rw [sub_bracket_succ, hm]
    dsimp only
    rw [ih (fun q hq hsuf => H q hq (hsuf.trans (List.suffix_cons c p'))) fuel]
    rfl

theorem sub_plain_step {ch : List Chapter} {c : Char} {rest : Chars}
    (hm : matchPlain (c :: rest) = none) (fuel : Nat) (prev : Option Char) :
    sub_plain ch (fuel + 1) prev (c :: rest) = c :: sub_plain ch fuel (some c) rest := by
  by_cases hb : prev = some '[' ∨ prev = some '*'
  · rw [sub_plain_succ, if_pos hb]
  · rw [sub_plain_succ, if_neg hb, hm]

theorem sub_plain_skip {ch : List Chapter} (s : Chars) :
    ∀ (p : Chars), (∀ q, q ≠ [] → q <:+ p → matchPlain (q ++ s) = none) →
      ∀ fuel prev, sub_plain ch (p.length + fuel) prev (p ++ s)
        = p ++ sub_plain ch fuel (prevOf prev p) s := by
  intro p
  induction p with
  | nil => intro _ fuel prev; simp [prevOf]
  | cons c p' ih =>
    intro H fuel prev
    have hm : matchPlain (c :: (p' ++ s)) = none := by
      have := H (c :: p') (by simp) (List.suffix_refl _)
      simpa using this
    rw [show (c :: p').length + fuel = (p'.length + fuel) + 1 from by
      simp only [List.length_cons]; omega]
    rw [show (c :: p') ++ s = c :: (p' ++ s) from rfl]
    rw [sub_plain_step hm]
    rw [ih (fun q hq hsuf => H q hq (hsuf.trans (List.suffix_cons c p'))) fuel (some c)]
    rw [prevOf_cons]
    rfl

theorem ascii_no_glava_mem {s : Chars} (h : ascii_str s) : 'Г' ∉ s ∧ 'г' ∉ s :=
  ⟨fun hm => absurd (h _ hm) (by decide), fun hm => absurd (h _ hm) (by decide)⟩

theorem sub_bold_comp_mention {ch : List Chapter} {t : Chapter} {pre d1 d2 post : Chars}
    (hT : find_target_chapter ch d1 d2 = some t)
    (hpre : ascii_str pre)
    (hd1 : d1 ≠ []) (hd1d : ∀ c ∈ d1, c.isDigit = true)
    (hd2 : d2 ≠ []) (hd2d : ∀ c ∈ d2, c.isDigit = true)
    (hpost : ascii_str post) (hph : post.head? ≠ some ']') :
    sub_bold' ch (pre ++ mention_bold d1 d2 post)
      = pre ++ resolved_bold d1 d2 (chapter_url t) post := by
  unfold sub_bold'
  rw [show (pre ++ mention_bold d1 d2 post).length
      = pre.length + (mention_bold d1 d2 post).length from by simp]
  rw [sub_bold_skip _ pre ?hskip]
  case hskip =>
    exact seg_ascii_bold hpre
      (Or.inr (head_ne_of_eq
        (show ((mention_bold d1 d2 post).drop 1).head? = some '*' from rfl) (by decide)))
      (fun h => absurd h (head_ne_of_eq
        (show (mention_bold d1 d2 post).head? = some '*' from rfl) (by decide)))
  have hlen : (mention_bold d1 d2 post).length
      = (10 + d1.length + d2.length + post.length) + 1 := by
    have l8 : (toChars "**Глава ").length = 8 := rfl
    simp only [mention_bold, List.length_append, List.length_cons, l8]
    omega
  rw [hlen, sub_bold_succ]
  rw [show matchBold (mention_bold d1 d2 post) = some (d1, d2, post) from
    matchBold_mention hd1 hd1d hd2 hd2d hph]
  dsimp only
  rw [show bold_replacement ch d1 d2
      = toChars "[**Глава " ++ d1 ++ '.' :: d2 ++ toChars "**](" ++ chapter_url t ++ [')'] from by
    unfold bold_replacement; rw [hT]]
  rw [sub_bold_id_of_match_free _ _ (matchfree_bold_of_ascii hpost)]
  simp only [resolved_bold, List.append_assoc, List.cons_append, List.nil_append]

theorem sub_bracket_comp_mention {ch : List Chapter} {t : Chapter} {pre d1 d2 post : Chars}
    (hT : find_target_chapter ch d1 d2 = some t)
    (hpre : ascii_str pre)
    (hd1 : d1 ≠ []) (hd1d : ∀ c ∈ d1, c.isDigit = true)
    (hd2 : d2 ≠ []) (hd2d : ∀ c ∈ d2, c.isDigit = true)
    (hpost : ascii_str post) (hph : post.head? ≠ some '(') :
    sub_bracket' ch (pre ++ mention_bracket d1 d2 post)
      = pre ++ resolved_plain (toChars "Глава") d1 d2 (chapter_url t) post := by
  unfold sub_bracket'
  rw [show (pre ++ mention_bracket d1 d2 post).length
      = pre.length + (mention_bracket d1 d2 post).length from by simp]
  rw [sub_bracket_skip _ pre ?hskip]
  case hskip =>
    exact seg_ascii_bracket hpre
      (fun h => absurd h (head_ne_of_eq
        (show (mention_bracket d1 d2 post).head? = some '[' from rfl) (by decide)))
  have hlen : (mention_bracket d1 d2 post).length
      = (8 + d1.length + d2.length + post.length) + 1 := by
    have l7 : (toChars "[Глава ").length = 7 := rfl
    simp only [mention_bracket, List.length_append, List.length_cons, l7]
    omega
  rw [hlen, sub_bracket_succ]
  rw [show matchBracket (mention_bracket d1 d2 post) = some (d1, d2, post) from
    matchBracket_mention hd1 hd1d hd2 hd2d hph]
  dsimp only
  rw [show bracket_replacement ch d1 d2
      = toChars "[Глава " ++ d1 ++ '.' :: d2 ++ toChars "](" ++ chapter_url t ++ [')'] from by
    unfold bracket_replacement; rw [hT]]
  rw [sub_bracket_id_of_match_free _ _ (matchfree_bracket_of_ascii hpost)]
  simp only [resolved_plain, List.append_assoc, List.cons_append, List.nil_append]
  rfl

theorem prevOf_pre_free {pre : Chars}
    (h1 : pre.getLast? ≠ some '[') (h2 : pre.getLast? ≠ some '*') :
    ¬(prevOf none pre = some '[' ∨ prevOf none pre = some '*') := by
  intro hc
  cases hl : pre.getLast? with
  | some c =>
    rcases hc with hc | hc
    · rw [prevOf, hl] at hc; exact h1 (hl.trans hc)
    · rw [prevOf, hl] at hc; exact h2 (hl.trans hc)
  | none =>
    rcases hc with hc | hc <;> (rw [prevOf, hl] at hc; exact Option.noConfusion hc)

theorem sub_plain_comp_mention {ch : List Chapter} {t : Chapter} {pre w d1 d2 post : Chars}
    (hT : find_target_chapter ch d1 d2 = some t)
    (hw : ∃ g e, w = [g, 'л', 'а', 'в', e] ∧ (g = 'Г' ∨ g = 'г') ∧
      (e = 'а' ∨ e = 'е' ∨ e = 'у' ∨ e = 'ы'))
    (hpre : ascii_str pre)
    (hpreL1 : pre.getLast? ≠ some '[') (hpreL2 : pre.getLast? ≠ some '*')
    (hd1 : d1 ≠ []) (hd1d : ∀ c ∈ d1, c.isDigit = true)
    (hd2 : d2 ≠ []) (hd2d : ∀ c ∈ d2, c.isDigit = true)
    (hpost : ascii_str post) (hph : post.head? ≠ some ']')
    (hphd : ∀ c, post.head? = some c → c.isDigit = false) :
    sub_plain' ch (pre ++ mention_plain w d1 d2 post)
      = pre ++ resolved_plain w d1 d2 (chapter_url t) post := by
  obtain ⟨g, e, hwe, hg, he⟩ := hw
  unfold sub_plain'
  rw [show (pre ++ mention_plain w d1 d2 post).length
      = pre.length + (mention_plain w d1 d2 post).length from by simp]
  rw [sub_plain_skip _ pre (seg_ascii_plain hpre)]
  have hlen : (mention_plain w d1 d2 post).length
      = (6 + d1.length + d2.length + post.length) + 1 := by
    simp only [mention_plain, hwe, List.length_append, List.length_cons, List.length_nil]
    omega
  rw [hlen, sub_plain_succ, if_neg (prevOf_pre_free hpreL1 hpreL2)]
  rw [show matchPlain (mention_plain w d1 d2 post) = some (w, d1, d2, post) from
    matchPlain_mention ⟨g, e, hwe, hg, he⟩ hd1 hd1d hd2 hd2d hph hphd]
  dsimp only
  rw [show plain_replacement ch w d1 d2
      = '[' :: w ++ ' ' :: d1 ++ '.' :: d2 ++ toChars "](" ++ chapter_url t ++ [')'] from by
    unfold plain_replacement; rw [hT]]
  rw [sub_plain_id_of_no_glava _ _ _ (ascii_no_glava_mem hpost).1 (ascii_no_glava_mem hpost).2]
  simp only [resolved_plain, List.append_assoc, List.cons_append, List.nil_append]

theorem sub_plain_id_top {ch : List Chapter} {U : Chars} (hf : matchfree_plain none U)
    (fuel : Nat) : sub_plain ch fuel none U = U :=
  sub_plain_id_of_match_free hf fuel [] U rfl

/-- **C4 (amended).** The resolver is idempotent on safe mentions: for a
target chapter whose URL is 7-bit, a 7-bit context (`pre` not ending in `[`
or `*`, `post` not starting with `]`, `(` or a digit), and each of the three
mention shapes, one application produces the link and a second application
returns its own output unchanged. -/
theorem claim_C4_resolved_links_not_rematched (chapters : List Chapter) (t : Chapter) (pre w d1 d2 post : Chars)
    (hT : find_target_chapter chapters d1 d2 = some t)
    (hurl : ascii_str (chapter_url t))
    (hw : ∃ g e, w = [g, 'л', 'а', 'в', e] ∧ (g = 'Г' ∨ g = 'г') ∧
      (e = 'а' ∨ e = 'е' ∨ e = 'у' ∨ e = 'ы'))
    (hpre : ascii_str pre)
    (hpreL1 : pre.getLast? ≠ some '[') (hpreL2 : pre.getLast? ≠ some '*')
    (hd1 : d1 ≠ []) (hd1d : ∀ c ∈ d1, c.isDigit = true)
    (hd2 : d2 ≠ []) (hd2d : ∀ c ∈ d2, c.isDigit = true)
    (hpost : ascii_str post)
    (hph : ∀ c, post.head? = some c → c ≠ ']' ∧ c ≠ '(' ∧ c.isDigit = false) :
    (convert_chapter_links chapters (pre ++ mention_bold d1 d2 post)
       = pre ++ resolved_bold d1 d2 (chapter_url t) post) ∧
    (convert_chapter_links chapters (pre ++ resolved_bold d1 d2 (chapter_url t) post)
       = pre ++ resolved_bold d1 d2 (chapter_url t) post) ∧
    (convert_chapter_links chapters (pre ++ mention_bracket d1 d2 post)
       = pre ++ resolved_plain (toChars "Глава") d1 d2 (chapter_url t) post) ∧
    (convert_chapter_links chapters (pre ++ mention_plain w d1 d2 post)
       = pre ++ resolved_plain w d1 d2 (chapter_url t) post) ∧
    (convert_chapter_links chapters (pre ++ resolved_plain w d1 d2 (chapter_url t) post)
       = pre ++ resolved_plain w d1 d2 (chapter_url t) post) := by
  have hph1 : post.head? ≠ some ']' := fun h => (hph ']' h).1 rfl
  have hph2 : post.head? ≠ some '(' := fun h => (hph '(' h).2.1 rfl
  have hphd : ∀ c, post.head? = some c → c.isDigit = false := fun c h => (hph c h).2.2
  have hwG : ∃ g e, toChars "Глава" = [g, 'л', 'а', 'в', e] ∧ (g = 'Г' ∨ g = 'г') ∧
      (e = 'а' ∨ e = 'е' ∨ e = 'у' ∨ e = 'ы') :=
    ⟨'Г', 'а', rfl, Or.inl rfl, Or.inl rfl⟩
  have hidRB : convert_chapter_links chapters
      (pre ++ resolved_bold d1 d2 (chapter_url t) post)
      = pre ++ resolved_bold d1 d2 (chapter_url t) post := by
    unfold convert_chapter_links sub_bold' sub_bracket'
    rw [sub_bold_id_of_match_free _ _ (mf_bold_resolved_bold hpre hd1 hd1d hd2 hd2d hurl hpost),
      sub_bracket_id_of_match_free _ _ (mf_bracket_resolved_bold hpre hd1d hd2d hurl hpost)]
    unfold sub_plain'
    rw [sub_plain_id_top (mf_plain_resolved_bold hpre hd1d hd2d hurl hpost)]
  have hidRW : ∀ w', (∃ g e, w' = [g, 'л', 'а', 'в', e] ∧ (g = 'Г' ∨ g = 'г') ∧
      (e = 'а' ∨ e = 'е' ∨ e = 'у' ∨ e = 'ы')) →
      convert_chapter_links chapters (pre ++ resolved_plain w' d1 d2 (chapter_url t) post)
      = pre ++ resolved_plain w' d1 d2 (chapter_url t) post := by
    intro w' hw'
    unfold convert_chapter_links sub_bold' sub_bracket'
    rw [sub_bold_id_of_match_free _ _ (mf_bold_resolved_plain hpre hw' hd1d hd2d hurl hpost),
      sub_bracket_id_of_match_free _ _
        (mf_bracket_resolved_plain hpre hw' hd1 hd1d hd2 hd2d hurl hpost)]
    unfold sub_plain'
    rw [sub_plain_id_top (mf_plain_resolved_plain hpre hw' hd1d hd2d hurl hpost)]
  refine ⟨?_, hidRB, ?_, ?_, hidRW w hw⟩
  · unfold convert_chapter_links
    rw [sub_bold_comp_mention hT hpre hd1 hd1d hd2 hd2d hpost hph1]
    unfold sub_bracket'
    rw [sub_bracket_id_of_match_free _ _ (mf_bracket_resolved_bold hpre hd1d hd2d hurl hpost)]
    unfold sub_plain'
    rw [sub_plain_id_top (mf_plain_resolved_bold hpre hd1d hd2d hurl hpost)]
  · unfold convert_chapter_links sub_bold'
    rw [sub_bold_id_of_match_free _ _ (mf_bold_mention_bracket hpre hd1d hd2d hpost)]
    rw [sub_bracket_comp_mention hT hpre hd1 hd1d hd2 hd2d hpost hph2]
    unfold sub_plain'
    rw [sub_plain_id_top (mf_plain_resolved_plain hpre hwG hd1d hd2d hurl hpost)]
  · unfold convert_chapter_links sub_bold'
    rw [sub_bold_id_of_match_free _ _ (mf_bold_mention_plain hpre hpreL2 hw hd1d hd2d hpost)]
    unfold sub_bracket'
    rw [sub_bracket_id_of_match_free _ _ (mf_bracket_mention_plain hpre hpreL1 hw hd1d hd2d hpost)]
    rw [sub_plain_comp_mention hT hw hpre hpreL1 hpreL2 hd1 hd1d hd2 hd2d hpost hph1 hphd]

/-- **C4 (counterexample).** The claim quantifies over every Catalog and
every text; for a catalog whose slug itself contains a chapter mention the
resolver is not idempotent: the second pass rewrites inside the URL the
first pass generated. -/
theorem claim_C4_cex_adversarial_slug :
    convert_chapter_links advCatalog (toChars "Глава 1.1")
      = toChars "[Глава 1.1](01_01_глава 1.1 foo.md)" ∧
    convert_chapter_links advCatalog
        (convert_chapter_links advCatalog (toChars "Глава 1.1"))
      ≠ convert_chapter_links advCatalog (toChars "Глава 1.1") := by
  constructor
  · decide
  · decide

theorem claim_C4_witness :
    convert_chapter_links demoCatalog
        (toChars "See " ++ mention_bold (toChars "2") (toChars "1") (toChars " etc."))
      = toChars "See " ++ resolved_bold (toChars "2") (toChars "1")
          (chapter_url ⟨toChars "02", toChars "01", toChars "osnovy", toChars "Основы", toChars "02_01_osnovy.md"⟩) (toChars " etc.") ∧
    convert_chapter_links demoCatalog
        (toChars "See " ++ resolved_bold (toChars "2") (toChars "1")
          (chapter_url ⟨toChars "02", toChars "01", toChars "osnovy", toChars "Основы", toChars "02_01_osnovy.md"⟩) (toChars " etc."))
      = toChars "See " ++ resolved_bold (toChars "2") (toChars "1")
          (chapter_url ⟨toChars "02", toChars "01", toChars "osnovy", toChars "Основы", toChars "02_01_osnovy.md"⟩) (toChars " etc.") := by
  have h := claim_C4_resolved_links_not_rematched demoCatalog
    ⟨toChars "02", toChars "01", toChars "osnovy", toChars "Основы", toChars "02_01_osnovy.md"⟩
    (toChars "See ") (toChars "главе") (toChars "2") (toChars "1") (toChars " etc.")
    (by decide) (by decide)
    ⟨'г', 'е', rfl, Or.inr rfl, Or.inr (Or.inl rfl)⟩
    (by decide) (by decide) (by decide) (by decide) (by decide) (by decide) (by decide)
    (by decide)
    (by
      intro c hc
      have hc' : some ' ' = some c := hc
      injection hc' with h2
      subst h2
      exact ⟨by decide, by decide, by decide⟩)
  exact ⟨h.1, h.2.1⟩

end Build
